import Mathlib

/-!
Order book of `jtfirek/crypto-exchange`

A shallow embedding of `orderbook/orderbook.go` (and of the request handlers of
`main.go` that call it), followed by theorems about it.

Modelling conventions.

* Go pointers `*Order` and `*Limit` are addresses (`Nat`) into two heaps kept in
  `State`; the nil pointer of the back-reference `Order.Limit` is `none`.
* `float64` sizes and prices are exact rationals, and the additions and
  subtractions of the code are exact.  What is proved of sums and differences
  therefore holds of the code wherever its float64 arithmetic is exact (on
  integer sizes with totals below 2 ^ 53, for instance).  Where a property turns
  on the rounding, the float64 reading of the function is given beside the
  exact one, with `round64`.
* A Go slice is a window on a backing array.  `Slice.vis` is the window
  (`s[0:len(s)]`), `Slice.stale` is what the backing array holds behind it.  A
  `range` loop evaluates its slice once and afterwards reads the backing array
  by index, so a loop body that shrinks the slice it ranges over is seen
  through `Slice.get`.
* Go maps are functions into `Option`; the code never iterates over a map.
* `sort.Sort` is the insertion sort that Go runs on slices of at most twelve
  elements; on keys that are pairwise different every sorting algorithm
  returns the same slice.  On longer slices with equal keys `sort.Sort` may
  leave the equal keys in another order, so the theorems state of a sorted
  slice only what holds of every sorted permutation, or assume keys that are
  pairwise different.
* A Go `panic` is the `Except.error` outcome; every operation returns the
  outcome together with the state it leaves behind.
-/

namespace CryptoExchange

/-! ## Data model -/

/-- Order of `orderbook.go`: a request to buy or sell a certain amount. -/
structure Order where
  ID : Int
  Size : ℚ
  Bid : Bool
  Limit : Option Nat
  Timestamp : Int
deriving DecidableEq

/-- Match of `orderbook.go`; `Ask` and `Bid` are order pointers. -/
structure Match where
  Ask : Nat
  Bid : Nat
  SizeFilled : ℚ
  Price : ℚ
deriving DecidableEq

/-- Slice of pointers: the visible window and the rest of the backing array. -/
structure Slice where
  vis : List Nat
  stale : List Nat
deriving DecidableEq

/-- Limit of `orderbook.go`: a price level. -/
structure Limit where
  Price : ℚ
  Orders : Slice
  TotalVolume : ℚ
deriving DecidableEq

/-- OrderBook of `orderbook.go`. -/
structure OrderBook where
  asks : Slice
  bids : Slice
  AskLimits : ℚ → Option Nat
  BidLimits : ℚ → Option Nat
  Orders : Int → Option Nat

/-- The two heaps, the allocation counter of `NewLimit`, and the book. -/
structure State where
  order : Nat → Order
  limit : Nat → Limit
  nextLimit : Nat
  ob : OrderBook

/-- The ways in which the code aborts: the explicit `panic(fmt.Errorf("not enough
volume ..."))` of `PlaceMarketOrder`, and the run-time panic of a nil dereference. -/
inductive Panic where
  | notEnoughVolume (volume size : ℚ)
  | nilDereference
deriving DecidableEq

/-! ## Slices -/

/-- Go `len(s)`. -/
def Slice.len (s : Slice) : Nat := s.vis.length

/-- Go `s[k]` read from the backing array (what a running `range` loop does). -/
def Slice.get (s : Slice) (k : Nat) : Nat := (s.vis ++ s.stale).getD k 0

/-- Go `append(s, x)`: written in place when the backing array has room. -/
def Slice.append (s : Slice) (x : Nat) : Slice := ⟨s.vis ++ [x], s.stale.tail⟩

/-- Go `s[i] = s[len(s)-1]; s = s[:len(s)-1]`. -/
def Slice.swapRemove (s : Slice) (i : Nat) : Slice :=
  ⟨(s.vis.set i (s.get (s.len - 1))).dropLast, s.get (s.len - 1) :: s.stale⟩

/-- The loop shared by `DeleteOrder` and `clearLimit`:
`for i := 0; i < len(s); i++ { if s[i] == x { s[i] = s[len(s)-1]; s = s[:len(s)-1] } }`.
The first argument bounds the number of iterations; `len(s)` suffices, since
`i` grows and `len(s)` never does. -/
def removeLoop (x : Nat) : Nat → Nat → Slice → Slice
  | 0, _, s => s
  | fuel + 1, i, s =>
    if i < s.len then
      if s.get i = x then removeLoop x fuel (i + 1) (s.swapRemove i)
      else removeLoop x fuel (i + 1) s
    else s

/-- The whole removal loop, started at `i = 0`. -/
def Slice.remove (s : Slice) (x : Nat) : Slice := removeLoop x s.len 0 s

/-- Go `sort.Sort` on the window, for the order `r` = "not `Less(j, i)`": the
insertion sort that `sort.Sort` runs on at most twelve elements.  On more
elements it agrees with `sort.Sort` when the keys are pairwise different. -/
def Slice.sortBy (r : Nat → Nat → Prop) [DecidableRel r] (s : Slice) : Slice :=
  ⟨s.vis.insertionSort r, s.stale⟩

/-! ## Orders and limits -/

/-- NewOrder: `ID` comes from `rand.Intn`, `Timestamp` from the clock. -/
def NewOrder (bid : Bool) (size : ℚ) (id ts : Int) : Order :=
  { ID := id, Size := size, Bid := bid, Limit := none, Timestamp := ts }

/-- IsFilled: `o.Size == 0.0`. -/
def IsFilled (s : State) (o : Nat) : Bool := decide ((s.order o).Size = 0)

/-- NewLimit: an empty level at `price`. -/
def NewLimit (price : ℚ) : Limit :=
  { Price := price, Orders := ⟨[], []⟩, TotalVolume := 0 }

/-- Write the `Size` field of order `o`. -/
def State.setSize (s : State) (o : Nat) (v : ℚ) : State :=
  { s with order := Function.update s.order o { s.order o with Size := v } }

/-- Write the `Limit` field of order `o`. -/
def State.setLimit (s : State) (o : Nat) (l : Option Nat) : State :=
  { s with order := Function.update s.order o { s.order o with Limit := l } }

/-- Write the `Orders` field of level `l`. -/
def State.setOrders (s : State) (l : Nat) (os : Slice) : State :=
  { s with limit := Function.update s.limit l { s.limit l with Orders := os } }

/-- Write the `TotalVolume` field of level `l`. -/
def State.setVolume (s : State) (l : Nat) (v : ℚ) : State :=
  { s with limit := Function.update s.limit l { s.limit l with TotalVolume := v } }

/-- The order `Orders.Less` induces: `i` may stand before `j` unless `j` is older. -/
def olderEq (s : State) (a b : Nat) : Prop :=
  (s.order a).Timestamp ≤ (s.order b).Timestamp

instance (s : State) : DecidableRel (olderEq s) :=
  fun a b => inferInstanceAs (Decidable ((s.order a).Timestamp ≤ (s.order b).Timestamp))

/-- AddOrder of `Limit`. -/
def AddOrder (s : State) (l o : Nat) : State :=
  let s1 := s.setLimit o (some l)
  let s2 := s1.setOrders l ((s1.limit l).Orders.append o)
  s2.setVolume l ((s2.limit l).TotalVolume + (s2.order o).Size)

/-- DeleteOrder of `Limit`, for a receiver `l` that is not nil. -/
def DeleteOrder (s : State) (l o : Nat) : State :=
  let s1 := s.setOrders l ((s.limit l).Orders.remove o)
  let s2 := s1.setLimit o none
  let s3 := s2.setVolume l ((s2.limit l).TotalVolume - (s2.order o).Size)
  s3.setOrders l ((s3.limit l).Orders.sortBy (olderEq s3))

/-- The method fillOrder of `Limit`; the fields are read and written in the order
of the source, so that `a = b` behaves as it does there. -/
def fillOrder (s : State) (l a b : Nat) : State × Match :=
  let bid := if (s.order a).Bid then a else b
  let ask := if (s.order a).Bid then b else a
  if (s.order a).Size ≥ (s.order b).Size then
    let s1 := s.setSize a ((s.order a).Size - (s.order b).Size)
    let sizeFilled := (s1.order b).Size
    let s2 := s1.setSize b 0
    (s2, { Bid := bid, Ask := ask, SizeFilled := sizeFilled, Price := (s2.limit l).Price })
  else
    let s1 := s.setSize b ((s.order b).Size - (s.order a).Size)
    let sizeFilled := (s1.order a).Size
    let s2 := s1.setSize a 0
    (s2, { Bid := bid, Ask := ask, SizeFilled := sizeFilled, Price := (s2.limit l).Price })

/-- The first loop of `Fill`, over the orders of the level as they stood when the
loop began (the body does not touch `l.Orders`); carries `matches` and
`ordersToDelete`. -/
def fillLoop (l o : Nat) : List Nat → State → List Match → List Nat →
    State × List Match × List Nat
  | [], s, ms, del => (s, ms, del)
  | order :: rest, s, ms, del =>
    let r := fillOrder s l order o
    let ms1 := ms ++ [r.2]
    let s1 := r.1.setVolume l ((r.1.limit l).TotalVolume - r.2.SizeFilled)
    let del1 := if IsFilled s1 order then del ++ [order] else del
    if IsFilled s1 o then (s1, ms1, del1) else fillLoop l o rest s1 ms1 del1

/-- Fill of `Limit`: the matching loop, then the deferred deletions. -/
def Fill (s : State) (l o : Nat) : State × List Match :=
  let r := fillLoop l o (s.limit l).Orders.vis s [] []
  (r.2.2.foldl (fun t order => DeleteOrder t l order) r.1, r.2.1)

/-! ## The book -/

/-- NewOrderBook, over a heap `h` of orders none of which rests anywhere. -/
def NewOrderBook (h : Nat → Order) : State :=
  { order := fun p => { h p with Limit := none }
    limit := fun _ => NewLimit 0
    nextLimit := 0
    ob := { asks := ⟨[], []⟩, bids := ⟨[], []⟩,
            AskLimits := fun _ => none, BidLimits := fun _ => none,
            Orders := fun _ => none } }

/-- BidTotalVolume (the `fmt.Println` in its loop prints and changes nothing), with
exact additions. -/
def BidTotalVolume (s : State) : ℚ :=
  s.ob.bids.vis.foldl (fun acc l => acc + (s.limit l).TotalVolume) 0

/-- AskTotalVolume, with exact additions; `AskTotalVolume64` is the same loop with
float64 additions. -/
def AskTotalVolume (s : State) : ℚ :=
  s.ob.asks.vis.foldl (fun acc l => acc + (s.limit l).TotalVolume) 0

/-- The order of `ByBestAsk.Less`: ascending price. -/
def cheaperEq (s : State) (a b : Nat) : Prop := (s.limit a).Price ≤ (s.limit b).Price

/-- The order of `ByBestBid.Less`: descending price. -/
def dearerEq (s : State) (a b : Nat) : Prop := (s.limit b).Price ≤ (s.limit a).Price

instance (s : State) : DecidableRel (cheaperEq s) :=
  fun a b => inferInstanceAs (Decidable ((s.limit a).Price ≤ (s.limit b).Price))

instance (s : State) : DecidableRel (dearerEq s) :=
  fun a b => inferInstanceAs (Decidable ((s.limit b).Price ≤ (s.limit a).Price))

/-- Asks: sorts `ob.asks` in place; the caller then reads `ob.asks`. -/
def Asks (s : State) : State :=
  { s with ob := { s.ob with asks := s.ob.asks.sortBy (cheaperEq s) } }

/-- Bids: sorts `ob.bids` in place; the caller then reads `ob.bids`. -/
def Bids (s : State) : State :=
  { s with ob := { s.ob with bids := s.ob.bids.sortBy (dearerEq s) } }

/-- The method clearLimit of `OrderBook`. -/
def clearLimit (s : State) (bid : Bool) (l : Nat) : State :=
  if bid then
    { s with ob := { s.ob with
        BidLimits := Function.update s.ob.BidLimits (s.limit l).Price none
        bids := s.ob.bids.remove l } }
  else
    { s with ob := { s.ob with
        AskLimits := Function.update s.ob.AskLimits (s.limit l).Price none
        asks := s.ob.asks.remove l } }

/-- The side a market order sweeps: the asks for a buy, the bids for a sell. -/
def contra (s : State) (buy : Bool) : Slice := if buy then s.ob.asks else s.ob.bids

/-- The loop `for _, limit := range ob.Asks()` (for a buy, `buy = true`) or
`for _, limit := range ob.Bids()` (for a sell) of `PlaceMarketOrder`, over the
indices `ks` still to come.  The level is read from the backing array at each
step, after whatever `clearLimit` has written into it. -/
def sweep (buy : Bool) (o : Nat) : List Nat → State → List Match → State × List Match
  | [], s, ms => (s, ms)
  | k :: ks, s, ms =>
    let limit := (contra s buy).get k
    let r := Fill s limit o
    let s1 := if (r.1.limit limit).Orders.len = 0 then clearLimit r.1 (!buy) limit else r.1
    sweep buy o ks s1 (ms ++ r.2)

/-- PlaceMarketOrder. -/
def PlaceMarketOrder (s : State) (o : Nat) : Except Panic (List Match) × State :=
  if (s.order o).Bid then
    if (s.order o).Size > AskTotalVolume s then
      (.error (.notEnoughVolume (AskTotalVolume s) (s.order o).Size), s)
    else
      let s1 := Asks s
      let r := sweep true o (List.range s1.ob.asks.len) s1 []
      (.ok r.2, r.1)
  else
    if (s.order o).Size > BidTotalVolume s then
      (.error (.notEnoughVolume (BidTotalVolume s) (s.order o).Size), s)
    else
      let s1 := Bids s
      let r := sweep false o (List.range s1.ob.bids.len) s1 []
      (.ok r.2, r.1)

/-- The lookup `limit = ob.BidLimits[price]` or `limit = ob.AskLimits[price]`. -/
def lookupLimit (s : State) (price : ℚ) (o : Nat) : Option Nat :=
  if (s.order o).Bid then s.ob.BidLimits price else s.ob.AskLimits price

/-- The body of `if limit == nil` in `PlaceLimitOrder`: a new level, allocated at
`s.nextLimit`, appended to the slice of its side and entered in its map. -/
def createLimit (s : State) (price : ℚ) (bid : Bool) : State :=
  let l := s.nextLimit
  let s1 := { s with limit := Function.update s.limit l (NewLimit price), nextLimit := l + 1 }
  if bid then
    { s1 with ob := { s1.ob with
        bids := s1.ob.bids.append l
        BidLimits := Function.update s1.ob.BidLimits price (some l) } }
  else
    { s1 with ob := { s1.ob with
        asks := s1.ob.asks.append l
        AskLimits := Function.update s1.ob.AskLimits price (some l) } }

/-- The statement `ob.Orders[o.ID] = o`. -/
def register (s : State) (o : Nat) : State :=
  { s with ob := { s.ob with Orders := Function.update s.ob.Orders (s.order o).ID (some o) } }

/-- PlaceLimitOrder: the level found in the map of the order's side, or a new one,
then `ob.Orders[o.ID] = o` and `limit.AddOrder(o)`.  It returns nothing. -/
def PlaceLimitOrder (s : State) (price : ℚ) (o : Nat) : State :=
  match lookupLimit s price o with
  | some l => AddOrder (register s o) l o
  | none => AddOrder (register (createLimit s price (s.order o).Bid) o) s.nextLimit o

/-- The statement `delete(ob.Orders, o.ID)`. -/
def unregister (s : State) (o : Nat) : State :=
  { s with ob := { s.ob with Orders := Function.update s.ob.Orders (s.order o).ID none } }

/-- CancelOrder.  With `o.Limit == nil` the call `limit.DeleteOrder(o)` panics on
its first access to `l.Orders`, before anything is written. -/
def CancelOrder (s : State) (o : Nat) : Except Panic Unit × State :=
  match (s.order o).Limit with
  | none => (.error .nilDereference, s)
  | some l =>
    let s1 := DeleteOrder s l o
    (.ok (), unregister s1 o)

deriving instance DecidableEq for Except

/-! ## Properties of books -/

/-- No bid level is priced at or above an ask level that holds orders. -/
def Uncrossed (s : State) : Prop :=
  ∀ b ∈ s.ob.bids.vis, ∀ a ∈ s.ob.asks.vis,
    (s.limit a).Orders.vis ≠ [] → (s.limit b).Price < (s.limit a).Price

instance (s : State) : Decidable (Uncrossed s) := by
  unfold Uncrossed; infer_instance

/-! ## Histories of a book -/

/-- The three operations of the book. -/
inductive Op where
  | limit (price : ℚ) (o : Nat)
  | market (o : Nat)
  | cancel (o : Nat)
deriving DecidableEq

/-- The state an operation leaves behind (for a panic, the state at the panic). -/
def step (s : State) : Op → State
  | .limit price o => PlaceLimitOrder s price o
  | .market o => (PlaceMarketOrder s o).2
  | .cancel o => (CancelOrder s o).2

/-- The state after a sequence of operations. -/
def run (s : State) (ops : List Op) : State := ops.foldl step s

/-- The levels of the book: the asks, then the bids. -/
def levels (s : State) : List Nat := s.ob.asks.vis ++ s.ob.bids.vis

/-- Order `o` rests in a level of the book. -/
def Resting (s : State) (o : Nat) : Prop := ∃ l ∈ levels s, o ∈ (s.limit l).Orders.vis

instance (s : State) (o : Nat) : Decidable (Resting s o) := by
  unfold Resting; infer_instance

/-- The operation is one the claims speak of: a placed order is one that has not
been placed (its back-reference is nil, as `NewOrder` leaves it), a market order
does not fail, and a cancelled order rests in the book. -/
def Op.ok (s : State) : Op → Prop
  | .limit _ o => (s.order o).Limit = none
  | .market o => (s.order o).Limit = none ∧ (PlaceMarketOrder s o).1.isOk = true
  | .cancel o => Resting s o

instance (s : State) (op : Op) : Decidable (op.ok s) := by
  cases op <;> unfold Op.ok <;> infer_instance

/-- A limit order carries a timestamp later than that of every resting order. -/
def Op.timely (s : State) : Op → Prop
  | .limit _ o => ∀ l ∈ levels s, ∀ x ∈ (s.limit l).Orders.vis,
      (s.order x).Timestamp < (s.order o).Timestamp
  | _ => True

instance (s : State) (op : Op) : Decidable (op.timely s) := by
  cases op <;> unfold Op.timely <;> infer_instance

/-- Every operation of the sequence satisfies `P` in the state it is applied to. -/
def Trace (P : State → Op → Prop) (s : State) : List Op → Prop
  | [] => True
  | op :: ops => P s op ∧ Trace P (step s op) ops

instance (P : State → Op → Prop) [∀ s op, Decidable (P s op)] (s : State) (ops : List Op) :
    Decidable (Trace P s ops) := by
  induction ops generalizing s with
  | nil => exact isTrue trivial
  | cons op ops ih => unfold Trace; exact instDecidableAnd

/-- The sum of the sizes of the orders `os`. -/
def sizeSum (s : State) (os : List Nat) : ℚ := (os.map fun x => (s.order x).Size).sum

/-- Every level of either side has `TotalVolume` equal to the sum of the sizes of
its orders. -/
def VolumeInvariant (s : State) : Prop :=
  ∀ l ∈ levels s, (s.limit l).TotalVolume = sizeSum s (s.limit l).Orders.vis

/-- Structural well-formedness of a book: levels are pairwise different objects
allocated by `NewLimit`, no level lists an order twice, every listed order
points back to its level, and the volume invariant holds. -/
structure WF (s : State) : Prop where
  levels_nodup : (levels s).Nodup
  levels_lt : ∀ l ∈ levels s, l < s.nextLimit
  orders_nodup : ∀ l ∈ levels s, (s.limit l).Orders.vis.Nodup
  backref : ∀ l ∈ levels s, ∀ x ∈ (s.limit l).Orders.vis, (s.order x).Limit = some l
  volume : VolumeInvariant s

/-- Every order has a size that is not negative. -/
def SizesNonneg (s : State) : Prop := ∀ p, 0 ≤ (s.order p).Size

/-- One of the two parties of the match is `x`. -/
def Match.has (m : Match) (x : Nat) : Prop := m.Ask = x ∨ m.Bid = x

instance (m : Match) (x : Nat) : Decidable (m.has x) := by
  unfold Match.has; infer_instance

/-- The level `PlaceLimitOrder` adds the order to: the one found in the map of the
order's side, or the one it allocates. -/
def targetLimit (s : State) (price : ℚ) (o : Nat) : Nat :=
  (lookupLimit s price o).getD s.nextLimit

/-! ## The cancel request handler of `main.go` -/

/-- What `Exchange.cancelOrder` answers: the JSON message "order canceled", or
nothing at all (`return nil`). -/
inductive Response where
  | orderCanceled
  | nothing
deriving DecidableEq

/-- The loop `for _, order := range limit.Orders` of the handler, over the indices
`ks` still to come; `c` is the flag `orderCanceled`.  `CancelOrder` rewrites the
backing array the loop reads from. -/
def cancelScan (id : Int) (limit : Nat) : List Nat → State → Bool → Except Panic Bool × State
  | [], s, c => (.ok c, s)
  | k :: ks, s, c =>
    if (s.order ((s.limit limit).Orders.get k)).ID = id then
      match CancelOrder s ((s.limit limit).Orders.get k) with
      | (.error e, s1) => (.error e, s1)
      | (.ok _, s1) => cancelScan id limit ks s1 true
    else cancelScan id limit ks s c

/-- The loop `for _, limit := range ob.Asks()` (or `ob.Bids()`) of the handler,
which returns as soon as a level has had an order cancelled; the body leaves the
slice of levels alone. -/
def cancelSide (id : Int) : List Nat → State → Except Panic Bool × State
  | [], s => (.ok false, s)
  | limit :: rest, s =>
    match cancelScan id limit (List.range (s.limit limit).Orders.len) s false with
    | (.error e, s1) => (.error e, s1)
    | (.ok true, s1) => (.ok true, s1)
    | (.ok false, s1) => cancelSide id rest s1

/-- The two loops of `Exchange.cancelOrder`, on the book `ob` that the handler has
read from the map, when that book is not nil. -/
def cancelLoops (s : State) (id : Int) : Except Panic Response × State :=
  match cancelSide id (Asks s).ob.asks.vis (Asks s) with
  | (.error e, s1) => (.error e, s1)
  | (.ok true, s1) => (.ok .orderCanceled, s1)
  | (.ok false, s1) =>
    match cancelSide id (Bids s1).ob.bids.vis (Bids s1) with
    | (.error e, s2) => (.error e, s2)
    | (.ok true, s2) => (.ok .orderCanceled, s2)
    | (.ok false, s2) => (.ok .nothing, s2)

/-- Market of `main.go`, a string. -/
abbrev Market := String

/-- MarketETH. -/
def MarketETH : Market := "ETH"

/-- Exchange of `main.go`: the map `orderbooks` from markets to books.  A market
without an entry reads as the nil book, `none`. -/
structure Exchange where
  orderbooks : Market → Option State

/-- NewExchange: `make(map[Market]*orderbook.OrderBook)`, the empty map.  No code
of the repository writes to `ex.orderbooks`. -/
def NewExchange : Exchange := { orderbooks := fun _ => none }

/-- The handler `Exchange.cancelOrder`: `ob := ex.orderbooks[MarketETH]`, then the
two loops.  With the nil book the first call, `ob.Asks()`, reads `ob.asks` through
the nil pointer and panics.  A book that is there is changed in place. -/
def cancelOrder (ex : Exchange) (id : Int) : Except Panic Response × Exchange :=
  match ex.orderbooks MarketETH with
  | none => (.error .nilDereference, ex)
  | some s =>
    ((cancelLoops s id).1,
      { orderbooks := Function.update ex.orderbooks MarketETH (some (cancelLoops s id).2) })

/-- No order resting in the book carries the id. -/
def UnknownID (s : State) (id : Int) : Prop :=
  ∀ l ∈ levels s, ∀ x ∈ (s.limit l).Orders.vis, (s.order x).ID ≠ id

instance (s : State) (id : Int) : Decidable (UnknownID s id) := by
  unfold UnknownID; infer_instance

/-- The relation "strictly older", on order pointers. -/
def older (s : State) (a b : Nat) : Prop := (s.order a).Timestamp < (s.order b).Timestamp

/-- Within every level the orders stand in strictly increasing timestamp order. -/
def TimeSorted (s : State) : Prop :=
  ∀ l ∈ levels s, (s.limit l).Orders.vis.Pairwise (older s)

/-- Every resting order has a size that is not negative. -/
def RestingNonneg (s : State) : Prop :=
  ∀ l ∈ levels s, ∀ x ∈ (s.limit l).Orders.vis, 0 ≤ (s.order x).Size

/-- Order `o` is listed by no level of the book. -/
def Fresh (s : State) (o : Nat) : Prop := ∀ l ∈ levels s, o ∉ (s.limit l).Orders.vis

/-- One turn of the first loop of `Fill`: `fillOrder`, then
`l.TotalVolume -= match.SizeFilled`. -/
def fillStep (s : State) (l a o : Nat) : State :=
  (fillOrder s l a o).1.setVolume l
    (((fillOrder s l a o).1.limit l).TotalVolume - (fillOrder s l a o).2.SizeFilled)

/-- State `t` differs from `s` at most in the sizes of orders and in the
`TotalVolume` of levels. -/
structure SameShape (s t : State) : Prop where
  ob : t.ob = s.ob
  next : t.nextLimit = s.nextLimit
  orders : ∀ p, (t.limit p).Orders = (s.limit p).Orders
  price : ∀ p, (t.limit p).Price = (s.limit p).Price
  backref : ∀ p, (t.order p).Limit = (s.order p).Limit
  timestamp : ∀ p, (t.order p).Timestamp = (s.order p).Timestamp
  side : ∀ p, (t.order p).Bid = (s.order p).Bid
  id : ∀ p, (t.order p).ID = (s.order p).ID

/-- The second loop of `Fill`: `for _, order := range ordersToDelete { l.DeleteOrder(order) }`. -/
def deleteAll (s : State) (l : Nat) (del : List Nat) : State :=
  del.foldl (fun t order => DeleteOrder t l order) s

/-- The sweep of `PlaceMarketOrder` over a given sequence of levels, one after the
other: `Fill`, then `clearLimit` if the level is left without orders. -/
def sweepLevels (buy : Bool) (o : Nat) : List Nat → State → List Match → State × List Match
  | [], s, ms => (s, ms)
  | l :: ls, s, ms =>
    let r := Fill s l o
    let s1 := if (r.1.limit l).Orders.len = 0 then clearLimit r.1 (!buy) l else r.1
    sweepLevels buy o ls s1 (ms ++ r.2)

/-- From index `k` on, the backing array of the slice still holds the levels `L`
the range loop started with, and these levels are still in the window. -/
structure Aligned (k : Nat) (sl : Slice) (L : List Nat) : Prop where
  nodup : sl.vis.Nodup
  len_le : sl.vis.length ≤ L.length
  get : ∀ j, k ≤ j → j < L.length → sl.get j = L.getD j 0
  mem : ∀ j, k ≤ j → j < L.length → L.getD j 0 ∈ sl.vis

/-- The book after `ob.Asks()` (for a buy) or `ob.Bids()` (for a sell). -/
def sortedSide (s : State) (buy : Bool) : State := if buy then Asks s else Bids s

/-- The total volume of the side a market order sweeps. -/
def contraVolume (s : State) (buy : Bool) : ℚ :=
  if buy then AskTotalVolume s else BidTotalVolume s

/-- A history on `sweepHeap`: the asks 3 @ 51 and 5 @ 50 are placed, a market buy of
6 sweeps them, a buy of 5 is placed at 49, and the rest of the ask at 51 is
cancelled. -/
def sampleHistory : List Op :=
  [Op.limit 51 1, Op.limit 50 0, Op.market 2, Op.limit 49 3, Op.cancel 1]

instance (s : State) : IsTotal Nat (olderEq s) :=
  ⟨fun a b => le_total (s.order a).Timestamp (s.order b).Timestamp⟩

instance (s : State) : IsTrans Nat (olderEq s) :=
  ⟨fun _ _ _ h1 h2 => le_trans h1 h2⟩

instance (s : State) : IsAntisymm Nat (older s) :=
  ⟨fun _ _ h1 h2 => absurd h1 (not_lt_of_gt h2)⟩

instance (s : State) : DecidableRel (older s) :=
  fun a b => inferInstanceAs (Decidable ((s.order a).Timestamp < (s.order b).Timestamp))

/-- The operation is one the claims speak of and, if it places a limit order, the
order is younger than every resting order. -/
def Op.okTimely (s : State) (op : Op) : Prop := op.ok s ∧ op.timely s

instance (s : State) (op : Op) : Decidable (op.okTimely s) := by
  unfold Op.okTimely; infer_instance

/-! ## Books used as concrete inputs -/

/-- Heap for the scenario of a resting buy and an incoming sell at the same price:
order 0 buys 10, order 1 sells 4. -/
def crossHeap : Nat → Order := fun p =>
  if p = 0 then NewOrder true 10 7 1 else NewOrder false 4 8 2

/-- Book holding only the buy of 10 at price 100. -/
def crossBook : State := run (NewOrderBook crossHeap) [Op.limit 100 0]

/-- Heap for the market-order scenarios: order 0 sells 5, order 1 sells 3,
order 2 buys 6, every other order buys 5. -/
def sweepHeap : Nat → Order := fun p =>
  if p = 0 then NewOrder false 5 11 1 else
  if p = 1 then NewOrder false 3 12 2 else
  if p = 2 then NewOrder true 6 13 3 else NewOrder true 5 14 4

/-- Book with the single ask level 5 @ 50. -/
def oneAskBook : State := run (NewOrderBook sweepHeap) [Op.limit 50 0]

/-- Book with the ask levels 5 @ 50 and 3 @ 51 (the dearer one placed first). -/
def twoAskBook : State := run (NewOrderBook sweepHeap) [Op.limit 51 1, Op.limit 50 0]

/-- Heap for the time-priority scenarios: the orders 0, 1 and 2 sell 2, 3 and 4 with
the timestamps 1, 2 and 3; every other order buys 4 with timestamp 9. -/
def queueHeap : Nat → Order := fun p =>
  if p = 0 then NewOrder false 2 21 1 else
  if p = 1 then NewOrder false 3 22 2 else
  if p = 2 then NewOrder false 4 23 3 else NewOrder true 4 24 9

/-- Book with the three sells of `queueHeap` resting at price 50, oldest first. -/
def queueBook : State :=
  run (NewOrderBook queueHeap) [Op.limit 50 0, Op.limit 50 1, Op.limit 50 2]

/-- The sum of the sizes filled by a list of matches. -/
def filled (ms : List Match) : ℚ := (ms.map Match.SizeFilled).sum

/-- The sum of the volumes of the levels `L`. -/
def volumeOf (s : State) (L : List Nat) : ℚ := (L.map fun l => (s.limit l).TotalVolume).sum

/-- One turn of the sweep of `PlaceMarketOrder`: `Fill` on the level, then
`clearLimit` if the level is left without orders. -/
def sweepStep (buy : Bool) (o : Nat) (s : State) (l : Nat) : State :=
  if ((Fill s l o).1.limit l).Orders.len = 0 then clearLimit (Fill s l o).1 (!buy) l
  else (Fill s l o).1

/-- What the sweep over the levels `L` for the incoming order `o` relies on: a
well-formed book that lists `o` nowhere, and pairwise different levels of it. -/
structure Sweepable (s : State) (o : Nat) (L : List Nat) : Prop where
  wf : WF s
  fresh : Fresh s o
  nodup : L.Nodup
  mem : ∀ l ∈ L, l ∈ levels s

instance (s : State) : Decidable (VolumeInvariant s) := by
  unfold VolumeInvariant; infer_instance

/-- Heap with a sell of negative size: order 0 sells 5, order 1 sells -2, order 2
buys 3, order 3 sells 4, every other order buys 1. -/
def negHeap : Nat → Order := fun p =>
  if p = 0 then NewOrder false 5 31 1 else
  if p = 1 then NewOrder false (-2) 32 2 else
  if p = 2 then NewOrder true 3 33 3 else
  if p = 3 then NewOrder false 4 34 4 else NewOrder true 1 35 5

/-- Book with the ask levels 5 @ 50 and -2 @ 51. -/
def negBook : State := run (NewOrderBook negHeap) [Op.limit 50 0, Op.limit 51 1]

/-- Book with the ask level 5 @ 50 and, at 51, the asks -2 and 4. -/
def negBook2 : State :=
  run (NewOrderBook negHeap) [Op.limit 50 0, Op.limit 51 1, Op.limit 51 3]

instance (s : State) : IsTotal Nat (cheaperEq s) :=
  ⟨fun a b => le_total (s.limit a).Price (s.limit b).Price⟩

instance (s : State) : IsTrans Nat (cheaperEq s) :=
  ⟨fun _ _ _ h1 h2 => le_trans h1 h2⟩

instance (s : State) : IsTotal Nat (dearerEq s) :=
  ⟨fun a b => le_total (s.limit b).Price (s.limit a).Price⟩

instance (s : State) : IsTrans Nat (dearerEq s) :=
  ⟨fun _ _ _ h1 h2 => le_trans h2 h1⟩

/-- For the taker of a market order, price `p` is strictly better than price `q`:
lower for a buy, higher for a sell. -/
def better (buy : Bool) (p q : ℚ) : Prop := if buy then p < q else q < p

/-- For the taker of a market order, price `p` is at least as good as price `q`. -/
def betterEq (buy : Bool) (p q : ℚ) : Prop := if buy then p ≤ q else q ≤ p

instance (buy : Bool) (p q : ℚ) : Decidable (better buy p q) := by
  unfold better; infer_instance

instance (buy : Bool) (p q : ℚ) : Decidable (betterEq buy p q) := by
  unfold betterEq; infer_instance

/-- The price map of the side a market order sweeps: `ob.AskLimits` for a buy,
`ob.BidLimits` for a sell. -/
def contraMap (s : State) (buy : Bool) : ℚ → Option Nat :=
  if buy then s.ob.AskLimits else s.ob.BidLimits

/-- Slice and price map of each side agree: the levels of the two slices are
pairwise different objects allocated by `NewLimit`, the map of a side has at the
price of each level of the slice of that side an entry pointing to that level,
and every entry of the map points to a level of the slice that has the price of
the key. -/
structure Indexed (s : State) : Prop where
  nodup : (levels s).Nodup
  lt : ∀ l ∈ levels s, l < s.nextLimit
  slice_map : ∀ buy, ∀ l ∈ (contra s buy).vis, contraMap s buy (s.limit l).Price = some l
  map_slice : ∀ buy p l, contraMap s buy p = some l →
    l ∈ (contra s buy).vis ∧ (s.limit l).Price = p

/-- Every order listed by an ask level is a sell and every order listed by a bid
level is a buy (`contra s true` are the asks, `contra s false` the bids). -/
def SideOK (s : State) : Prop :=
  ∀ buy, ∀ l ∈ (contra s buy).vis, ∀ x ∈ (s.limit l).Orders.vis, (s.order x).Bid = !buy

/-- Only resting orders point back to a level: an order whose back-reference is a
level is listed by that level, and that level is in the book. -/
def BackrefExact (s : State) : Prop :=
  ∀ x l, (s.order x).Limit = some l → l ∈ levels s ∧ x ∈ (s.limit l).Orders.vis

/-! ## The float64 reading of the volume sums -/

/-- The power `2 ^ e`, for an integer exponent. -/
def pow2 (e : Int) : ℚ :=
  if 0 ≤ e then ((2 ^ e.toNat : Nat) : ℚ) else 1 / ((2 ^ (-e).toNat : Nat) : ℚ)

/-- Halving `n` until it is below 2, counting the steps; the first argument bounds
the number of steps. -/
def halvings : Nat → Nat → Nat
  | 0, _ => 0
  | fuel + 1, n => if n < 2 then 0 else halvings fuel (n / 2) + 1

/-- The binary exponent of a rational `x` other than 0: the `e` with
`2 ^ e ≤ |x| < 2 ^ (e + 1)`. -/
def exponent (x : ℚ) : Int :=
  let e0 : Int := (halvings x.num.natAbs x.num.natAbs : Int) - (halvings x.den x.den : Int)
  if pow2 e0 ≤ (if x < 0 then -x else x) then e0 else e0 - 1

/-- The integer nearest to `m ≥ 0`, the even one of two that are equally near. -/
def nearestEven (m : ℚ) : Int :=
  let f : Int := m.num / (m.den : Int)
  if m - f < 1 / 2 then f
  else if m - f > 1 / 2 then f + 1
  else if f % 2 = 0 then f else f + 1

/-- The float64 nearest to the rational `x`: 53 significant bits, round to nearest,
ties to even (the rounding of every float64 addition and subtraction in Go), for
`x` within the range of the normal float64 numbers. -/
def round64 (x : ℚ) : ℚ :=
  if x = 0 then 0
  else
    let a : ℚ := if x < 0 then -x else x
    let ulp : ℚ := pow2 (exponent x - 52)
    let r : ℚ := (nearestEven (a / ulp) : ℚ) * ulp
    if x < 0 then -r else r

/-- AskTotalVolume as float64 computes it: each `totalVolume += ob.asks[i].TotalVolume`
rounds its sum. -/
def AskTotalVolume64 (s : State) : ℚ :=
  s.ob.asks.vis.foldl (fun acc l => round64 (acc + (s.limit l).TotalVolume)) 0

/-- Heap whose sizes are the float64 values of the decimals 0.1, 0.2 and 0.3: order
0 sells 0.1, order 1 sells 0.2, every other order sells 0.3. -/
def dustHeap : Nat → Order := fun p =>
  if p = 0 then NewOrder false (3602879701896397 / 36028797018963968) 41 1 else
  if p = 1 then NewOrder false (3602879701896397 / 18014398509481984) 42 2
  else NewOrder false (5404319552844595 / 18014398509481984) 43 3

/-- Book with the asks 0.1 @ 50 (level 0) and 0.2 @ 51 (level 1). -/
def dustBook : State := run (NewOrderBook dustHeap) [Op.limit 50 0, Op.limit 51 1]

/-! # Theorems -/

/-! ## Field lemmas -/

@[simp] theorem setSize_order (s : State) (o : Nat) (v : ℚ) (p : Nat) :
    (s.setSize o v).order p = if p = o then { s.order o with Size := v } else s.order p := by
  unfold State.setSize Function.update; by_cases h : p = o <;> simp [h]

@[simp] theorem setLimit_order (s : State) (o : Nat) (l : Option Nat) (p : Nat) :
    (s.setLimit o l).order p = if p = o then { s.order o with Limit := l } else s.order p := by
  unfold State.setLimit Function.update; by_cases h : p = o <;> simp [h]

@[simp] theorem setOrders_limit (s : State) (l : Nat) (os : Slice) (p : Nat) :
    (s.setOrders l os).limit p = if p = l then { s.limit l with Orders := os } else s.limit p := by
  unfold State.setOrders Function.update; by_cases h : p = l <;> simp [h]

@[simp] theorem setVolume_limit (s : State) (l : Nat) (v : ℚ) (p : Nat) :
    (s.setVolume l v).limit p =
      if p = l then { s.limit l with TotalVolume := v } else s.limit p := by
  unfold State.setVolume Function.update; by_cases h : p = l <;> simp [h]

@[simp] theorem setSize_limit (s : State) (o : Nat) (v : ℚ) :
    (s.setSize o v).limit = s.limit := rfl
@[simp] theorem setSize_ob (s : State) (o : Nat) (v : ℚ) : (s.setSize o v).ob = s.ob := rfl
@[simp] theorem setSize_next (s : State) (o : Nat) (v : ℚ) :
    (s.setSize o v).nextLimit = s.nextLimit := rfl
@[simp] theorem setLimit_limit (s : State) (o : Nat) (l : Option Nat) :
    (s.setLimit o l).limit = s.limit := rfl
@[simp] theorem setLimit_ob (s : State) (o : Nat) (l : Option Nat) :
    (s.setLimit o l).ob = s.ob := rfl
@[simp] theorem setLimit_next (s : State) (o : Nat) (l : Option Nat) :
    (s.setLimit o l).nextLimit = s.nextLimit := rfl
@[simp] theorem setOrders_order (s : State) (l : Nat) (os : Slice) :
    (s.setOrders l os).order = s.order := rfl
@[simp] theorem setOrders_ob (s : State) (l : Nat) (os : Slice) :
    (s.setOrders l os).ob = s.ob := rfl
@[simp] theorem setOrders_next (s : State) (l : Nat) (os : Slice) :
    (s.setOrders l os).nextLimit = s.nextLimit := rfl
@[simp] theorem setVolume_order (s : State) (l : Nat) (v : ℚ) :
    (s.setVolume l v).order = s.order := rfl
@[simp] theorem setVolume_ob (s : State) (l : Nat) (v : ℚ) :
    (s.setVolume l v).ob = s.ob := rfl
@[simp] theorem setVolume_next (s : State) (l : Nat) (v : ℚ) :
    (s.setVolume l v).nextLimit = s.nextLimit := rfl

@[simp] theorem register_order (s : State) (o : Nat) : (register s o).order = s.order := rfl
@[simp] theorem register_limit (s : State) (o : Nat) : (register s o).limit = s.limit := rfl
@[simp] theorem register_next (s : State) (o : Nat) :
    (register s o).nextLimit = s.nextLimit := rfl
@[simp] theorem register_asks (s : State) (o : Nat) : (register s o).ob.asks = s.ob.asks := rfl
@[simp] theorem register_bids (s : State) (o : Nat) : (register s o).ob.bids = s.ob.bids := rfl
@[simp] theorem register_AskLimits (s : State) (o : Nat) :
    (register s o).ob.AskLimits = s.ob.AskLimits := rfl
@[simp] theorem register_BidLimits (s : State) (o : Nat) :
    (register s o).ob.BidLimits = s.ob.BidLimits := rfl

@[simp] theorem unregister_order (s : State) (o : Nat) : (unregister s o).order = s.order := rfl
@[simp] theorem unregister_limit (s : State) (o : Nat) : (unregister s o).limit = s.limit := rfl
@[simp] theorem unregister_next (s : State) (o : Nat) :
    (unregister s o).nextLimit = s.nextLimit := rfl
@[simp] theorem unregister_asks (s : State) (o : Nat) :
    (unregister s o).ob.asks = s.ob.asks := rfl
@[simp] theorem unregister_bids (s : State) (o : Nat) :
    (unregister s o).ob.bids = s.ob.bids := rfl
@[simp] theorem unregister_AskLimits (s : State) (o : Nat) :
    (unregister s o).ob.AskLimits = s.ob.AskLimits := rfl
@[simp] theorem unregister_BidLimits (s : State) (o : Nat) :
    (unregister s o).ob.BidLimits = s.ob.BidLimits := rfl

@[simp] theorem createLimit_order (s : State) (price : ℚ) (bid : Bool) :
    (createLimit s price bid).order = s.order := by
  unfold createLimit; split <;> rfl

@[simp] theorem createLimit_limit (s : State) (price : ℚ) (bid : Bool) :
    (createLimit s price bid).limit = Function.update s.limit s.nextLimit (NewLimit price) := by
  unfold createLimit; split <;> rfl

@[simp] theorem createLimit_next (s : State) (price : ℚ) (bid : Bool) :
    (createLimit s price bid).nextLimit = s.nextLimit + 1 := by
  unfold createLimit; split <;> rfl

/-! ## AddOrder -/

theorem AddOrder_order (s : State) (l o p : Nat) :
    (AddOrder s l o).order p =
      if p = o then { s.order o with Limit := some l } else s.order p := by
  simp [AddOrder]

theorem AddOrder_limit (s : State) (l o p : Nat) :
    (AddOrder s l o).limit p =
      if p = l then
        { Price := (s.limit l).Price, Orders := (s.limit l).Orders.append o,
          TotalVolume := (s.limit l).TotalVolume + (s.order o).Size }
      else s.limit p := by
  by_cases h : p = l <;> simp [AddOrder, h]

@[simp] theorem AddOrder_ob (s : State) (l o : Nat) : (AddOrder s l o).ob = s.ob := rfl

@[simp] theorem AddOrder_next (s : State) (l o : Nat) :
    (AddOrder s l o).nextLimit = s.nextLimit := rfl

theorem lookupLimit_AddOrder (s : State) (l o : Nat) (price : ℚ) (q : Nat) :
    lookupLimit (AddOrder s l o) price q = lookupLimit s price q := by
  unfold lookupLimit
  rw [AddOrder_order]
  by_cases h : q = o <;> simp [h]

/-- C1 (counterexample): a sell of 4 at price 100 placed against a resting buy of 10
at price 100 fills nothing: the buy keeps size 10 (not 6), the sell rests with
size 4 as the only order of a new ask level at price 100, and the book is crossed. -/
theorem PlaceLimitOrder_does_not_match :
    ((PlaceLimitOrder crossBook 100 1).order 0).Size = 10 ∧
    ((PlaceLimitOrder crossBook 100 1).order 1).Size = 4 ∧
    (PlaceLimitOrder crossBook 100 1).ob.bids.vis = [0] ∧
    ((PlaceLimitOrder crossBook 100 1).limit 0).Price = 100 ∧
    ((PlaceLimitOrder crossBook 100 1).limit 0).Orders.vis = [0] ∧
    (PlaceLimitOrder crossBook 100 1).ob.asks.vis = [1] ∧
    ((PlaceLimitOrder crossBook 100 1).limit 1).Price = 100 ∧
    ((PlaceLimitOrder crossBook 100 1).limit 1).Orders.vis = [1] ∧
    ¬ Uncrossed (PlaceLimitOrder crossBook 100 1) := by
  decide!

/-- C1 (amended): PlaceLimitOrder matches nothing.  For every book, price and
order, it leaves the size of every order as it was, makes the order the last one
of the level that the map of its side holds at that price (its back-reference
points there), and leaves the slice and the map of the other side as they were. -/
theorem PlaceLimitOrder_rests_without_matching (s : State) (price : ℚ) (o : Nat) :
    (∀ p, ((PlaceLimitOrder s price o).order p).Size = (s.order p).Size) ∧
    (∃ l pre, lookupLimit (PlaceLimitOrder s price o) price o = some l ∧
      ((PlaceLimitOrder s price o).order o).Limit = some l ∧
      ((PlaceLimitOrder s price o).limit l).Orders.vis = pre ++ [o]) ∧
    ((s.order o).Bid = true →
      (PlaceLimitOrder s price o).ob.asks = s.ob.asks ∧
      (PlaceLimitOrder s price o).ob.AskLimits = s.ob.AskLimits) ∧
    ((s.order o).Bid = false →
      (PlaceLimitOrder s price o).ob.bids = s.ob.bids ∧
      (PlaceLimitOrder s price o).ob.BidLimits = s.ob.BidLimits) := by
  unfold PlaceLimitOrder
  cases hl : lookupLimit s price o with
  | some l =>
    refine ⟨?_, ⟨l, (s.limit l).Orders.vis, ?_, ?_, ?_⟩, ?_, ?_⟩
    · intro p; simp only [AddOrder_order]; split <;> simp_all
    · rw [lookupLimit_AddOrder]; simpa [lookupLimit] using hl
    · simp [AddOrder_order]
    · simp [AddOrder_limit, Slice.append]
    · intro _; simp
    · intro _; simp
  | none =>
    refine ⟨?_, ⟨s.nextLimit, [], ?_, ?_, ?_⟩, ?_, ?_⟩
    · intro p; simp only [AddOrder_order]; split <;> simp_all
    · rw [lookupLimit_AddOrder]
      unfold lookupLimit createLimit register
      by_cases hb : (s.order o).Bid = true <;> simp [hb]
    · simp [AddOrder_order]
    · simp [AddOrder_limit, Slice.append, NewLimit]
    · intro hb; simp [createLimit, hb]
    · intro hb; simp [createLimit, hb]

/-- C4 (counterexample): on the book with the single ask 5 @ 50 the market buy of 6
does not return an error: the call ends in the panic "not enough volume" (volume
5, size 6).  PlaceMarketOrder has no error result; its only result is the list
of matches. -/
theorem insufficient_liquidity_panics :
    (oneAskBook.order 2).Size = 6 ∧
    AskTotalVolume oneAskBook = 5 ∧
    (PlaceMarketOrder oneAskBook 2).1 = .error (.notEnoughVolume 5 6) ∧
    (PlaceMarketOrder oneAskBook 2).1.isOk = false := by
  decide!

/-- C4 (amended): a market order larger than the total volume of the side it would
sweep does not return at all: the call aborts with the "not enough volume"
panic (there is no error result), no match list is returned, and the state (both
sides, every level, every order, the id index) is exactly as it was. -/
theorem PlaceMarketOrder_insufficient (s : State) (o : Nat)
    (h : (s.order o).Size > (if (s.order o).Bid then AskTotalVolume s else BidTotalVolume s)) :
    PlaceMarketOrder s o =
      (.error (.notEnoughVolume (if (s.order o).Bid then AskTotalVolume s else BidTotalVolume s)
        (s.order o).Size), s) := by
  unfold PlaceMarketOrder
  by_cases hb : (s.order o).Bid = true
  · simp only [hb, if_true] at h ⊢
    rw [if_pos h]
  · simp only [hb, Bool.false_eq_true, if_false] at h ⊢
    rw [if_pos h]

/-- C4 (witness): only the ask level 5 @ 50, market buy of 6. -/
theorem PlaceMarketOrder_insufficient_witness :
    (oneAskBook.order 2).Size >
        (if (oneAskBook.order 2).Bid then AskTotalVolume oneAskBook
          else BidTotalVolume oneAskBook) ∧
    PlaceMarketOrder oneAskBook 2 =
      (.error (.notEnoughVolume
        (if (oneAskBook.order 2).Bid then AskTotalVolume oneAskBook
          else BidTotalVolume oneAskBook) (oneAskBook.order 2).Size), oneAskBook) :=
  ⟨by decide!, PlaceMarketOrder_insufficient oneAskBook 2 (by decide!)⟩

/-! ## Slices: the removal loop -/

/-- Reading inside the window. -/
theorem Slice.get_of_lt (s : Slice) {k : Nat} (h : k < s.vis.length) : s.get k = s.vis[k] := by
  unfold Slice.get
  rw [List.getD_append _ _ _ _ h, List.getD_eq_getElem _ _ h]

theorem set_perm_cons_eraseIdx (M : List Nat) (i a : Nat) (h : i < M.length) :
    (M.set i a).Perm (a :: M.eraseIdx i) := by
  rw [List.set_eq_take_append_cons_drop, if_pos h, List.eraseIdx_eq_take_drop_succ]
  exact List.perm_middle

/-- Swap-removal at `i` leaves the window without the element that stood at `i`. -/
theorem swapRemove_vis_perm (s : Slice) (i : Nat) (h : i < s.vis.length) :
    (s.swapRemove i).vis.Perm (s.vis.eraseIdx i) := by
  have hne : s.vis ≠ [] := by intro h0; rw [h0] at h; simp at h
  have hlast : s.get (s.len - 1) = s.vis.getLast hne := by
    rw [Slice.get_of_lt s (by unfold Slice.len; omega), List.getLast_eq_getElem]
    rfl
  obtain ⟨init, last, hL⟩ : ∃ init last, s.vis = init ++ [last] :=
    ⟨s.vis.dropLast, s.vis.getLast hne, (List.dropLast_append_getLast hne).symm⟩
  have hlast2 : s.get (s.len - 1) = last := by
    rw [hlast]; simp [hL]
  unfold Slice.swapRemove
  simp only [hlast2]
  rw [hL] at h ⊢
  simp only [List.length_append, List.length_singleton] at h
  by_cases hi : i < init.length
  · rw [List.set_append_left _ _ hi, List.dropLast_concat, List.eraseIdx_append_of_lt_length hi]
    exact (set_perm_cons_eraseIdx init i last hi).trans (List.perm_append_singleton _ _).symm
  · have hi2 : i = init.length := by omega
    subst hi2
    have : (init ++ [last]).set init.length last = init ++ [last] := by
      rw [List.set_append_right _ _ (le_refl _)]; simp
    rw [this, List.dropLast_concat, List.eraseIdx_append_of_length_le (le_refl _)]
    simp

theorem swapRemove_len (s : Slice) (i : Nat) : (s.swapRemove i).len = s.len - 1 := by
  simp [Slice.swapRemove, Slice.len]

/-- Swap-removal writes one cell of the backing array: cell `i`. -/
theorem swapRemove_backing (s : Slice) (i : Nat) (h : i < s.vis.length) :
    (s.swapRemove i).vis ++ (s.swapRemove i).stale =
      (s.vis ++ s.stale).set i (s.get (s.len - 1)) := by
  have hne : s.vis ≠ [] := by intro h0; rw [h0] at h; simp at h
  obtain ⟨init, last, hL⟩ : ∃ init last, s.vis = init ++ [last] :=
    ⟨s.vis.dropLast, s.vis.getLast hne, (List.dropLast_append_getLast hne).symm⟩
  have hlast2 : s.get (s.len - 1) = last := by
    rw [Slice.get_of_lt s (by unfold Slice.len; omega)]
    simp [Slice.len, hL]
  unfold Slice.swapRemove
  simp only [hlast2]
  rw [hL] at h ⊢
  simp only [List.length_append, List.length_singleton] at h
  by_cases hi : i < init.length
  · rw [List.set_append_left _ _ hi, List.dropLast_concat]
    rw [List.append_assoc, List.set_append_left _ _ hi]
    simp
  · have hi2 : i = init.length := by omega
    subst hi2
    have : (init ++ [last]).set init.length last = init ++ [last] := by
      rw [List.set_append_right _ _ (le_refl _)]; simp
    rw [this, List.dropLast_concat, List.set_append_left _ _ (by simp), this]
    simp

/-- Once `x` is not in the window any more, the rest of the loop changes nothing. -/
theorem removeLoop_absent (x : Nat) (fuel i : Nat) (s : Slice) (h : x ∉ s.vis) :
    removeLoop x fuel i s = s := by
  induction fuel generalizing i with
  | zero => rfl
  | succ f ih =>
    unfold removeLoop
    by_cases hi : i < s.len
    · rw [if_pos hi]
      have hne : s.get i ≠ x := by
        intro he
        apply h
        rw [← he, Slice.get_of_lt s hi]
        exact List.getElem_mem _
      rw [if_neg hne]
      exact ih (i + 1)
    · rw [if_neg hi]

/-- With the window free of duplicates, the loop removes `x` where it stands. -/
theorem removeLoop_at (x : Nat) (fuel i j : Nat) (s : Slice) (hnd : s.vis.Nodup)
    (hj : j < s.vis.length) (hx : s.vis[j] = x) (hij : i ≤ j) (hf : j < i + fuel) :
    removeLoop x fuel i s = s.swapRemove j := by
  induction fuel generalizing i with
  | zero => omega
  | succ f ih =>
    unfold removeLoop
    have hi : i < s.len := by unfold Slice.len; omega
    rw [if_pos hi]
    by_cases he : s.get i = x
    · rw [if_pos he]
      have hij2 : i = j := by
        rw [Slice.get_of_lt s hi, ← hx] at he
        exact (hnd.getElem_inj_iff).mp he
      subst hij2
      apply removeLoop_absent
      intro hmem
      have hp := (swapRemove_vis_perm s i hj).mem_iff.mp hmem
      rw [← hnd.erase_getElem i hj, hx] at hp
      exact (hnd.mem_erase_iff.mp hp).1 rfl
    · rw [if_neg he]
      have hij2 : i ≠ j := by
        intro h; subst h
        exact he (by rw [Slice.get_of_lt s hi]; exact hx)
      exact ih (i + 1) (by omega) (by omega)

theorem Slice.remove_absent (s : Slice) (x : Nat) (h : x ∉ s.vis) : s.remove x = s :=
  removeLoop_absent x _ 0 s h

theorem Slice.remove_at (s : Slice) (x j : Nat) (hnd : s.vis.Nodup)
    (hj : j < s.vis.length) (hx : s.vis[j] = x) : s.remove x = s.swapRemove j :=
  removeLoop_at x _ 0 j s hnd hj hx (Nat.zero_le _) (by unfold Slice.len; omega)

/-- The window after the removal loop, up to order. -/
theorem Slice.remove_perm (s : Slice) (x : Nat) (hnd : s.vis.Nodup) :
    (s.remove x).vis.Perm (s.vis.erase x) := by
  by_cases h : x ∈ s.vis
  · obtain ⟨j, hj, hx⟩ := List.mem_iff_getElem.mp h
    rw [Slice.remove_at s x j hnd hj hx, ← hx, hnd.erase_getElem j hj]
    exact swapRemove_vis_perm s j hj
  · rw [Slice.remove_absent s x h, List.erase_of_not_mem h]

/-! ## DeleteOrder -/

theorem DeleteOrder_order (s : State) (l o p : Nat) :
    (DeleteOrder s l o).order p =
      if p = o then { s.order o with Limit := none } else s.order p := by
  simp [DeleteOrder]

@[simp] theorem DeleteOrder_ob (s : State) (l o : Nat) : (DeleteOrder s l o).ob = s.ob := rfl

@[simp] theorem DeleteOrder_next (s : State) (l o : Nat) :
    (DeleteOrder s l o).nextLimit = s.nextLimit := rfl

theorem DeleteOrder_limit_ne (s : State) (l o p : Nat) (h : p ≠ l) :
    (DeleteOrder s l o).limit p = s.limit p := by
  simp [DeleteOrder, h]

theorem DeleteOrder_price (s : State) (l o : Nat) :
    ((DeleteOrder s l o).limit l).Price = (s.limit l).Price := by
  simp [DeleteOrder]

theorem DeleteOrder_volume (s : State) (l o : Nat) :
    ((DeleteOrder s l o).limit l).TotalVolume = (s.limit l).TotalVolume - (s.order o).Size := by
  simp [DeleteOrder]

theorem DeleteOrder_size (s : State) (l o p : Nat) :
    ((DeleteOrder s l o).order p).Size = (s.order p).Size := by
  rw [DeleteOrder_order]; split <;> simp_all

theorem DeleteOrder_timestamp (s : State) (l o p : Nat) :
    ((DeleteOrder s l o).order p).Timestamp = (s.order p).Timestamp := by
  rw [DeleteOrder_order]; split <;> simp_all

theorem insertionSort_rel_congr (r r' : Nat → Nat → Prop) [DecidableRel r] [DecidableRel r']
    (h : ∀ a b, r a b ↔ r' a b) (L : List Nat) :
    L.insertionSort r = L.insertionSort r' := by
  have hr : r = r' := by funext a b; exact propext (h a b)
  subst hr
  congr

/-- The window of the level after `DeleteOrder`: the removal loop, then the sort. -/
theorem DeleteOrder_orders (s : State) (l o : Nat) :
    ((DeleteOrder s l o).limit l).Orders.vis =
      ((s.limit l).Orders.remove o).vis.insertionSort (olderEq s) := by
  simp only [DeleteOrder, setOrders_limit, setVolume_limit, setLimit_limit, setLimit_order,
    setOrders_order, if_true, Slice.sortBy]
  apply insertionSort_rel_congr
  intro a b
  unfold olderEq
  simp only [setVolume_order, setLimit_order, setOrders_order]
  have key : ∀ p, (if p = o then ({ s.order o with Limit := none } : Order)
      else s.order p).Timestamp = (s.order p).Timestamp := by
    intro p; by_cases h : p = o <;> simp [h]
  rw [key a, key b]

theorem DeleteOrder_orders_perm (s : State) (l o : Nat) (hnd : (s.limit l).Orders.vis.Nodup) :
    ((DeleteOrder s l o).limit l).Orders.vis.Perm ((s.limit l).Orders.vis.erase o) := by
  rw [DeleteOrder_orders]
  exact (List.perm_insertionSort _ _).trans (Slice.remove_perm _ _ hnd)

/-! ## PlaceLimitOrder -/

theorem PlaceLimitOrder_order (s : State) (price : ℚ) (o p : Nat) :
    (PlaceLimitOrder s price o).order p =
      if p = o then { s.order o with Limit := some (targetLimit s price o) }
      else s.order p := by
  unfold PlaceLimitOrder targetLimit
  cases lookupLimit s price o <;> simp [AddOrder_order]

theorem PlaceLimitOrder_size (s : State) (price : ℚ) (o p : Nat) :
    ((PlaceLimitOrder s price o).order p).Size = (s.order p).Size := by
  rw [PlaceLimitOrder_order]; split <;> simp_all

/-! ## Properties kept by every step of a sweep -/

theorem fillLoop_keeps (P : State → Prop)
    (hf : ∀ s l a b, P s → P (fillOrder s l a b).1)
    (hv : ∀ s l v, P s → P (s.setVolume l v)) (l o : Nat) :
    ∀ (os : List Nat) (s : State) (ms : List Match) (del : List Nat),
      P s → P (fillLoop l o os s ms del).1 := by
  intro os
  induction os with
  | nil => intro s ms del h; exact h
  | cons x rest ih =>
    intro s ms del h
    unfold fillLoop
    simp only
    split
    · exact hv _ _ _ (hf _ _ _ _ h)
    · exact ih _ _ _ (hv _ _ _ (hf _ _ _ _ h))

theorem foldl_DeleteOrder_keeps (P : State → Prop)
    (hd : ∀ s l o, P s → P (DeleteOrder s l o)) (l : Nat) :
    ∀ (del : List Nat) (s : State), P s →
      P (del.foldl (fun t order => DeleteOrder t l order) s) := by
  intro del
  induction del with
  | nil => intro s h; exact h
  | cons x rest ih => intro s h; exact ih _ (hd _ _ _ h)

theorem Fill_keeps (P : State → Prop)
    (hf : ∀ s l a b, P s → P (fillOrder s l a b).1)
    (hv : ∀ s l v, P s → P (s.setVolume l v))
    (hd : ∀ s l o, P s → P (DeleteOrder s l o)) (s : State) (l o : Nat) (h : P s) :
    P (Fill s l o).1 := by
  unfold Fill
  exact foldl_DeleteOrder_keeps P hd l _ _ (fillLoop_keeps P hf hv l o _ _ _ _ h)

theorem sweep_keeps (P : State → Prop)
    (hf : ∀ s l a b, P s → P (fillOrder s l a b).1)
    (hv : ∀ s l v, P s → P (s.setVolume l v))
    (hd : ∀ s l o, P s → P (DeleteOrder s l o))
    (hc : ∀ s b l, P s → P (clearLimit s b l)) (buy : Bool) (o : Nat) :
    ∀ (ks : List Nat) (s : State) (ms : List Match), P s → P (sweep buy o ks s ms).1 := by
  intro ks
  induction ks with
  | nil => intro s ms h; exact h
  | cons k rest ih =>
    intro s ms h
    unfold sweep
    simp only
    apply ih
    split
    · exact hc _ _ _ (Fill_keeps P hf hv hd _ _ _ h)
    · exact Fill_keeps P hf hv hd _ _ _ h

theorem PlaceMarketOrder_keeps (P : State → Prop)
    (hf : ∀ s l a b, P s → P (fillOrder s l a b).1)
    (hv : ∀ s l v, P s → P (s.setVolume l v))
    (hd : ∀ s l o, P s → P (DeleteOrder s l o))
    (hc : ∀ s b l, P s → P (clearLimit s b l))
    (ha : ∀ s, P s → P (Asks s)) (hb : ∀ s, P s → P (Bids s)) (s : State) (o : Nat)
    (h : P s) : P (PlaceMarketOrder s o).2 := by
  unfold PlaceMarketOrder
  split
  · split
    · exact h
    · exact sweep_keeps P hf hv hd hc _ _ _ _ _ (ha _ h)
  · split
    · exact h
    · exact sweep_keeps P hf hv hd hc _ _ _ _ _ (hb _ h)

/-! ## Sizes never become negative -/

theorem setSize_Limit (s : State) (o : Nat) (v : ℚ) (p : Nat) :
    ((s.setSize o v).order p).Limit = (s.order p).Limit := by
  rw [setSize_order]; split <;> simp_all

theorem setSize_Timestamp (s : State) (o : Nat) (v : ℚ) (p : Nat) :
    ((s.setSize o v).order p).Timestamp = (s.order p).Timestamp := by
  rw [setSize_order]; split <;> simp_all

theorem setSize_Bid (s : State) (o : Nat) (v : ℚ) (p : Nat) :
    ((s.setSize o v).order p).Bid = (s.order p).Bid := by
  rw [setSize_order]; split <;> simp_all

theorem setSize_ID (s : State) (o : Nat) (v : ℚ) (p : Nat) :
    ((s.setSize o v).order p).ID = (s.order p).ID := by
  rw [setSize_order]; split <;> simp_all

theorem fillOrder_fst (s : State) (l a b : Nat) :
    (fillOrder s l a b).1 =
      if (s.order a).Size ≥ (s.order b).Size then
        (s.setSize a ((s.order a).Size - (s.order b).Size)).setSize b 0
      else (s.setSize b ((s.order b).Size - (s.order a).Size)).setSize a 0 := by
  by_cases h : (s.order a).Size ≥ (s.order b).Size <;> simp only [fillOrder, h, if_true, if_false]

theorem fillOrder_Limit (s : State) (l a b p : Nat) :
    ((fillOrder s l a b).1.order p).Limit = (s.order p).Limit := by
  rw [fillOrder_fst]; split <;> simp only [setSize_Limit]

theorem fillOrder_Timestamp (s : State) (l a b p : Nat) :
    ((fillOrder s l a b).1.order p).Timestamp = (s.order p).Timestamp := by
  rw [fillOrder_fst]; split <;> simp only [setSize_Timestamp]

theorem fillOrder_Bid (s : State) (l a b p : Nat) :
    ((fillOrder s l a b).1.order p).Bid = (s.order p).Bid := by
  rw [fillOrder_fst]; split <;> simp only [setSize_Bid]

theorem fillOrder_ID (s : State) (l a b p : Nat) :
    ((fillOrder s l a b).1.order p).ID = (s.order p).ID := by
  rw [fillOrder_fst]; split <;> simp only [setSize_ID]

@[simp] theorem fillOrder_limit (s : State) (l a b : Nat) :
    (fillOrder s l a b).1.limit = s.limit := by
  rw [fillOrder_fst]; split <;> rfl

@[simp] theorem fillOrder_ob (s : State) (l a b : Nat) : (fillOrder s l a b).1.ob = s.ob := by
  rw [fillOrder_fst]; split <;> rfl

@[simp] theorem fillOrder_next (s : State) (l a b : Nat) :
    (fillOrder s l a b).1.nextLimit = s.nextLimit := by
  rw [fillOrder_fst]; split <;> rfl

theorem fillOrder_Price (s : State) (l a b : Nat) :
    (fillOrder s l a b).2.Price = (s.limit l).Price := by
  by_cases h : (s.order a).Size ≥ (s.order b).Size <;>
    simp only [fillOrder, h, if_true, if_false] <;> rfl

theorem fillOrder_SizeFilled (s : State) (l a b : Nat) :
    (fillOrder s l a b).2.SizeFilled =
      if (s.order a).Size ≥ (s.order b).Size then
        ((s.setSize a ((s.order a).Size - (s.order b).Size)).order b).Size
      else ((s.setSize b ((s.order b).Size - (s.order a).Size)).order a).Size := by
  by_cases h : (s.order a).Size ≥ (s.order b).Size <;> simp only [fillOrder, h, if_true, if_false]

theorem fillOrder_parties (s : State) (l a b : Nat) :
    (fillOrder s l a b).2.Ask = (if (s.order a).Bid then b else a) ∧
    (fillOrder s l a b).2.Bid = (if (s.order a).Bid then a else b) := by
  by_cases h : (s.order a).Size ≥ (s.order b).Size <;>
    simp [fillOrder, h]

theorem fillOrder_sizes (s : State) (l a b : Nat) (hab : a ≠ b) :
    (fillOrder s l a b).2.SizeFilled = min (s.order a).Size (s.order b).Size ∧
    ((fillOrder s l a b).1.order a).Size =
      (s.order a).Size - min (s.order a).Size (s.order b).Size ∧
    ((fillOrder s l a b).1.order b).Size =
      (s.order b).Size - min (s.order a).Size (s.order b).Size ∧
    ∀ p, p ≠ a → p ≠ b → (fillOrder s l a b).1.order p = s.order p := by
  have hba : b ≠ a := fun h => hab h.symm
  rw [fillOrder_fst, fillOrder_SizeFilled]
  by_cases h : (s.order a).Size ≥ (s.order b).Size
  · rw [if_pos h, if_pos h]
    have hm : min (s.order a).Size (s.order b).Size = (s.order b).Size := min_eq_right h
    simp only [hm, setSize_order, hab, hba, if_true, if_false, sub_self, true_and]
    intro p hpa hpb; simp [hpa, hpb]
  · rw [if_neg h, if_neg h]
    have hm : min (s.order a).Size (s.order b).Size = (s.order a).Size :=
      min_eq_left (le_of_lt (not_le.mp h))
    simp only [hm, setSize_order, hab, hba, if_true, if_false, sub_self, true_and]
    intro p hpa hpb; simp [hpa, hpb]

theorem fillOrder_nonneg (s : State) (l a b : Nat) (h : SizesNonneg s) :
    SizesNonneg (fillOrder s l a b).1 := by
  intro p
  rw [fillOrder_fst]
  by_cases hc : (s.order a).Size ≥ (s.order b).Size
  · rw [if_pos hc]
    simp only [setSize_order]
    split
    · simp
    · split
      · simp; exact hc
      · exact h p
  · rw [if_neg hc]
    simp only [setSize_order]
    split
    · simp
    · split
      · simp; exact le_of_lt (not_le.mp hc)
      · exact h p

theorem CancelOrder_snd (s : State) (o : Nat) :
    (CancelOrder s o).2 =
      match (s.order o).Limit with
      | none => s
      | some l => unregister (DeleteOrder s l o) o := by
  unfold CancelOrder; split <;> rfl

theorem step_nonneg (s : State) (op : Op) (h : SizesNonneg s) : SizesNonneg (step s op) := by
  cases op with
  | limit price o =>
    intro p
    show 0 ≤ ((PlaceLimitOrder s price o).order p).Size
    rw [PlaceLimitOrder_size]; exact h p
  | market o =>
    exact PlaceMarketOrder_keeps SizesNonneg (fun s l a b hs => fillOrder_nonneg s l a b hs)
      (fun s l v hs => hs) (fun s l o hs p => by rw [DeleteOrder_size]; exact hs p)
      (fun s b l hs => by unfold clearLimit; split <;> exact hs)
      (fun s hs => hs) (fun s hs => hs) s o h
  | cancel o =>
    show SizesNonneg (CancelOrder s o).2
    rw [CancelOrder_snd]
    split
    · exact h
    · intro p
      simp only [unregister_order]
      rw [DeleteOrder_size]; exact h p

theorem run_nonneg (ops : List Op) : ∀ s, SizesNonneg s → SizesNonneg (run s ops) := by
  induction ops with
  | nil => intro s h; exact h
  | cons op rest ih => intro s h; exact ih _ (step_nonneg s op h)

theorem sweepHeap_nonneg : ∀ p, 0 ≤ ((NewOrderBook sweepHeap).order p).Size := by
  intro p
  simp only [NewOrderBook, sweepHeap, NewOrder]
  split_ifs <;> norm_num

/-- C7: for two different orders `a` (resting) and `b` (incoming) with sizes that
are not negative, `fillOrder` reports `SizeFilled = min a.Size b.Size`, takes that
amount off both sizes, leaves both sizes not negative and at least one of them
zero; and whatever sequence of book operations is run from a state in which no
order has a negative size, no order has a negative size afterwards. -/
theorem fillOrder_arithmetic :
    (∀ (s : State) (l a b : Nat), a ≠ b → 0 ≤ (s.order a).Size → 0 ≤ (s.order b).Size →
      (fillOrder s l a b).2.SizeFilled = min (s.order a).Size (s.order b).Size ∧
      ((fillOrder s l a b).1.order a).Size =
        (s.order a).Size - (fillOrder s l a b).2.SizeFilled ∧
      ((fillOrder s l a b).1.order b).Size =
        (s.order b).Size - (fillOrder s l a b).2.SizeFilled ∧
      0 ≤ ((fillOrder s l a b).1.order a).Size ∧
      0 ≤ ((fillOrder s l a b).1.order b).Size ∧
      (((fillOrder s l a b).1.order a).Size = 0 ∨ ((fillOrder s l a b).1.order b).Size = 0)) ∧
    (∀ (s : State) (ops : List Op), (∀ p, 0 ≤ (s.order p).Size) →
      ∀ p, 0 ≤ ((run s ops).order p).Size) := by
  constructor
  · intro s l a b hab ha hb
    obtain ⟨h1, h2, h3, _⟩ := fillOrder_sizes s l a b hab
    rw [h1, h2, h3]
    refine ⟨rfl, rfl, rfl, ?_, ?_, ?_⟩
    · exact sub_nonneg.mpr (min_le_left _ _)
    · exact sub_nonneg.mpr (min_le_right _ _)
    · rcases le_total (s.order a).Size (s.order b).Size with h | h
      · left; rw [min_eq_left h, sub_self]
      · right; rw [min_eq_right h, sub_self]
  · intro s ops h
    exact run_nonneg ops s h

/-- C7 (witness): the sell of 5 resting at price 50 against the incoming buy of 6,
and the history that places both asks and then the market buy. -/
theorem fillOrder_arithmetic_witness :
    ((0 : Nat) ≠ 2 ∧ 0 ≤ (twoAskBook.order 0).Size ∧ 0 ≤ (twoAskBook.order 2).Size) ∧
    ((fillOrder twoAskBook 1 0 2).2.SizeFilled =
        min (twoAskBook.order 0).Size (twoAskBook.order 2).Size ∧
      ((fillOrder twoAskBook 1 0 2).1.order 0).Size =
        (twoAskBook.order 0).Size - (fillOrder twoAskBook 1 0 2).2.SizeFilled ∧
      ((fillOrder twoAskBook 1 0 2).1.order 2).Size =
        (twoAskBook.order 2).Size - (fillOrder twoAskBook 1 0 2).2.SizeFilled ∧
      0 ≤ ((fillOrder twoAskBook 1 0 2).1.order 0).Size ∧
      0 ≤ ((fillOrder twoAskBook 1 0 2).1.order 2).Size ∧
      (((fillOrder twoAskBook 1 0 2).1.order 0).Size = 0 ∨
        ((fillOrder twoAskBook 1 0 2).1.order 2).Size = 0)) ∧
    (∀ p, 0 ≤ ((run (NewOrderBook sweepHeap)
      [Op.limit 51 1, Op.limit 50 0, Op.market 2]).order p).Size) :=
  ⟨⟨by decide, by decide!, by decide!⟩,
   fillOrder_arithmetic.1 twoAskBook 1 0 2 (by decide) (by decide!) (by decide!),
   fillOrder_arithmetic.2 (NewOrderBook sweepHeap) _ sweepHeap_nonneg⟩

/-- C8 (failing input): a buy of 10 placed at price 100 on the empty book and
cancelled at once.  The cancellation succeeds and the bid volume is back at its
old value, but the level that the placement created stays in the bid slice and
in the bid map, empty, where before the placement there was none. -/
theorem place_cancel_leaves_level :
    (NewOrderBook crossHeap).ob.bids.vis = [] ∧
    (NewOrderBook crossHeap).ob.BidLimits 100 = none ∧
    (CancelOrder (PlaceLimitOrder (NewOrderBook crossHeap) 100 0) 0).1 = .ok () ∧
    (CancelOrder (PlaceLimitOrder (NewOrderBook crossHeap) 100 0) 0).2.ob.bids.vis = [0] ∧
    (CancelOrder (PlaceLimitOrder (NewOrderBook crossHeap) 100 0) 0).2.ob.BidLimits 100
      = some 0 ∧
    ((CancelOrder (PlaceLimitOrder (NewOrderBook crossHeap) 100 0) 0).2.limit 0).Orders.vis
      = [] ∧
    BidTotalVolume (CancelOrder (PlaceLimitOrder (NewOrderBook crossHeap) 100 0) 0).2 =
      BidTotalVolume (NewOrderBook crossHeap) ∧
    AskTotalVolume (CancelOrder (PlaceLimitOrder (NewOrderBook crossHeap) 100 0) 0).2 =
      AskTotalVolume (NewOrderBook crossHeap) := by
  decide!

/-! ## Cancelling what does not rest -/

theorem cancelScan_unknown (id : Int) (limit : Nat) (s : State)
    (h : ∀ x ∈ (s.limit limit).Orders.vis, (s.order x).ID ≠ id) :
    ∀ ks : List Nat, (∀ k ∈ ks, k < (s.limit limit).Orders.len) →
      cancelScan id limit ks s false = (.ok false, s) := by
  intro ks
  induction ks with
  | nil => intro _; rfl
  | cons k rest ih =>
    intro hk
    unfold cancelScan
    have hlt : k < (s.limit limit).Orders.vis.length := hk k (List.mem_cons_self _ _)
    have hne : (s.order ((s.limit limit).Orders.get k)).ID ≠ id := by
      apply h
      rw [Slice.get_of_lt _ hlt]
      exact List.getElem_mem _
    rw [if_neg hne]
    exact ih (fun k' hk' => hk k' (List.mem_cons_of_mem _ hk'))

theorem cancelSide_unknown (id : Int) (s : State) :
    ∀ L : List Nat, (∀ l ∈ L, ∀ x ∈ (s.limit l).Orders.vis, (s.order x).ID ≠ id) →
      cancelSide id L s = (.ok false, s) := by
  intro L
  induction L with
  | nil => intro _; rfl
  | cons l rest ih =>
    intro h
    unfold cancelSide
    rw [cancelScan_unknown id l s (h l (List.mem_cons_self _ _)) _
      (fun k hk => List.mem_range.mp hk)]
    exact ih (fun l' hl' => h l' (List.mem_cons_of_mem _ hl'))

theorem cancelLoops_unknown (s : State) (id : Int) (h : UnknownID s id) :
    cancelLoops s id = (.ok .nothing, Bids (Asks s)) := by
  unfold cancelLoops
  have ha : cancelSide id (Asks s).ob.asks.vis (Asks s) = (.ok false, Asks s) := by
    apply cancelSide_unknown
    intro l hl
    apply h l
    unfold levels
    apply List.mem_append_left
    exact (List.perm_insertionSort _ _).mem_iff.mp hl
  rw [ha]
  simp only
  have hb : cancelSide id (Bids (Asks s)).ob.bids.vis (Bids (Asks s)) =
      (.ok false, Bids (Asks s)) := by
    apply cancelSide_unknown
    intro l hl
    apply h l
    unfold levels
    apply List.mem_append_right
    exact (List.perm_insertionSort _ _).mem_iff.mp hl
  rw [hb]

/-- C9 (counterexample): cancelling order 2, which was never placed on the book with
the asks 5 @ 50 and 3 @ 51, does not return an error: the call aborts with the
nil dereference.  The cancel request for the id 99 on the exchange that
`NewExchange` returns aborts in the same way, the book of the market being nil.
On an exchange that held that book, whose orders carry the ids 11 and 12, the
request for the id 99 would not fail at all: it returns without an error and
without an answer. -/
theorem cancel_unknown_does_not_fail :
    (twoAskBook.order 2).Limit = none ∧
    (CancelOrder twoAskBook 2).1 = .error .nilDereference ∧
    (cancelOrder NewExchange 99).1 = .error .nilDereference ∧
    UnknownID twoAskBook 99 ∧
    (cancelOrder { orderbooks := fun _ => some twoAskBook } 99).1 = .ok .nothing := by
  refine ⟨by decide, by decide!, rfl, by decide!, ?_⟩
  show (cancelLoops twoAskBook 99).1 = .ok .nothing
  rw [cancelLoops_unknown twoAskBook 99 (by decide!)]

/-- C9 (amended): there is no `OrderNotFound` result.  Cancelling an order whose
back-reference is nil aborts with the nil dereference before anything is
written, so the state is the one before the call.  A cancel request aborts with
the nil dereference, leaving the exchange as it was, whenever the map holds no
book for the market, as on the exchange that `NewExchange` returns; and a
request never puts a book where there was none.  On an exchange that holds the
book `s`, a request for an id that no resting order carries returns without
error and without answer, and leaves the book as the two sorts `Asks` and `Bids`
leave it: same levels, same orders, same volumes, same id index. -/
theorem cancel_of_absent (s : State) :
    (∀ o, (s.order o).Limit = none → CancelOrder s o = (.error .nilDereference, s)) ∧
    (∀ id, cancelOrder NewExchange id = (.error .nilDereference, NewExchange)) ∧
    (∀ ex id, ex.orderbooks MarketETH = none →
      cancelOrder ex id = (.error .nilDereference, ex)) ∧
    (∀ ex id m, ex.orderbooks m = none → (cancelOrder ex id).2.orderbooks m = none) ∧
    (∀ ex id, ex.orderbooks MarketETH = some s → UnknownID s id →
      cancelOrder ex id =
        (.ok .nothing,
          { orderbooks := Function.update ex.orderbooks MarketETH (some (Bids (Asks s))) })) := by
  refine ⟨?_, fun id => rfl, ?_, ?_, ?_⟩
  · intro o h
    unfold CancelOrder
    rw [h]
  · intro ex id h
    unfold cancelOrder
    rw [h]
  · intro ex id m h
    unfold cancelOrder
    cases hb : ex.orderbooks MarketETH with
    | none => exact h
    | some s' =>
      simp only
      have hne : m ≠ MarketETH := by
        intro he
        rw [he, hb] at h
        exact Option.noConfusion h
      rw [Function.update_noteq hne]
      exact h
  · intro ex id hb h
    unfold cancelOrder
    rw [hb]
    simp only
    rw [cancelLoops_unknown s id h]

/-- C9 (witness): order 2 was never placed on the book with two ask levels, no order
resting there carries the id 99, and the exchange that `NewExchange` returns
holds no book. -/
theorem cancel_of_absent_witness :
    ((twoAskBook.order 2).Limit = none ∧ UnknownID twoAskBook 99) ∧
    CancelOrder twoAskBook 2 = (.error .nilDereference, twoAskBook) ∧
    cancelOrder NewExchange 99 = (.error .nilDereference, NewExchange) :=
  ⟨⟨by decide, by decide!⟩, (cancel_of_absent twoAskBook).1 2 (by decide),
    (cancel_of_absent twoAskBook).2.1 99⟩

/-! ## Well-formedness is kept by placing and cancelling -/

theorem sizeSum_congr (s t : State) (os : List Nat)
    (h : ∀ x ∈ os, (t.order x).Size = (s.order x).Size) : sizeSum t os = sizeSum s os := by
  unfold sizeSum
  congr 1
  exact List.map_congr_left h

theorem sizeSum_append (s : State) (xs ys : List Nat) :
    sizeSum s (xs ++ ys) = sizeSum s xs + sizeSum s ys := by
  simp [sizeSum]

theorem sizeSum_perm (s : State) {xs ys : List Nat} (h : xs.Perm ys) :
    sizeSum s xs = sizeSum s ys :=
  (h.map _).sum_eq

theorem sizeSum_erase (s : State) (xs : List Nat) (x : Nat) (h : x ∈ xs) :
    sizeSum s (xs.erase x) = sizeSum s xs - (s.order x).Size := by
  have hp := sizeSum_perm s (List.perm_cons_erase h)
  simp only [sizeSum, List.map_cons, List.sum_cons] at hp ⊢
  linarith

theorem fresh_of_nil (s : State) (o : Nat) (hw : WF s) (h : (s.order o).Limit = none) :
    Fresh s o := by
  intro l hl hmem
  have := hw.backref l hl o hmem
  rw [h] at this
  exact Option.noConfusion this

theorem WF_NewOrderBook (h : Nat → Order) : WF (NewOrderBook h) where
  levels_nodup := by simp [levels, NewOrderBook]
  levels_lt := by simp [levels, NewOrderBook]
  orders_nodup := by simp [levels, NewOrderBook]
  backref := by simp [levels, NewOrderBook]
  volume := by simp [VolumeInvariant, levels, NewOrderBook]

/-- Adding a fresh order to a level of the book keeps the book well formed. -/
theorem WF_AddOrder (s : State) (l o : Nat) (hw : WF s) (hf : Fresh s o) :
    WF (AddOrder s l o) where
  levels_nodup := hw.levels_nodup
  levels_lt := hw.levels_lt
  orders_nodup := by
    intro l' hl'
    rw [AddOrder_limit]
    split
    · rename_i h; subst h
      simp only [Slice.append]
      exact List.Nodup.append (hw.orders_nodup _ hl') (List.nodup_singleton o)
        (by simpa using hf _ hl')
    · exact hw.orders_nodup l' hl'
  backref := by
    intro l' hl' x hx
    rw [AddOrder_limit] at hx
    rw [AddOrder_order]
    by_cases hxo : x = o
    · subst hxo
      simp only [if_true]
      by_cases h : l' = l
      · rw [h]
      · rw [if_neg h] at hx
        exact absurd hx (hf l' hl')
    · rw [if_neg hxo]
      apply hw.backref l' hl'
      by_cases h : l' = l
      · rw [if_pos h] at hx
        simp only [Slice.append, List.mem_append, List.mem_singleton] at hx
        rcases hx with hx | hx
        · rw [h]; exact hx
        · exact absurd hx hxo
      · rw [if_neg h] at hx; exact hx
  volume := by
    intro l' hl'
    have hs : ∀ os, sizeSum (AddOrder s l o) os = sizeSum s os := by
      intro os
      apply sizeSum_congr
      intro x _
      rw [AddOrder_order]; split <;> simp_all
    rw [hs, AddOrder_limit]
    by_cases h : l' = l
    · rw [if_pos h]
      simp only [Slice.append]
      rw [sizeSum_append, ← hw.volume l (h ▸ hl')]
      simp [sizeSum]
    · rw [if_neg h]
      exact hw.volume l' hl'

theorem WF_congr (s t : State) (hl : levels t = levels s) (hlim : t.limit = s.limit)
    (hord : t.order = s.order) (hn : t.nextLimit = s.nextLimit) (hw : WF s) : WF t where
  levels_nodup := by rw [hl]; exact hw.levels_nodup
  levels_lt := by rw [hl, hn]; exact hw.levels_lt
  orders_nodup := by rw [hl, hlim]; exact hw.orders_nodup
  backref := by rw [hl, hlim, hord]; exact hw.backref
  volume := by
    intro l h
    rw [hl] at h
    have := hw.volume l h
    unfold sizeSum at this ⊢
    rw [hlim, hord]; exact this

theorem levels_register (s : State) (o : Nat) : levels (register s o) = levels s := rfl

theorem levels_unregister (s : State) (o : Nat) : levels (unregister s o) = levels s := rfl

theorem WF_register (s : State) (o : Nat) (hw : WF s) : WF (register s o) :=
  WF_congr s _ rfl rfl rfl rfl hw

theorem WF_unregister (s : State) (o : Nat) (hw : WF s) : WF (unregister s o) :=
  WF_congr s _ rfl rfl rfl rfl hw

theorem levels_createLimit (s : State) (price : ℚ) (bid : Bool) :
    (levels (createLimit s price bid)).Perm (s.nextLimit :: levels s) := by
  unfold createLimit levels
  cases bid
  · simp only [Bool.false_eq_true, if_false, Slice.append]
    rw [List.append_assoc]
    exact List.perm_middle
  · simp only [if_true, Slice.append]
    rw [← List.append_assoc]
    exact List.perm_append_singleton _ _

theorem WF_createLimit (s : State) (price : ℚ) (bid : Bool) (hw : WF s) :
    WF (createLimit s price bid) := by
  have hp := levels_createLimit s price bid
  have hnew : s.nextLimit ∉ levels s := fun h => Nat.lt_irrefl _ (hw.levels_lt _ h)
  have hmem : ∀ l, l ∈ levels (createLimit s price bid) → l = s.nextLimit ∨ l ∈ levels s := by
    intro l h
    simpa using hp.mem_iff.mp h
  have hlim : ∀ l, l ∈ levels s → (createLimit s price bid).limit l = s.limit l := by
    intro l h
    rw [createLimit_limit, Function.update_noteq]
    intro he; subst he; exact hnew h
  have hself : (createLimit s price bid).limit s.nextLimit = NewLimit price := by
    rw [createLimit_limit, Function.update_same]
  refine ⟨?_, ?_, ?_, ?_, ?_⟩
  · exact hp.nodup_iff.mpr (List.nodup_cons.mpr ⟨hnew, hw.levels_nodup⟩)
  · intro l h
    rw [createLimit_next]
    rcases hmem l h with h | h
    · omega
    · exact Nat.lt_succ_of_lt (hw.levels_lt l h)
  · intro l h
    rcases hmem l h with h | h
    · rw [h, hself]; simp [NewLimit]
    · rw [hlim l h]; exact hw.orders_nodup l h
  · intro l h x hx
    rcases hmem l h with h | h
    · rw [h, hself] at hx; simp [NewLimit] at hx
    · rw [hlim l h] at hx
      rw [createLimit_order]; exact hw.backref l h x hx
  · intro l h
    rcases hmem l h with h | h
    · rw [h, hself]; simp [NewLimit, sizeSum]
    · rw [hlim l h]
      have := hw.volume l h
      unfold sizeSum at this ⊢
      rw [createLimit_order]; exact this

theorem Fresh_createLimit (s : State) (price : ℚ) (bid : Bool) (o : Nat) (hw : WF s)
    (hf : Fresh s o) : Fresh (createLimit s price bid) o := by
  intro l h
  have hp := levels_createLimit s price bid
  have hnew : s.nextLimit ∉ levels s := fun h => Nat.lt_irrefl _ (hw.levels_lt _ h)
  rcases (by simpa using hp.mem_iff.mp h : l = s.nextLimit ∨ l ∈ levels s) with h | h
  · rw [h, createLimit_limit, Function.update_same]; simp [NewLimit]
  · rw [createLimit_limit, Function.update_noteq]
    · exact hf l h
    · intro he; subst he; exact hnew h

theorem WF_PlaceLimitOrder (s : State) (price : ℚ) (o : Nat) (hw : WF s)
    (hf : Fresh s o) : WF (PlaceLimitOrder s price o) := by
  unfold PlaceLimitOrder
  cases lookupLimit s price o with
  | some l => exact WF_AddOrder _ l o (WF_register s o hw) hf
  | none =>
    exact WF_AddOrder _ _ o (WF_register _ o (WF_createLimit s price _ hw))
      (Fresh_createLimit s price _ o hw hf)

/-- Deleting an order from the level that lists it keeps the book well formed. -/
theorem WF_DeleteOrder (s : State) (l o : Nat) (hw : WF s) (hl : l ∈ levels s)
    (ho : o ∈ (s.limit l).Orders.vis) : WF (DeleteOrder s l o) := by
  have hnd := hw.orders_nodup l hl
  have hperm := DeleteOrder_orders_perm s l o hnd
  have hother : ∀ l', l' ∈ levels s → l' ≠ l → o ∉ (s.limit l').Orders.vis := by
    intro l' hl' hne hmem
    have h1 := hw.backref l hl o ho
    have h2 := hw.backref l' hl' o hmem
    rw [h1] at h2
    exact hne (Option.some.inj h2).symm
  refine ⟨hw.levels_nodup, hw.levels_lt, ?_, ?_, ?_⟩
  · intro l' hl'
    by_cases h : l' = l
    · subst h; exact hperm.nodup_iff.mpr (hnd.erase o)
    · rw [DeleteOrder_limit_ne s l o l' h]; exact hw.orders_nodup l' hl'
  · intro l' hl' x hx
    have hl'' : l' ∈ levels s := hl'
    rw [DeleteOrder_order]
    by_cases h : l' = l
    · subst h
      have hx2 := hperm.mem_iff.mp hx
      have hx3 := hnd.mem_erase_iff.mp hx2
      rw [if_neg hx3.1]
      exact hw.backref l' hl'' x hx3.2
    · rw [DeleteOrder_limit_ne s l o l' h] at hx
      have hxo : x ≠ o := by
        intro he; subst he; exact hother l' hl'' h hx
      rw [if_neg hxo]
      exact hw.backref l' hl'' x hx
  · intro l' hl'
    have hl'' : l' ∈ levels s := hl'
    have hs : ∀ os, sizeSum (DeleteOrder s l o) os = sizeSum s os := by
      intro os
      apply sizeSum_congr
      intro x _
      exact DeleteOrder_size s l o x
    rw [hs]
    by_cases h : l' = l
    · subst h
      rw [DeleteOrder_volume, sizeSum_perm s hperm, sizeSum_erase s _ o ho, hw.volume l' hl'']
    · rw [DeleteOrder_limit_ne s l o l' h]; exact hw.volume l' hl''

theorem WF_CancelOrder (s : State) (o : Nat) (hw : WF s) (hr : Resting s o) :
    WF (CancelOrder s o).2 := by
  obtain ⟨l, hl, ho⟩ := hr
  rw [CancelOrder_snd, hw.backref l hl o ho]
  exact WF_unregister _ o (WF_DeleteOrder s l o hw hl ho)

/-! ## The matching loop of Fill -/

theorem fillLoop_cons (l o a : Nat) (rest : List Nat) (s : State) (ms : List Match)
    (del : List Nat) :
    fillLoop l o (a :: rest) s ms del =
      if IsFilled (fillStep s l a o) o then
        (fillStep s l a o, ms ++ [(fillOrder s l a o).2],
          if IsFilled (fillStep s l a o) a then del ++ [a] else del)
      else
        fillLoop l o rest (fillStep s l a o) (ms ++ [(fillOrder s l a o).2])
          (if IsFilled (fillStep s l a o) a then del ++ [a] else del) := rfl

theorem SameShape.refl (s : State) : SameShape s s :=
  ⟨rfl, rfl, fun _ => rfl, fun _ => rfl, fun _ => rfl, fun _ => rfl, fun _ => rfl, fun _ => rfl⟩

theorem SameShape.trans {s t u : State} (h1 : SameShape s t) (h2 : SameShape t u) :
    SameShape s u where
  ob := h2.ob.trans h1.ob
  next := h2.next.trans h1.next
  orders := fun p => (h2.orders p).trans (h1.orders p)
  price := fun p => (h2.price p).trans (h1.price p)
  backref := fun p => (h2.backref p).trans (h1.backref p)
  timestamp := fun p => (h2.timestamp p).trans (h1.timestamp p)
  side := fun p => (h2.side p).trans (h1.side p)
  id := fun p => (h2.id p).trans (h1.id p)

theorem SameShape_fillOrder (s : State) (l a b : Nat) : SameShape s (fillOrder s l a b).1 where
  ob := fillOrder_ob s l a b
  next := fillOrder_next s l a b
  orders := fun p => by rw [fillOrder_limit]
  price := fun p => by rw [fillOrder_limit]
  backref := fillOrder_Limit s l a b
  timestamp := fillOrder_Timestamp s l a b
  side := fillOrder_Bid s l a b
  id := fillOrder_ID s l a b

theorem SameShape_setVolume (s : State) (l : Nat) (v : ℚ) : SameShape s (s.setVolume l v) where
  ob := rfl
  next := rfl
  orders := fun p => by rw [setVolume_limit]; split <;> simp_all
  price := fun p => by rw [setVolume_limit]; split <;> simp_all
  backref := fun _ => rfl
  timestamp := fun _ => rfl
  side := fun _ => rfl
  id := fun _ => rfl

theorem SameShape_fillStep (s : State) (l a o : Nat) : SameShape s (fillStep s l a o) :=
  (SameShape_fillOrder s l a o).trans (SameShape_setVolume _ _ _)

theorem SameShape_fillLoop (l o : Nat) (os : List Nat) (s : State) (ms : List Match)
    (del : List Nat) : SameShape s (fillLoop l o os s ms del).1 :=
  fillLoop_keeps (SameShape s)
    (fun _ _ _ _ h => h.trans (SameShape_fillOrder _ _ _ _))
    (fun _ _ _ h => h.trans (SameShape_setVolume _ _ _)) l o os s ms del (SameShape.refl s)

theorem SameShape.levels_eq {s t : State} (h : SameShape s t) : levels t = levels s := by
  unfold levels; rw [h.ob]

theorem fillStep_size (s : State) (l a o : Nat) (hao : a ≠ o) :
    ((fillStep s l a o).order a).Size =
      (s.order a).Size - (fillOrder s l a o).2.SizeFilled ∧
    ((fillStep s l a o).order o).Size =
      (s.order o).Size - (fillOrder s l a o).2.SizeFilled ∧
    ∀ p, p ≠ a → p ≠ o → ((fillStep s l a o).order p).Size = (s.order p).Size := by
  obtain ⟨h1, h2, h3, h4⟩ := fillOrder_sizes s l a o hao
  unfold fillStep
  simp only [setVolume_order]
  rw [h1]
  exact ⟨h2, h3, fun p hpa hpo => by rw [h4 p hpa hpo]⟩

theorem fillStep_volume (s : State) (l a o p : Nat) :
    ((fillStep s l a o).limit p).TotalVolume =
      if p = l then (s.limit l).TotalVolume - (fillOrder s l a o).2.SizeFilled
      else (s.limit p).TotalVolume := by
  unfold fillStep
  rw [setVolume_limit, fillOrder_limit]
  split <;> rfl

theorem sizeSum_update (s t : State) (os : List Nat) (a : Nat) (d : ℚ) (hnd : os.Nodup)
    (ha : a ∈ os) (h1 : (t.order a).Size = (s.order a).Size - d)
    (h2 : ∀ x ∈ os, x ≠ a → (t.order x).Size = (s.order x).Size) :
    sizeSum t os = sizeSum s os - d := by
  rw [sizeSum_perm t (List.perm_cons_erase ha), sizeSum_perm s (List.perm_cons_erase ha)]
  have he : sizeSum t (os.erase a) = sizeSum s (os.erase a) := by
    apply sizeSum_congr
    intro x hx
    have := hnd.mem_erase_iff.mp hx
    exact h2 x this.2 this.1
  simp only [sizeSum, List.map_cons, List.sum_cons] at he ⊢
  rw [he, h1]; ring

/-- One turn of the matching loop keeps the book well formed. -/
theorem WF_fillStep (s : State) (l a o : Nat) (hw : WF s) (hl : l ∈ levels s)
    (ha : a ∈ (s.limit l).Orders.vis) (hf : Fresh s o) : WF (fillStep s l a o) := by
  have hsh := SameShape_fillStep s l a o
  have hao : a ≠ o := by intro h; subst h; exact hf l hl ha
  obtain ⟨hsa, _, hsp⟩ := fillStep_size s l a o hao
  refine ⟨?_, ?_, ?_, ?_, ?_⟩
  · rw [hsh.levels_eq]; exact hw.levels_nodup
  · rw [hsh.levels_eq, hsh.next]; exact hw.levels_lt
  · intro l' hl'; rw [hsh.levels_eq] at hl'; rw [hsh.orders]; exact hw.orders_nodup l' hl'
  · intro l' hl' x hx
    rw [hsh.levels_eq] at hl'; rw [hsh.orders] at hx
    rw [hsh.backref]; exact hw.backref l' hl' x hx
  · intro l' hl'
    rw [hsh.levels_eq] at hl'
    rw [hsh.orders, fillStep_volume]
    by_cases h : l' = l
    · subst h
      rw [if_pos rfl, hw.volume l' hl']
      symm
      apply sizeSum_update s _ _ a _ (hw.orders_nodup l' hl') ha hsa
      intro x hx hxa
      exact hsp x hxa (by intro he; subst he; exact hf l' hl' hx)
    · rw [if_neg h, hw.volume l' hl']
      symm
      apply sizeSum_congr
      intro x hx
      apply hsp x
      · intro he; subst he
        have h1 := hw.backref l hl x ha
        have h2 := hw.backref l' hl' x hx
        rw [h1] at h2
        exact h (Option.some.inj h2).symm
      · intro he; subst he; exact hf l' hl' hx

theorem Fresh_of_SameShape {s t : State} (h : SameShape s t) (o : Nat) (hf : Fresh s o) :
    Fresh t o := by
  intro l hl
  rw [h.levels_eq] at hl
  rw [h.orders]; exact hf l hl

theorem WF_fillLoop (l o : Nat) (os : List Nat) :
    ∀ (s : State) (ms : List Match) (del : List Nat), WF s → l ∈ levels s →
      (∀ a ∈ os, a ∈ (s.limit l).Orders.vis) → Fresh s o →
      WF (fillLoop l o os s ms del).1 := by
  induction os with
  | nil => intro s ms del hw _ _ _; exact hw
  | cons a rest ih =>
    intro s ms del hw hl hos hf
    have hsh := SameShape_fillStep s l a o
    have hw1 := WF_fillStep s l a o hw hl (hos a (List.mem_cons_self _ _)) hf
    rw [fillLoop_cons]
    split
    · exact hw1
    · apply ih _ _ _ hw1
      · rw [hsh.levels_eq]; exact hl
      · intro x hx; rw [hsh.orders]; exact hos x (List.mem_cons_of_mem _ hx)
      · exact Fresh_of_SameShape hsh o hf

/-! ## The deferred deletions of Fill -/

theorem Fill_eq (s : State) (l o : Nat) :
    Fill s l o =
      (deleteAll (fillLoop l o (s.limit l).Orders.vis s [] []).1 l
          (fillLoop l o (s.limit l).Orders.vis s [] []).2.2,
        (fillLoop l o (s.limit l).Orders.vis s [] []).2.1) := rfl

theorem deleteAll_nil (s : State) (l : Nat) : deleteAll s l [] = s := rfl

theorem deleteAll_cons (s : State) (l d : Nat) (rest : List Nat) :
    deleteAll s l (d :: rest) = deleteAll (DeleteOrder s l d) l rest := rfl

theorem deleteAll_ob (s : State) (l : Nat) (del : List Nat) : (deleteAll s l del).ob = s.ob := by
  induction del generalizing s with
  | nil => rfl
  | cons d rest ih => rw [deleteAll_cons, ih, DeleteOrder_ob]

theorem deleteAll_next (s : State) (l : Nat) (del : List Nat) :
    (deleteAll s l del).nextLimit = s.nextLimit := by
  induction del generalizing s with
  | nil => rfl
  | cons d rest ih => rw [deleteAll_cons, ih, DeleteOrder_next]

theorem deleteAll_levels (s : State) (l : Nat) (del : List Nat) :
    levels (deleteAll s l del) = levels s := by
  unfold levels; rw [deleteAll_ob]

theorem deleteAll_limit_ne (s : State) (l : Nat) (del : List Nat) (p : Nat) (h : p ≠ l) :
    (deleteAll s l del).limit p = s.limit p := by
  induction del generalizing s with
  | nil => rfl
  | cons d rest ih => rw [deleteAll_cons, ih, DeleteOrder_limit_ne s l d p h]

theorem deleteAll_price (s : State) (l : Nat) (del : List Nat) (p : Nat) :
    ((deleteAll s l del).limit p).Price = (s.limit p).Price := by
  induction del generalizing s with
  | nil => rfl
  | cons d rest ih =>
    rw [deleteAll_cons, ih]
    by_cases h : p = l
    · subst h; exact DeleteOrder_price s p d
    · rw [DeleteOrder_limit_ne s l d p h]

theorem deleteAll_size (s : State) (l : Nat) (del : List Nat) (p : Nat) :
    ((deleteAll s l del).order p).Size = (s.order p).Size := by
  induction del generalizing s with
  | nil => rfl
  | cons d rest ih => rw [deleteAll_cons, ih, DeleteOrder_size]

theorem deleteAll_timestamp (s : State) (l : Nat) (del : List Nat) (p : Nat) :
    ((deleteAll s l del).order p).Timestamp = (s.order p).Timestamp := by
  induction del generalizing s with
  | nil => rfl
  | cons d rest ih => rw [deleteAll_cons, ih, DeleteOrder_timestamp]

theorem deleteAll_order_of_not_mem (s : State) (l : Nat) (del : List Nat) (p : Nat)
    (h : p ∉ del) : (deleteAll s l del).order p = s.order p := by
  induction del generalizing s with
  | nil => rfl
  | cons d rest ih =>
    have hpd : p ≠ d := fun he => h (he ▸ List.mem_cons_self _ _)
    rw [deleteAll_cons, ih _ (fun hm => h (List.mem_cons_of_mem _ hm)), DeleteOrder_order,
      if_neg hpd]

theorem deleteAll_volume (s : State) (l : Nat) (del : List Nat) :
    ((deleteAll s l del).limit l).TotalVolume = (s.limit l).TotalVolume - sizeSum s del := by
  induction del generalizing s with
  | nil => simp [deleteAll_nil, sizeSum]
  | cons d rest ih =>
    rw [deleteAll_cons, ih, DeleteOrder_volume]
    have : sizeSum (DeleteOrder s l d) rest = sizeSum s rest :=
      sizeSum_congr _ _ _ (fun x _ => DeleteOrder_size s l d x)
    rw [this]
    simp only [sizeSum, List.map_cons, List.sum_cons]
    ring

/-- The deletions remove exactly the orders to delete, up to order. -/
theorem deleteAll_orders_perm (s : State) (l : Nat) (del : List Nat)
    (hnd : (s.limit l).Orders.vis.Nodup) :
    ((deleteAll s l del).limit l).Orders.vis.Perm ((s.limit l).Orders.vis.diff del) := by
  induction del generalizing s with
  | nil => simp [deleteAll_nil]
  | cons d rest ih =>
    rw [deleteAll_cons, List.diff_cons]
    have hp := DeleteOrder_orders_perm s l d hnd
    exact (ih _ (hp.nodup_iff.mpr (hnd.erase d))).trans (hp.diff_right rest)

theorem WF_deleteAll (l : Nat) (del : List Nat) :
    ∀ s : State, WF s → l ∈ levels s → del.Nodup →
      (∀ d ∈ del, d ∈ (s.limit l).Orders.vis) → WF (deleteAll s l del) := by
  induction del with
  | nil => intro s hw _ _ _; exact hw
  | cons d rest ih =>
    intro s hw hl hnd hsub
    rw [deleteAll_cons]
    have hd := hsub d (List.mem_cons_self _ _)
    have hnd' := List.nodup_cons.mp hnd
    apply ih _ (WF_DeleteOrder s l d hw hl hd) hl hnd'.2
    intro x hx
    apply (DeleteOrder_orders_perm s l d (hw.orders_nodup l hl)).mem_iff.mpr
    apply (hw.orders_nodup l hl).mem_erase_iff.mpr
    exact ⟨fun he => hnd'.1 (he ▸ hx), hsub x (List.mem_cons_of_mem _ hx)⟩

/-! ## What the matching loop hands to the deletions -/

theorem fillLoop_size_frame (l o : Nat) (os : List Nat) :
    ∀ (s : State) (ms : List Match) (del : List Nat) (p : Nat), p ∉ os → p ≠ o →
      ((fillLoop l o os s ms del).1.order p).Size = (s.order p).Size := by
  induction os with
  | nil => intro s ms del p _ _; rfl
  | cons a rest ih =>
    intro s ms del p hp hpo
    have hpa : p ≠ a := fun h => hp (h ▸ List.mem_cons_self _ _)
    have hpr : p ∉ rest := fun h => hp (List.mem_cons_of_mem _ h)
    have hstep : ((fillStep s l a o).order p).Size = (s.order p).Size := by
      by_cases hao : a = o
      · subst hao
        unfold fillStep
        rw [setVolume_order, fillOrder_fst]
        split <;> simp [hpa]
      · exact (fillStep_size s l a o hao).2.2 p hpa hpo
    rw [fillLoop_cons]
    split
    · exact hstep
    · rw [ih _ _ _ p hpr hpo, hstep]

theorem fillLoop_del (l o : Nat) (os : List Nat) :
    ∀ (s : State) (ms : List Match) (del : List Nat), os.Nodup → o ∉ os →
      ∃ d2, (fillLoop l o os s ms del).2.2 = del ++ d2 ∧ d2.Sublist os ∧
        ∀ d ∈ d2, ((fillLoop l o os s ms del).1.order d).Size = 0 := by
  induction os with
  | nil => intro s ms del _ _; exact ⟨[], by simp [fillLoop], List.Sublist.refl _, by simp⟩
  | cons a rest ih =>
    intro s ms del hnd ho
    have hnd' := List.nodup_cons.mp hnd
    have hao : a ≠ o := fun h => ho (h ▸ List.mem_cons_self _ _)
    have hor : o ∉ rest := fun h => ho (List.mem_cons_of_mem _ h)
    rw [fillLoop_cons]
    by_cases hfo : IsFilled (fillStep s l a o) o = true
    · rw [if_pos hfo]
      by_cases hfa : IsFilled (fillStep s l a o) a = true
      · rw [if_pos hfa]
        refine ⟨[a], rfl, List.Sublist.cons₂ a (List.nil_sublist _), ?_⟩
        intro d hd
        rw [List.mem_singleton.mp hd]
        simpa [IsFilled] using hfa
      · rw [if_neg hfa]
        exact ⟨[], by simp, List.nil_sublist _, by simp⟩
    · rw [if_neg hfo]
      by_cases hfa : IsFilled (fillStep s l a o) a = true
      · rw [if_pos hfa]
        obtain ⟨d2, h1, h2, h3⟩ := ih (fillStep s l a o) (ms ++ [(fillOrder s l a o).2])
          (del ++ [a]) hnd'.2 hor
        refine ⟨a :: d2, by rw [h1]; simp, List.Sublist.cons₂ a h2, ?_⟩
        intro d hd
        rcases List.mem_cons.mp hd with hd | hd
        · rw [hd, fillLoop_size_frame l o rest _ _ _ a hnd'.1 hao]
          simpa [IsFilled] using hfa
        · exact h3 d hd
      · rw [if_neg hfa]
        obtain ⟨d2, h1, h2, h3⟩ := ih (fillStep s l a o) (ms ++ [(fillOrder s l a o).2])
          del hnd'.2 hor
        exact ⟨d2, h1, List.Sublist.cons a h2, h3⟩

theorem fillLoop_del_nil (l o : Nat) (s : State) (hnd : (s.limit l).Orders.vis.Nodup)
    (ho : o ∉ (s.limit l).Orders.vis) :
    (fillLoop l o (s.limit l).Orders.vis s [] []).2.2.Sublist (s.limit l).Orders.vis ∧
    ∀ d ∈ (fillLoop l o (s.limit l).Orders.vis s [] []).2.2,
      ((fillLoop l o (s.limit l).Orders.vis s [] []).1.order d).Size = 0 := by
  obtain ⟨d2, h1, h2, h3⟩ := fillLoop_del l o _ s [] [] hnd ho
  rw [List.nil_append] at h1
  rw [h1]
  exact ⟨h2, h3⟩

/-- Fill keeps the book well formed. -/
theorem WF_Fill (s : State) (l o : Nat) (hw : WF s) (hl : l ∈ levels s) (hf : Fresh s o) :
    WF (Fill s l o).1 := by
  rw [Fill_eq]
  have hsh := SameShape_fillLoop l o (s.limit l).Orders.vis s [] []
  have hd := fillLoop_del_nil l o s (hw.orders_nodup l hl) (hf l hl)
  apply WF_deleteAll
  · exact WF_fillLoop l o _ s [] [] hw hl (fun a ha => ha) hf
  · rw [hsh.levels_eq]; exact hl
  · exact hd.1.nodup (hw.orders_nodup l hl)
  · intro d hdm
    rw [hsh.orders]
    exact hd.1.subset hdm

/-! ## The range loop of PlaceMarketOrder reads the levels it started with -/

theorem getD_set_ne (l : List Nat) (i j v d : Nat) (h : j ≠ i) :
    (l.set i v).getD j d = l.getD j d := by
  simp [List.getD_eq_getElem?_getD, List.getElem?_set_ne (Ne.symm h)]

theorem Aligned_start (L stale : List Nat) (h : L.Nodup) : Aligned 0 ⟨L, stale⟩ L where
  nodup := h
  len_le := le_refl _
  get := by
    intro j _ hj
    unfold Slice.get
    rw [List.getD_append _ _ _ _ hj]
  mem := by
    intro j _ hj
    rw [List.getD_eq_getElem _ _ hj]
    exact List.getElem_mem _

theorem Aligned_succ {k : Nat} {sl : Slice} {L : List Nat} (h : Aligned k sl L) :
    Aligned (k + 1) sl L where
  nodup := h.nodup
  len_le := h.len_le
  get := fun j hj => h.get j (by omega)
  mem := fun j hj => h.mem j (by omega)

/-- Removing the level that the loop is at keeps the rest of the array aligned. -/
theorem Aligned_remove {k : Nat} {sl : Slice} {L : List Nat} (h : Aligned k sl L)
    (hL : L.Nodup) (hk : k < L.length) : Aligned (k + 1) (sl.remove (L.getD k 0)) L := by
  have hx := h.mem k (le_refl _) hk
  obtain ⟨i, hi, hvi⟩ := List.mem_iff_getElem.mp hx
  have hLk : L.getD k 0 = L[k] := List.getD_eq_getElem _ _ hk
  have hik : i ≤ k := by
    by_contra hcon
    have hik : k < i := by omega
    have hiL : i < L.length := lt_of_lt_of_le hi h.len_le
    have h1 := h.get i (le_of_lt hik) hiL
    rw [Slice.get_of_lt sl hi, hvi, List.getD_eq_getElem _ _ hiL, hLk] at h1
    have := (hL.getElem_inj_iff).mp h1
    omega
  rw [Slice.remove_at sl _ i h.nodup hi hvi]
  have hperm := swapRemove_vis_perm sl i hi
  rw [← h.nodup.erase_getElem i hi, hvi] at hperm
  refine ⟨?_, ?_, ?_, ?_⟩
  · exact hperm.nodup_iff.mpr (h.nodup.erase _)
  · rw [hperm.length_eq]
    exact le_trans (List.length_erase_le _ _) h.len_le
  · intro j hj hjL
    have hji : j ≠ i := by omega
    unfold Slice.get
    rw [swapRemove_backing sl i hi, getD_set_ne _ _ _ _ _ hji]
    exact h.get j (by omega) hjL
  · intro j hj hjL
    apply hperm.mem_iff.mpr
    apply h.nodup.mem_erase_iff.mpr
    refine ⟨?_, h.mem j (by omega) hjL⟩
    rw [List.getD_eq_getElem _ _ hjL, hLk]
    intro he
    have := (hL.getElem_inj_iff).mp he
    omega

@[simp] theorem Fill_ob (s : State) (l o : Nat) : (Fill s l o).1.ob = s.ob := by
  rw [Fill_eq]
  simp only [deleteAll_ob]
  exact (SameShape_fillLoop l o _ s [] []).ob

theorem contra_Fill (s : State) (l o : Nat) (buy : Bool) :
    contra (Fill s l o).1 buy = contra s buy := by
  unfold contra; rw [Fill_ob]

theorem contra_clearLimit (s : State) (l : Nat) (buy : Bool) :
    contra (clearLimit s (!buy) l) buy = (contra s buy).remove l := by
  unfold contra clearLimit
  cases buy <;> simp

/-- The loop over the indices of the slice is the sweep over the levels that the
slice held when the loop began. -/
theorem sweep_eq_sweepLevels (buy : Bool) (o : Nat) (L : List Nat) (hL : L.Nodup) :
    ∀ (n k : Nat) (s : State) (ms : List Match), n = L.length - k →
      Aligned k (contra s buy) L →
      sweep buy o (List.range' k n) s ms = sweepLevels buy o (L.drop k) s ms := by
  intro n
  induction n with
  | zero =>
    intro k s ms hn _
    have : L.drop k = [] := List.drop_eq_nil_of_le (by omega)
    rw [this]; rfl
  | succ n ih =>
    intro k s ms hn hal
    have hk : k < L.length := by omega
    rw [List.range'_succ, List.drop_eq_getElem_cons hk]
    have hget : (contra s buy).get k = L[k] := by
      rw [hal.get k (le_refl _) hk, List.getD_eq_getElem _ _ hk]
    unfold sweep sweepLevels
    simp only [hget]
    apply ih (k + 1) _ _ (by omega)
    split
    · rw [contra_clearLimit, contra_Fill, ← List.getD_eq_getElem L 0 hk]
      exact Aligned_remove hal hL hk
    · rw [contra_Fill]; exact Aligned_succ hal

/-! ## The market order keeps the book well formed -/

theorem WF_shrink (s t : State) (hlim : t.limit = s.limit) (hord : t.order = s.order)
    (hn : t.nextLimit = s.nextLimit) (hnd : (levels t).Nodup)
    (hsub : ∀ l ∈ levels t, l ∈ levels s) (hw : WF s) : WF t where
  levels_nodup := hnd
  levels_lt := fun l hl => by rw [hn]; exact hw.levels_lt l (hsub l hl)
  orders_nodup := fun l hl => by rw [hlim]; exact hw.orders_nodup l (hsub l hl)
  backref := fun l hl x hx => by
    rw [hlim] at hx; rw [hord]; exact hw.backref l (hsub l hl) x hx
  volume := fun l hl => by
    have := hw.volume l (hsub l hl)
    unfold sizeSum at this ⊢
    rw [hlim, hord]; exact this

theorem levels_sortedSide (s : State) (buy : Bool) :
    (levels (sortedSide s buy)).Perm (levels s) := by
  unfold sortedSide levels Asks Bids Slice.sortBy
  cases buy
  · simp only [Bool.false_eq_true, if_false]
    exact List.Perm.append_left _ (List.perm_insertionSort _ _)
  · simp only [if_true]
    exact List.Perm.append_right _ (List.perm_insertionSort _ _)

@[simp] theorem sortedSide_limit (s : State) (buy : Bool) : (sortedSide s buy).limit = s.limit := by
  unfold sortedSide; split <;> rfl

@[simp] theorem sortedSide_order (s : State) (buy : Bool) : (sortedSide s buy).order = s.order := by
  unfold sortedSide; split <;> rfl

@[simp] theorem sortedSide_next (s : State) (buy : Bool) :
    (sortedSide s buy).nextLimit = s.nextLimit := by
  unfold sortedSide; split <;> rfl

theorem WF_sortedSide (s : State) (buy : Bool) (hw : WF s) : WF (sortedSide s buy) :=
  WF_shrink s _ (sortedSide_limit s buy) (sortedSide_order s buy) (sortedSide_next s buy)
    ((levels_sortedSide s buy).nodup_iff.mpr hw.levels_nodup)
    (fun _ hl => (levels_sortedSide s buy).mem_iff.mp hl) hw

theorem Fresh_sortedSide (s : State) (buy : Bool) (o : Nat) (hf : Fresh s o) :
    Fresh (sortedSide s buy) o := by
  intro l hl
  rw [sortedSide_limit]
  exact hf l ((levels_sortedSide s buy).mem_iff.mp hl)

@[simp] theorem clearLimit_limit (s : State) (bid : Bool) (l : Nat) :
    (clearLimit s bid l).limit = s.limit := by
  unfold clearLimit; split <;> rfl

@[simp] theorem clearLimit_order (s : State) (bid : Bool) (l : Nat) :
    (clearLimit s bid l).order = s.order := by
  unfold clearLimit; split <;> rfl

@[simp] theorem clearLimit_next (s : State) (bid : Bool) (l : Nat) :
    (clearLimit s bid l).nextLimit = s.nextLimit := by
  unfold clearLimit; split <;> rfl

theorem nodup_of_levels_left {s : State} (h : (levels s).Nodup) : s.ob.asks.vis.Nodup :=
  (List.nodup_append.mp h).1

theorem nodup_of_levels_right {s : State} (h : (levels s).Nodup) : s.ob.bids.vis.Nodup :=
  (List.nodup_append.mp h).2.1

/-- The levels after `clearLimit`: those of the side without `l`, up to order. -/
theorem levels_clearLimit (s : State) (bid : Bool) (l : Nat) (hnd : (levels s).Nodup) :
    (levels (clearLimit s bid l)).Perm
      (if bid then s.ob.asks.vis ++ s.ob.bids.vis.erase l
        else s.ob.asks.vis.erase l ++ s.ob.bids.vis) := by
  unfold clearLimit levels
  cases bid
  · simp only [Bool.false_eq_true, if_false]
    exact List.Perm.append_right _ (Slice.remove_perm _ _ (nodup_of_levels_left hnd))
  · simp only [if_true]
    exact List.Perm.append_left _ (Slice.remove_perm _ _ (nodup_of_levels_right hnd))

theorem levels_clearLimit_sublist (s : State) (bid : Bool) (l : Nat) :
    (if bid then s.ob.asks.vis ++ s.ob.bids.vis.erase l
      else s.ob.asks.vis.erase l ++ s.ob.bids.vis).Sublist (levels s) := by
  unfold levels
  cases bid
  · simp only [Bool.false_eq_true, if_false]
    exact List.Sublist.append (List.erase_sublist _ _) (List.Sublist.refl _)
  · simp only [if_true]
    exact List.Sublist.append (List.Sublist.refl _) (List.erase_sublist _ _)

theorem mem_levels_of_clearLimit (s : State) (bid : Bool) (l x : Nat) (hnd : (levels s).Nodup)
    (h : x ∈ levels (clearLimit s bid l)) : x ∈ levels s :=
  (levels_clearLimit_sublist s bid l).subset ((levels_clearLimit s bid l hnd).mem_iff.mp h)

theorem mem_levels_clearLimit (s : State) (bid : Bool) (l x : Nat) (hnd : (levels s).Nodup)
    (h : x ∈ levels s) (hne : x ≠ l) : x ∈ levels (clearLimit s bid l) := by
  apply (levels_clearLimit s bid l hnd).mem_iff.mpr
  unfold levels at h
  rcases List.mem_append.mp h with h | h
  · cases bid
    · simp only [Bool.false_eq_true, if_false]
      exact List.mem_append_left _ ((List.mem_erase_of_ne hne).mpr h)
    · simp only [if_true]
      exact List.mem_append_left _ h
  · cases bid
    · simp only [Bool.false_eq_true, if_false]
      exact List.mem_append_right _ h
    · simp only [if_true]
      exact List.mem_append_right _ ((List.mem_erase_of_ne hne).mpr h)

theorem WF_clearLimit (s : State) (bid : Bool) (l : Nat) (hw : WF s) :
    WF (clearLimit s bid l) :=
  WF_shrink s _ (clearLimit_limit s bid l) (clearLimit_order s bid l) (clearLimit_next s bid l)
    ((levels_clearLimit s bid l hw.levels_nodup).nodup_iff.mpr
      ((levels_clearLimit_sublist s bid l).nodup hw.levels_nodup))
    (fun x hx => mem_levels_of_clearLimit s bid l x hw.levels_nodup hx) hw

theorem Fresh_clearLimit (s : State) (bid : Bool) (l o : Nat) (hnd : (levels s).Nodup)
    (hf : Fresh s o) : Fresh (clearLimit s bid l) o := by
  intro x hx
  rw [clearLimit_limit]
  exact hf x (mem_levels_of_clearLimit s bid l x hnd hx)

theorem Fill_levels (s : State) (l o : Nat) : levels (Fill s l o).1 = levels s := by
  unfold levels; rw [Fill_ob]

theorem fillStep_limit_ne (s : State) (l a o p : Nat) (h : p ≠ l) :
    (fillStep s l a o).limit p = s.limit p := by
  unfold fillStep
  rw [setVolume_limit, if_neg h, fillOrder_limit]

theorem fillLoop_limit_ne (l o : Nat) (os : List Nat) :
    ∀ (s : State) (ms : List Match) (del : List Nat) (p : Nat), p ≠ l →
      (fillLoop l o os s ms del).1.limit p = s.limit p := by
  induction os with
  | nil => intro s ms del p _; rfl
  | cons a rest ih =>
    intro s ms del p hp
    rw [fillLoop_cons]
    split
    · exact fillStep_limit_ne s l a o p hp
    · rw [ih _ _ _ p hp, fillStep_limit_ne s l a o p hp]

theorem Fill_limit_ne (s : State) (l o p : Nat) (h : p ≠ l) :
    (Fill s l o).1.limit p = s.limit p := by
  rw [Fill_eq]
  simp only
  rw [deleteAll_limit_ne _ _ _ _ h, fillLoop_limit_ne l o _ s [] [] p h]

/-- After Fill the level lists what it listed before, without the deleted orders. -/
theorem Fill_orders_perm (s : State) (l o : Nat) (hnd : (s.limit l).Orders.vis.Nodup) :
    ((Fill s l o).1.limit l).Orders.vis.Perm
      ((s.limit l).Orders.vis.diff (fillLoop l o (s.limit l).Orders.vis s [] []).2.2) := by
  rw [Fill_eq]
  simp only
  have hsh := SameShape_fillLoop l o (s.limit l).Orders.vis s [] []
  have := deleteAll_orders_perm (fillLoop l o (s.limit l).Orders.vis s [] []).1 l
    (fillLoop l o (s.limit l).Orders.vis s [] []).2.2 (by rw [hsh.orders]; exact hnd)
  rw [hsh.orders] at this
  exact this

theorem Fill_orders_subset (s : State) (l o p : Nat) (hnd : (s.limit l).Orders.vis.Nodup) :
    ∀ x ∈ ((Fill s l o).1.limit p).Orders.vis, x ∈ (s.limit p).Orders.vis := by
  intro x hx
  by_cases h : p = l
  · subst h
    exact (List.diff_sublist _ _).subset ((Fill_orders_perm s p o hnd).mem_iff.mp hx)
  · rw [Fill_limit_ne s l o p h] at hx; exact hx

theorem Fresh_Fill (s : State) (l o q : Nat) (hw : WF s) (hl : l ∈ levels s)
    (hf : Fresh s q) : Fresh (Fill s l o).1 q := by
  intro p hp
  rw [Fill_levels] at hp
  intro hmem
  exact hf p hp (Fill_orders_subset s l o p (hw.orders_nodup l hl) q hmem)

theorem WF_sweepLevels (buy : Bool) (o : Nat) (L : List Nat) :
    ∀ (s : State) (ms : List Match), WF s → Fresh s o → L.Nodup →
      (∀ l ∈ L, l ∈ levels s) → WF (sweepLevels buy o L s ms).1 := by
  induction L with
  | nil => intro s ms hw _ _ _; exact hw
  | cons l rest ih =>
    intro s ms hw hf hnd hsub
    have hl := hsub l (List.mem_cons_self _ _)
    have hnd' := List.nodup_cons.mp hnd
    have hw1 := WF_Fill s l o hw hl hf
    have hf1 := Fresh_Fill s l o o hw hl hf
    unfold sweepLevels
    simp only
    split
    · apply ih _ _ (WF_clearLimit _ _ _ hw1) (Fresh_clearLimit _ _ _ _ hw1.levels_nodup hf1)
        hnd'.2
      intro x hx
      apply mem_levels_clearLimit _ _ _ _ hw1.levels_nodup
      · rw [Fill_levels]; exact hsub x (List.mem_cons_of_mem _ hx)
      · intro he; exact hnd'.1 (he ▸ hx)
    · apply ih _ _ hw1 hf1 hnd'.2
      intro x hx
      rw [Fill_levels]; exact hsub x (List.mem_cons_of_mem _ hx)

theorem contra_sortedSide_nodup (s : State) (buy : Bool) (hnd : (levels s).Nodup) :
    (contra (sortedSide s buy) buy).vis.Nodup := by
  have h := (levels_sortedSide s buy).nodup_iff.mpr hnd
  unfold contra
  cases buy
  · simpa using nodup_of_levels_right h
  · simpa using nodup_of_levels_left h

theorem contra_mem_levels (s : State) (buy : Bool) : ∀ l ∈ (contra s buy).vis, l ∈ levels s := by
  intro l hl
  unfold contra at hl
  unfold levels
  cases buy
  · exact List.mem_append_right _ (by simpa using hl)
  · exact List.mem_append_left _ (by simpa using hl)

/-- A market order that does not fail is the sweep over the sorted levels of the
other side, one level after the other. -/
theorem PlaceMarketOrder_ok (s : State) (o : Nat) (hnd : (levels s).Nodup)
    (hok : ¬ (s.order o).Size > contraVolume s (s.order o).Bid) :
    PlaceMarketOrder s o =
      (.ok (sweepLevels (s.order o).Bid o
          (contra (sortedSide s (s.order o).Bid) (s.order o).Bid).vis
          (sortedSide s (s.order o).Bid) []).2,
        (sweepLevels (s.order o).Bid o
          (contra (sortedSide s (s.order o).Bid) (s.order o).Bid).vis
          (sortedSide s (s.order o).Bid) []).1) := by
  have key : ∀ buy : Bool,
      sweep buy o (List.range (contra (sortedSide s buy) buy).len) (sortedSide s buy) [] =
        sweepLevels buy o (contra (sortedSide s buy) buy).vis (sortedSide s buy) [] := by
    intro buy
    have hn := contra_sortedSide_nodup s buy hnd
    rw [List.range_eq_range']
    have := sweep_eq_sweepLevels buy o (contra (sortedSide s buy) buy).vis hn
      (contra (sortedSide s buy) buy).len 0 (sortedSide s buy) [] (by simp [Slice.len])
      (Aligned_start _ (contra (sortedSide s buy) buy).stale hn)
    simpa using this
  unfold PlaceMarketOrder
  by_cases hb : (s.order o).Bid = true
  · rw [hb] at hok; simp only [hb, if_true] at key ⊢
    unfold contraVolume at hok
    rw [if_pos rfl] at hok
    rw [if_neg hok]
    have := key true
    simp only [sortedSide, contra, if_true] at this ⊢
    rw [this]
  · have hb' : (s.order o).Bid = false := by simpa using hb
    rw [hb'] at hok; simp only [hb', Bool.false_eq_true, if_false] at key ⊢
    unfold contraVolume at hok
    rw [if_neg (by simp)] at hok
    rw [if_neg hok]
    have := key false
    simp only [sortedSide, contra, Bool.false_eq_true, if_false] at this ⊢
    rw [this]

/-! ## Histories keep the book well formed -/

theorem PlaceMarketOrder_fail (s : State) (o : Nat)
    (h : (s.order o).Size > contraVolume s (s.order o).Bid) :
    PlaceMarketOrder s o =
      (.error (.notEnoughVolume (contraVolume s (s.order o).Bid) (s.order o).Size), s) := by
  unfold PlaceMarketOrder
  unfold contraVolume at h ⊢
  by_cases hb : (s.order o).Bid = true
  · simp only [hb, if_true] at h ⊢
    rw [if_pos h]
  · simp only [hb, Bool.false_eq_true, if_false] at h ⊢
    rw [if_pos h]

theorem WF_PlaceMarketOrder (s : State) (o : Nat) (hw : WF s) (hf : Fresh s o) :
    WF (PlaceMarketOrder s o).2 := by
  by_cases h : (s.order o).Size > contraVolume s (s.order o).Bid
  · rw [PlaceMarketOrder_fail s o h]; exact hw
  · rw [PlaceMarketOrder_ok s o hw.levels_nodup h]
    apply WF_sweepLevels _ _ _ _ _ (WF_sortedSide s _ hw) (Fresh_sortedSide s _ o hf)
      (contra_sortedSide_nodup s _ hw.levels_nodup)
    exact contra_mem_levels _ _

theorem WF_step (s : State) (op : Op) (hw : WF s) (hok : op.ok s) : WF (step s op) := by
  cases op with
  | limit price o => exact WF_PlaceLimitOrder s price o hw (fresh_of_nil s o hw hok)
  | market o => exact WF_PlaceMarketOrder s o hw (fresh_of_nil s o hw hok.1)
  | cancel o => exact WF_CancelOrder s o hw hok

theorem WF_run (ops : List Op) : ∀ s, WF s → Trace Op.ok s ops → WF (run s ops) := by
  induction ops with
  | nil => intro s hw _; exact hw
  | cons op rest ih =>
    intro s hw ht
    exact ih _ (WF_step s op hw ht.1) ht.2

/-- C2: starting from `NewOrderBook` and applying any finite sequence of
`PlaceLimitOrder` and non-failing `PlaceMarketOrder` on orders not placed before
and `CancelOrder` of resting orders, every level of either side has
`TotalVolume` equal to the sum of the sizes of its orders (sizes being exact
rationals; the sizes need not even be non-negative). -/
theorem volume_invariant_of_history (h : Nat → Order) (ops : List Op)
    (hv : Trace Op.ok (NewOrderBook h) ops) :
    ∀ l ∈ levels (run (NewOrderBook h) ops),
      ((run (NewOrderBook h) ops).limit l).TotalVolume =
        sizeSum (run (NewOrderBook h) ops) ((run (NewOrderBook h) ops).limit l).Orders.vis :=
  (WF_run ops _ (WF_NewOrderBook h) hv).volume

/-- C2 (witness): the history `sampleHistory` on the heap `sweepHeap`. -/
theorem volume_invariant_of_history_witness :
    Trace Op.ok (NewOrderBook sweepHeap) sampleHistory ∧
    ∀ l ∈ levels (run (NewOrderBook sweepHeap) sampleHistory),
      ((run (NewOrderBook sweepHeap) sampleHistory).limit l).TotalVolume =
        sizeSum (run (NewOrderBook sweepHeap) sampleHistory)
          ((run (NewOrderBook sweepHeap) sampleHistory).limit l).Orders.vis :=
  ⟨by decide!, volume_invariant_of_history sweepHeap sampleHistory (by decide!)⟩

/-! ## Time order within a level -/

theorem TimeSorted_iff (s : State) :
    TimeSorted s ↔ ∀ l ∈ levels s, (s.limit l).Orders.vis.Pairwise (older s) := Iff.rfl

theorem older_congr (s t : State) (h : ∀ p, (t.order p).Timestamp = (s.order p).Timestamp)
    (L : List Nat) : L.Pairwise (older t) ↔ L.Pairwise (older s) := by
  have : older t = older s := by
    funext a b; unfold older; rw [h a, h b]
  rw [this]

/-- On a level in time order, `DeleteOrder` leaves the other orders as they stood. -/
theorem DeleteOrder_orders_sorted (s : State) (l o : Nat)
    (hnd : (s.limit l).Orders.vis.Nodup) (hs : (s.limit l).Orders.vis.Pairwise (older s)) :
    ((DeleteOrder s l o).limit l).Orders.vis = (s.limit l).Orders.vis.erase o := by
  have hperm := DeleteOrder_orders_perm s l o hnd
  have herase : ((s.limit l).Orders.vis.erase o).Pairwise (older s) :=
    hs.sublist (List.erase_sublist _ _)
  have hne : ((DeleteOrder s l o).limit l).Orders.vis.Pairwise
      (fun a b => (s.order a).Timestamp ≠ (s.order b).Timestamp) := by
    apply (List.Perm.pairwise_iff (fun h => Ne.symm h) hperm).mpr
    exact herase.imp (fun h => ne_of_lt h)
  have hle : ((DeleteOrder s l o).limit l).Orders.vis.Pairwise (olderEq s) := by
    rw [DeleteOrder_orders]
    exact List.sorted_insertionSort (olderEq s) _
  have hlt : ((DeleteOrder s l o).limit l).Orders.vis.Pairwise (older s) :=
    List.Pairwise.imp₂ (fun a b h1 h2 => lt_of_le_of_ne h1 h2) hle hne
  exact List.eq_of_perm_of_sorted hperm hlt herase

theorem deleteAll_orders_sorted (l : Nat) (del : List Nat) :
    ∀ s : State, (s.limit l).Orders.vis.Nodup → (s.limit l).Orders.vis.Pairwise (older s) →
      ((deleteAll s l del).limit l).Orders.vis = (s.limit l).Orders.vis.diff del := by
  induction del with
  | nil => intro s _ _; simp [deleteAll_nil]
  | cons d rest ih =>
    intro s hnd hs
    have h1 := DeleteOrder_orders_sorted s l d hnd hs
    rw [deleteAll_cons, List.diff_cons, ih, h1]
    · rw [h1]; exact hnd.erase d
    · rw [h1]
      apply (older_congr s _ (DeleteOrder_timestamp s l d) _).mpr
      exact hs.sublist (List.erase_sublist _ _)

/-- On a level in time order, Fill leaves the orders it does not delete as they
stood. -/
theorem Fill_orders_sorted (s : State) (l o : Nat) (hnd : (s.limit l).Orders.vis.Nodup)
    (hs : (s.limit l).Orders.vis.Pairwise (older s)) :
    ((Fill s l o).1.limit l).Orders.vis =
      (s.limit l).Orders.vis.diff (fillLoop l o (s.limit l).Orders.vis s [] []).2.2 := by
  rw [Fill_eq]
  simp only
  have hsh := SameShape_fillLoop l o (s.limit l).Orders.vis s [] []
  rw [deleteAll_orders_sorted, hsh.orders]
  · rw [hsh.orders]; exact hnd
  · rw [hsh.orders]
    exact (older_congr s _ hsh.timestamp _).mpr hs

theorem Fill_timestamp (s : State) (l o p : Nat) :
    ((Fill s l o).1.order p).Timestamp = (s.order p).Timestamp := by
  rw [Fill_eq]
  simp only
  rw [deleteAll_timestamp]
  exact (SameShape_fillLoop l o _ s [] []).timestamp p

theorem TimeSorted_Fill (s : State) (l o : Nat) (hw : WF s) (hl : l ∈ levels s)
    (ht : TimeSorted s) : TimeSorted (Fill s l o).1 := by
  intro p hp
  rw [Fill_levels] at hp
  apply (older_congr s _ (Fill_timestamp s l o) _).mpr
  by_cases h : p = l
  · subst h
    rw [Fill_orders_sorted s p o (hw.orders_nodup p hp) (ht p hp)]
    exact (ht p hp).sublist (List.diff_sublist _ _)
  · rw [Fill_limit_ne s l o p h]; exact ht p hp

theorem TimeSorted_shrink (s t : State) (hlim : t.limit = s.limit) (hord : t.order = s.order)
    (hsub : ∀ l ∈ levels t, l ∈ levels s) (ht : TimeSorted s) : TimeSorted t := by
  intro l hl
  have := ht l (hsub l hl)
  unfold older at this ⊢
  rw [hlim, hord]; exact this

theorem TimeSorted_sweepLevels (buy : Bool) (o : Nat) (L : List Nat) :
    ∀ (s : State) (ms : List Match), WF s → Fresh s o → TimeSorted s → L.Nodup →
      (∀ l ∈ L, l ∈ levels s) → TimeSorted (sweepLevels buy o L s ms).1 := by
  induction L with
  | nil => intro s ms _ _ ht _ _; exact ht
  | cons l rest ih =>
    intro s ms hw hf ht hnd hsub
    have hl := hsub l (List.mem_cons_self _ _)
    have hnd' := List.nodup_cons.mp hnd
    have hw1 := WF_Fill s l o hw hl hf
    have hf1 := Fresh_Fill s l o o hw hl hf
    have ht1 := TimeSorted_Fill s l o hw hl ht
    unfold sweepLevels
    simp only
    split
    · apply ih _ _ (WF_clearLimit _ _ _ hw1) (Fresh_clearLimit _ _ _ _ hw1.levels_nodup hf1)
        (TimeSorted_shrink _ _ (clearLimit_limit _ _ _) (clearLimit_order _ _ _)
          (fun x hx => mem_levels_of_clearLimit _ _ _ x hw1.levels_nodup hx) ht1) hnd'.2
      intro x hx
      apply mem_levels_clearLimit _ _ _ _ hw1.levels_nodup
      · rw [Fill_levels]; exact hsub x (List.mem_cons_of_mem _ hx)
      · intro he; exact hnd'.1 (he ▸ hx)
    · apply ih _ _ hw1 hf1 ht1 hnd'.2
      intro x hx
      rw [Fill_levels]; exact hsub x (List.mem_cons_of_mem _ hx)

theorem TimeSorted_PlaceMarketOrder (s : State) (o : Nat) (hw : WF s) (hf : Fresh s o)
    (ht : TimeSorted s) : TimeSorted (PlaceMarketOrder s o).2 := by
  by_cases h : (s.order o).Size > contraVolume s (s.order o).Bid
  · rw [PlaceMarketOrder_fail s o h]; exact ht
  · rw [PlaceMarketOrder_ok s o hw.levels_nodup h]
    apply TimeSorted_sweepLevels _ _ _ _ _ (WF_sortedSide s _ hw) (Fresh_sortedSide s _ o hf)
      (TimeSorted_shrink s _ (sortedSide_limit s _) (sortedSide_order s _)
        (fun x hx => (levels_sortedSide s _).mem_iff.mp hx) ht)
      (contra_sortedSide_nodup s _ hw.levels_nodup)
    exact contra_mem_levels _ _

theorem TimeSorted_CancelOrder (s : State) (o : Nat) (hw : WF s) (ht : TimeSorted s)
    (hr : Resting s o) : TimeSorted (CancelOrder s o).2 := by
  obtain ⟨l, hl, ho⟩ := hr
  rw [CancelOrder_snd, hw.backref l hl o ho]
  intro p hp
  have hp' : p ∈ levels s := hp
  simp only [unregister_limit]
  apply (older_congr s _ (fun q => by simp only [unregister_order]; exact DeleteOrder_timestamp s l o q) _).mpr
  by_cases h : p = l
  · subst h
    rw [DeleteOrder_orders_sorted s p o (hw.orders_nodup p hp') (ht p hp')]
    exact (ht p hp').sublist (List.erase_sublist _ _)
  · rw [DeleteOrder_limit_ne s l o p h]; exact ht p hp'

theorem TimeSorted_AddOrder (s : State) (l o : Nat) (ht : TimeSorted s)
    (hy : ∀ x ∈ (s.limit l).Orders.vis, (s.order x).Timestamp < (s.order o).Timestamp) :
    TimeSorted (AddOrder s l o) := by
  intro p hp
  have hp' : p ∈ levels s := hp
  have hts : ∀ q, ((AddOrder s l o).order q).Timestamp = (s.order q).Timestamp := by
    intro q; rw [AddOrder_order]; split <;> simp_all
  apply (older_congr s _ hts _).mpr
  rw [AddOrder_limit]
  by_cases h : p = l
  · subst h
    rw [if_pos rfl]
    simp only [Slice.append]
    apply List.pairwise_append.mpr
    refine ⟨ht p hp', List.pairwise_singleton _ _, ?_⟩
    intro a ha b hb
    rw [List.mem_singleton.mp hb]
    exact hy a ha
  · rw [if_neg h]; exact ht p hp'

theorem TimeSorted_congr (s t : State) (hl : levels t = levels s) (hlim : t.limit = s.limit)
    (hord : t.order = s.order) (ht : TimeSorted s) : TimeSorted t :=
  TimeSorted_shrink s t hlim hord (fun _ h => hl ▸ h) ht

theorem TimeSorted_createLimit (s : State) (price : ℚ) (bid : Bool) (hw : WF s)
    (ht : TimeSorted s) : TimeSorted (createLimit s price bid) := by
  intro l hl
  have hp := levels_createLimit s price bid
  have hnew : s.nextLimit ∉ levels s := fun h => Nat.lt_irrefl _ (hw.levels_lt _ h)
  apply (older_congr s _ (fun q => by rw [createLimit_order]) _).mpr
  rcases (by simpa using hp.mem_iff.mp hl : l = s.nextLimit ∨ l ∈ levels s) with h | h
  · rw [h, createLimit_limit, Function.update_same]; simp [NewLimit]
  · rw [createLimit_limit, Function.update_noteq]
    · exact ht l h
    · intro he; subst he; exact hnew h

theorem lookupLimit_register (s : State) (o : Nat) (price : ℚ) (q : Nat) :
    lookupLimit (register s o) price q = lookupLimit s price q := rfl

theorem TimeSorted_PlaceLimitOrder (s : State) (price : ℚ) (o : Nat) (hw : WF s)
    (ht : TimeSorted s) (hy : (Op.limit price o).timely s) :
    TimeSorted (PlaceLimitOrder s price o) := by
  unfold PlaceLimitOrder
  cases hlook : lookupLimit s price o with
  | some l =>
    simp only
    by_cases hl : l ∈ levels s
    · exact TimeSorted_AddOrder _ l o (TimeSorted_congr s _ rfl rfl rfl ht)
        (fun x hx => hy l hl x hx)
    · intro p hp
      have hp' : p ∈ levels s := hp
      have hpl : p ≠ l := fun he => hl (he ▸ hp')
      have hts : ∀ q, ((AddOrder (register s o) l o).order q).Timestamp =
          (s.order q).Timestamp := by
        intro q; rw [AddOrder_order]; split <;> simp_all
      apply (older_congr s _ hts _).mpr
      rw [AddOrder_limit, if_neg hpl]
      exact ht p hp'
  | none =>
    simp only
    apply TimeSorted_AddOrder _ _ o
      (TimeSorted_congr _ _ rfl rfl rfl (TimeSorted_createLimit s price _ hw ht))
    intro x hx
    simp only [register_limit, createLimit_limit, Function.update_same, NewLimit] at hx
    simp at hx

theorem Inv_step (s : State) (op : Op) (hw : WF s) (ht : TimeSorted s)
    (hok : op.okTimely s) : WF (step s op) ∧ TimeSorted (step s op) := by
  refine ⟨WF_step s op hw hok.1, ?_⟩
  cases op with
  | limit price o =>
    exact TimeSorted_PlaceLimitOrder s price o hw ht hok.2
  | market o => exact TimeSorted_PlaceMarketOrder s o hw (fresh_of_nil s o hw hok.1.1) ht
  | cancel o => exact TimeSorted_CancelOrder s o hw ht hok.1

theorem Inv_run (ops : List Op) : ∀ s, WF s → TimeSorted s → Trace Op.okTimely s ops →
    WF (run s ops) ∧ TimeSorted (run s ops) := by
  induction ops with
  | nil => intro s hw ht _; exact ⟨hw, ht⟩
  | cons op rest ih =>
    intro s hw ht htr
    have h := Inv_step s op hw ht htr.1
    exact ih _ h.1 h.2 htr.2

theorem TimeSorted_NewOrderBook (h : Nat → Order) : TimeSorted (NewOrderBook h) := by
  intro l hl
  simp [levels, NewOrderBook] at hl

/-! ## What CancelOrder does to a resting order -/

theorem CancelOrder_resting (s : State) (l o : Nat) (hw : WF s) (hl : l ∈ levels s)
    (ho : o ∈ (s.limit l).Orders.vis) :
    CancelOrder s o = (.ok (), unregister (DeleteOrder s l o) o) := by
  unfold CancelOrder
  rw [hw.backref l hl o ho]

/-- C10: on a book reached by a history in which every limit order was younger
than the orders resting when it was placed, cancelling an order `o` that rests in
level `l` succeeds, leaves in `l` exactly the other orders in the order they
stood in, lowers the volume of `l` by the size of `o`, sets the back-reference of
`o` to nil and leaves its other fields alone, removes the id of `o` from the id
index and leaves every other id of the index as it was, and changes neither
another level, nor another order, nor the slices and maps of the two sides. -/
theorem CancelOrder_postcondition (h : Nat → Order) (ops : List Op) (s : State)
    (hs : run (NewOrderBook h) ops = s) (hv : Trace Op.okTimely (NewOrderBook h) ops)
    (l o : Nat) (hl : l ∈ levels s) (ho : o ∈ (s.limit l).Orders.vis) :
    (CancelOrder s o).1 = .ok () ∧
    ((CancelOrder s o).2.limit l).Orders.vis = (s.limit l).Orders.vis.erase o ∧
    o ∉ ((CancelOrder s o).2.limit l).Orders.vis ∧
    ((CancelOrder s o).2.limit l).TotalVolume = (s.limit l).TotalVolume - (s.order o).Size ∧
    ((CancelOrder s o).2.limit l).Price = (s.limit l).Price ∧
    ((CancelOrder s o).2.order o).Limit = none ∧
    (CancelOrder s o).2.order o = { s.order o with Limit := none } ∧
    (CancelOrder s o).2.ob.Orders (s.order o).ID = none ∧
    (∀ k, k ≠ (s.order o).ID → (CancelOrder s o).2.ob.Orders k = s.ob.Orders k) ∧
    (∀ l', l' ≠ l → (CancelOrder s o).2.limit l' = s.limit l') ∧
    (∀ p, p ≠ o → (CancelOrder s o).2.order p = s.order p) ∧
    (CancelOrder s o).2.ob.asks = s.ob.asks ∧
    (CancelOrder s o).2.ob.bids = s.ob.bids ∧
    (CancelOrder s o).2.ob.AskLimits = s.ob.AskLimits ∧
    (CancelOrder s o).2.ob.BidLimits = s.ob.BidLimits := by
  subst hs
  obtain ⟨hw, ht⟩ := Inv_run ops _ (WF_NewOrderBook h) (TimeSorted_NewOrderBook h) hv
  have hnd := hw.orders_nodup l hl
  have hvis := DeleteOrder_orders_sorted _ l o hnd (ht l hl)
  rw [CancelOrder_resting _ l o hw hl ho]
  refine ⟨rfl, ?_, ?_, ?_, ?_, ?_, ?_, ?_, ?_, ?_, ?_, rfl, rfl, rfl, rfl⟩
  · simpa using hvis
  · simp only [unregister_limit]
    rw [hvis]
    exact fun hm => (hnd.mem_erase_iff.mp hm).1 rfl
  · simpa using DeleteOrder_volume _ l o
  · simpa using DeleteOrder_price _ l o
  · simp [DeleteOrder_order]
  · simp [DeleteOrder_order]
  · simp [unregister, DeleteOrder_order]
  · intro k hk
    simp [unregister, DeleteOrder_order, Function.update_noteq hk]
  · intro l' hne
    simpa using DeleteOrder_limit_ne _ l o l' hne
  · intro p hne
    simp [DeleteOrder_order, hne]

/-- C10 (witness): of three sells resting at price 50 the oldest is cancelled. -/
theorem CancelOrder_postcondition_witness :
    (Trace Op.okTimely (NewOrderBook queueHeap) [Op.limit 50 0, Op.limit 50 1, Op.limit 50 2] ∧
      0 ∈ levels queueBook ∧ 0 ∈ (queueBook.limit 0).Orders.vis) ∧
    ((CancelOrder queueBook 0).2.limit 0).Orders.vis = (queueBook.limit 0).Orders.vis.erase 0 ∧
    (queueBook.limit 0).Orders.vis = [0, 1, 2] :=
  ⟨⟨by decide!, by decide!, by decide!⟩,
    (CancelOrder_postcondition queueHeap [Op.limit 50 0, Op.limit 50 1, Op.limit 50 2]
      queueBook rfl (by decide!) 0 0 (by decide!) (by decide!)).2.1, by decide!⟩

/-! ## The matches of the matching loop -/

theorem fillLoop_acc (l o : Nat) (os : List Nat) :
    ∀ (s : State) (ms : List Match) (del : List Nat),
      fillLoop l o os s ms del =
        ((fillLoop l o os s [] []).1, ms ++ (fillLoop l o os s [] []).2.1,
          del ++ (fillLoop l o os s [] []).2.2) := by
  induction os with
  | nil => intro s ms del; simp [fillLoop]
  | cons a rest ih =>
    intro s ms del
    rw [fillLoop_cons, fillLoop_cons]
    by_cases hfo : IsFilled (fillStep s l a o) o = true
    · rw [if_pos hfo, if_pos hfo]
      by_cases hfa : IsFilled (fillStep s l a o) a = true <;> simp [hfa]
    · rw [if_neg hfo, if_neg hfo]
      rw [ih (fillStep s l a o) (ms ++ [(fillOrder s l a o).2]),
        ih (fillStep s l a o) ([] ++ [(fillOrder s l a o).2])]
      by_cases hfa : IsFilled (fillStep s l a o) a = true <;> simp [hfa]

/-- The matches of the loop on the orders `a :: rest`. -/
theorem fillLoop_matches_cons (l o a : Nat) (rest : List Nat) (s : State) :
    (fillLoop l o (a :: rest) s [] []).2.1 =
      if IsFilled (fillStep s l a o) o then [(fillOrder s l a o).2]
      else (fillOrder s l a o).2 :: (fillLoop l o rest (fillStep s l a o) [] []).2.1 := by
  rw [fillLoop_cons]
  split
  · rfl
  · rw [fillLoop_acc]; rfl

/-- The state after the loop on the orders `a :: rest`. -/
theorem fillLoop_state_cons (l o a : Nat) (rest : List Nat) (s : State) :
    (fillLoop l o (a :: rest) s [] []).1 =
      if IsFilled (fillStep s l a o) o then fillStep s l a o
      else (fillLoop l o rest (fillStep s l a o) [] []).1 := by
  rw [fillLoop_cons]
  split
  · rfl
  · rw [fillLoop_acc]

theorem fillOrder_has (s : State) (l a b : Nat) :
    (fillOrder s l a b).2.has a ∧ (fillOrder s l a b).2.has b ∧
    ∀ y, (fillOrder s l a b).2.has y → y = a ∨ y = b := by
  obtain ⟨h1, h2⟩ := fillOrder_parties s l a b
  unfold Match.has
  rw [h1, h2]
  cases (s.order a).Bid
  · refine ⟨Or.inl rfl, Or.inr rfl, fun y hy => ?_⟩
    rcases hy with h | h
    · exact Or.inl h.symm
    · exact Or.inr h.symm
  · refine ⟨Or.inr rfl, Or.inl rfl, fun y hy => ?_⟩
    rcases hy with h | h
    · exact Or.inr h.symm
    · exact Or.inl h.symm

/-- Every match of the loop is at the price of the level, between the incoming
order and an order of the level. -/
theorem fillLoop_matches_mem (l o : Nat) (os : List Nat) :
    ∀ (s : State), ∀ m ∈ (fillLoop l o os s [] []).2.1,
      m.Price = (s.limit l).Price ∧ ∀ y, m.has y → y = o ∨ y ∈ os := by
  induction os with
  | nil => intro s m hm; simp [fillLoop] at hm
  | cons a rest ih =>
    intro s m hm
    rw [fillLoop_matches_cons] at hm
    have hfirst : (fillOrder s l a o).2.Price = (s.limit l).Price ∧
        ∀ y, (fillOrder s l a o).2.has y → y = o ∨ y ∈ a :: rest :=
      ⟨fillOrder_Price s l a o, fun y hy => by
        rcases (fillOrder_has s l a o).2.2 y hy with h | h
        · right; rw [h]; exact List.mem_cons_self _ _
        · left; exact h⟩
    split at hm
    · rw [List.mem_singleton.mp hm]; exact hfirst
    · rcases List.mem_cons.mp hm with h | h
      · rw [h]; exact hfirst
      · obtain ⟨h1, h2⟩ := ih _ m h
        refine ⟨by rw [h1, (SameShape_fillStep s l a o).price], fun y hy => ?_⟩
        rcases h2 y hy with h | h
        · left; exact h
        · right; exact List.mem_cons_of_mem _ h

/-- The sum of the sizes filled by a list of matches. -/
theorem filledSum_cons (m : Match) (ms : List Match) :
    ((m :: ms).map Match.SizeFilled).sum = m.SizeFilled + (ms.map Match.SizeFilled).sum := by
  simp

/-- The loop takes what it fills off the incoming order and off the volume of the
level. -/
theorem fillLoop_conserves (l o : Nat) (os : List Nat) :
    ∀ (s : State), o ∉ os →
      ((fillLoop l o os s [] []).1.order o).Size =
        (s.order o).Size - (((fillLoop l o os s [] []).2.1).map Match.SizeFilled).sum ∧
      ((fillLoop l o os s [] []).1.limit l).TotalVolume =
        (s.limit l).TotalVolume - (((fillLoop l o os s [] []).2.1).map Match.SizeFilled).sum := by
  induction os with
  | nil => intro s _; simp [fillLoop]
  | cons a rest ih =>
    intro s ho
    have hao : a ≠ o := fun h => ho (h ▸ List.mem_cons_self _ _)
    have hor : o ∉ rest := fun h => ho (List.mem_cons_of_mem _ h)
    obtain ⟨_, hso, _⟩ := fillStep_size s l a o hao
    have hv := fillStep_volume s l a o l
    rw [if_pos rfl] at hv
    rw [fillLoop_matches_cons, fillLoop_state_cons]
    split
    · simp [hso, hv]
    · obtain ⟨h1, h2⟩ := ih (fillStep s l a o) hor
      rw [h1, h2, filledSum_cons, hso, hv]
      constructor <;> ring

/-- When the loop goes on after an order, that order has been filled completely. -/
theorem fillStep_continue (s : State) (l a o : Nat) (hao : a ≠ o)
    (hc : ¬ IsFilled (fillStep s l a o) o = true) :
    (fillOrder s l a o).2.SizeFilled = (s.order a).Size ∧
    ((fillStep s l a o).order a).Size = 0 := by
  obtain ⟨h1, h2, h3, _⟩ := fillOrder_sizes s l a o hao
  obtain ⟨hsa, hso, _⟩ := fillStep_size s l a o hao
  have hne : ((fillStep s l a o).order o).Size ≠ 0 := by
    simpa [IsFilled] using hc
  rw [hso, h1] at hne
  have hmin : min (s.order a).Size (s.order o).Size = (s.order a).Size := by
    rcases le_total (s.order a).Size (s.order o).Size with h | h
    · exact min_eq_left h
    · rw [min_eq_right h, sub_self] at hne; exact absurd rfl hne
  rw [hsa, h1, hmin, sub_self]
  exact ⟨rfl, rfl⟩

/-- If the incoming order is not filled when the loop ends, every order of the
level has been matched for its whole size. -/
theorem fillLoop_exhausts (l o : Nat) (os : List Nat) :
    ∀ (s : State), os.Nodup → o ∉ os →
      ((fillLoop l o os s [] []).1.order o).Size ≠ 0 →
      ∀ x ∈ os, ∃ m ∈ (fillLoop l o os s [] []).2.1,
        m.has x ∧ m.SizeFilled = (s.order x).Size := by
  induction os with
  | nil => intro s _ _ _ x hx; simp at hx
  | cons a rest ih =>
    intro s hnd ho hne x hx
    have hnd' := List.nodup_cons.mp hnd
    have hao : a ≠ o := fun h => ho (h ▸ List.mem_cons_self _ _)
    have hor : o ∉ rest := fun h => ho (List.mem_cons_of_mem _ h)
    rw [fillLoop_state_cons] at hne
    rw [fillLoop_matches_cons]
    by_cases hfo : IsFilled (fillStep s l a o) o = true
    · rw [if_pos hfo] at hne
      exact absurd (by simpa [IsFilled] using hfo) hne
    · rw [if_neg hfo] at hne
      rw [if_neg hfo]
      rcases List.mem_cons.mp hx with h | h
      · exact ⟨_, List.mem_cons_self _ _, h ▸ (fillOrder_has s l a o).1,
          h ▸ (fillStep_continue s l a o hao hfo).1⟩
      · obtain ⟨m, hm, h1, h2⟩ := ih _ hnd'.2 hor hne x h
        refine ⟨m, List.mem_cons_of_mem _ hm, h1, ?_⟩
        rw [h2]
        exact (fillStep_size s l a o hao).2.2 x (fun he => hnd'.1 (he ▸ h))
          (fun he => hor (he ▸ h))

/-- Time priority within the loop: a match of an order comes after the matches, for
their whole sizes, of all orders that stand before it. -/
theorem fillLoop_priority (l o : Nat) (os : List Nat) :
    ∀ (s : State), os.Pairwise (older s) → o ∉ os →
      ∀ pre m post, (fillLoop l o os s [] []).2.1 = pre ++ m :: post →
        ∀ x ∈ os, ∀ y ∈ os, older s x y → m.has y →
          ∃ m' ∈ pre, m'.has x ∧ m'.SizeFilled = (s.order x).Size := by
  induction os with
  | nil => intro s _ _ pre m post _ x hx; simp at hx
  | cons a rest ih =>
    intro s hpw ho pre m post hsplit x hx y hy hxy hmy
    have hpw' := List.pairwise_cons.mp hpw
    have hao : a ≠ o := fun h => ho (h ▸ List.mem_cons_self _ _)
    have hor : o ∉ rest := fun h => ho (List.mem_cons_of_mem _ h)
    have hirr : ∀ z, ¬ older s z z := fun z h => lt_irrefl _ h
    have hasym : ∀ z w, older s z w → ¬ older s w z := fun z w h1 h2 => lt_asymm h1 h2
    have hanr : a ∉ rest := fun h => hirr a (hpw'.1 a h)
    -- the first match is the one of `a`
    have hfirst : ∀ m0, m0 = (fillOrder s l a o).2 → m0.has y → y = a := by
      intro m0 hm0 hh
      rcases (fillOrder_has s l a o).2.2 y (hm0 ▸ hh) with h | h
      · exact h
      · exact absurd (h ▸ hy) ho
    have hya : y = a → False := by
      intro he
      rcases List.mem_cons.mp hx with h | h
      · exact hirr a (by rw [h, he] at hxy; exact hxy)
      · exact hasym a x (hpw'.1 x h) (he ▸ hxy)
    rw [fillLoop_matches_cons] at hsplit
    by_cases hfo : IsFilled (fillStep s l a o) o = true
    · rw [if_pos hfo] at hsplit
      cases pre with
      | nil =>
        simp only [List.nil_append, List.cons.injEq] at hsplit
        exact (hya (hfirst m hsplit.1.symm hmy)).elim
      | cons p pre2 =>
        simp only [List.cons_append, List.cons.injEq] at hsplit
        have := hsplit.2
        simp at this
    · rw [if_neg hfo] at hsplit
      cases pre with
      | nil =>
        simp only [List.nil_append, List.cons.injEq] at hsplit
        exact (hya (hfirst m hsplit.1.symm hmy)).elim
      | cons p pre2 =>
        simp only [List.cons_append, List.cons.injEq] at hsplit
        have hsh := SameShape_fillStep s l a o
        have hold : older (fillStep s l a o) = older s := by
          funext z w; unfold older; rw [hsh.timestamp, hsh.timestamp]
        have hmem : m ∈ (fillLoop l o rest (fillStep s l a o) [] []).2.1 := by
          rw [hsplit.2]; simp
        have hyr : y ∈ rest := by
          rcases (fillLoop_matches_mem l o rest _ m hmem).2 y hmy with h | h
          · exact absurd (h ▸ hy) ho
          · exact h
        rcases List.mem_cons.mp hx with h | h
        · refine ⟨p, List.mem_cons_self _ _, ?_, ?_⟩
          · rw [← hsplit.1, h]; exact (fillOrder_has s l a o).1
          · rw [← hsplit.1, h]; exact (fillStep_continue s l a o hao hfo).1
        · obtain ⟨m', hm', h1, h2⟩ := ih (fillStep s l a o) (by rw [hold]; exact hpw'.2) hor
            pre2 m post hsplit.2 x h y hyr (by rw [hold]; exact hxy) hmy
          refine ⟨m', List.mem_cons_of_mem _ hm', h1, ?_⟩
          rw [h2]
          exact (fillStep_size s l a o hao).2.2 x (fun he => hanr (he ▸ h))
            (fun he => hor (he ▸ h))

/-! ## The matching loop on sizes that are not negative -/

theorem filled_nil : filled [] = 0 := rfl

theorem filled_cons (m : Match) (ms : List Match) :
    filled (m :: ms) = m.SizeFilled + filled ms := by
  simp [filled]

theorem filled_append (xs ys : List Match) : filled (xs ++ ys) = filled xs + filled ys := by
  simp [filled]

theorem sizeSum_cons (s : State) (a : Nat) (os : List Nat) :
    sizeSum s (a :: os) = (s.order a).Size + sizeSum s os := by
  simp [sizeSum]

theorem sizeSum_nonneg (s : State) (os : List Nat) (h : SizesNonneg s) : 0 ≤ sizeSum s os := by
  induction os with
  | nil => simp [sizeSum]
  | cons a rest ih => rw [sizeSum_cons]; exact add_nonneg (h a) ih

theorem SizesNonneg_fillStep (s : State) (l a o : Nat) (h : SizesNonneg s) :
    SizesNonneg (fillStep s l a o) := by
  intro p
  unfold fillStep
  rw [setVolume_order]
  exact fillOrder_nonneg s l a o h p

/-- With sizes that are not negative the loop fills the smaller of the incoming size
and the volume of the level. -/
theorem fillLoop_filled (l o : Nat) (os : List Nat) :
    ∀ (s : State), SizesNonneg s → os.Nodup → o ∉ os →
      filled (fillLoop l o os s [] []).2.1 = min (s.order o).Size (sizeSum s os) := by
  induction os with
  | nil =>
    intro s h _ _
    simp only [fillLoop, filled_nil, sizeSum, List.map_nil, List.sum_nil]
    exact (min_eq_right (h o)).symm
  | cons a rest ih =>
    intro s h hnd ho
    have hnd' := List.nodup_cons.mp hnd
    have hao : a ≠ o := fun he => ho (he ▸ List.mem_cons_self _ _)
    have hor : o ∉ rest := fun he => ho (List.mem_cons_of_mem _ he)
    obtain ⟨h1, _, _, _⟩ := fillOrder_sizes s l a o hao
    obtain ⟨_, hso, hsp⟩ := fillStep_size s l a o hao
    have hrest : sizeSum (fillStep s l a o) rest = sizeSum s rest := by
      apply sizeSum_congr
      intro x hx
      exact hsp x (fun he => hnd'.1 (he ▸ hx)) (fun he => hor (he ▸ hx))
    have hr0 : 0 ≤ sizeSum s rest := sizeSum_nonneg s rest h
    rw [fillLoop_matches_cons, sizeSum_cons]
    by_cases hfo : IsFilled (fillStep s l a o) o = true
    · rw [if_pos hfo, filled_cons, filled_nil, add_zero, h1]
      have hz : ((fillStep s l a o).order o).Size = 0 := by simpa [IsFilled] using hfo
      rw [hso, h1] at hz
      have hle : (s.order o).Size ≤ (s.order a).Size := by
        rcases le_total (s.order a).Size (s.order o).Size with hh | hh
        · rw [min_eq_left hh] at hz; linarith
        · exact hh
      rw [min_eq_right hle, min_eq_left (by linarith)]
    · rw [if_neg hfo, filled_cons, ih _ (SizesNonneg_fillStep s l a o h) hnd'.2 hor, hrest, hso,
        (fillStep_continue s l a o hao hfo).1]
      have hlt : (s.order a).Size ≤ (s.order o).Size := by
        have := (fillStep_continue s l a o hao hfo).1
        rw [h1] at this
        exact this ▸ min_le_right _ _
      rcases le_total ((s.order o).Size - (s.order a).Size) (sizeSum s rest) with hh | hh
      · rw [min_eq_left hh, min_eq_left (by linarith)]; ring
      · rw [min_eq_right hh, min_eq_right (by linarith)]

/-- An incoming order of size zero is matched for nothing. -/
theorem fillLoop_zero (l o : Nat) (os : List Nat) (s : State) (h : SizesNonneg s)
    (ho : o ∉ os) (hz : (s.order o).Size = 0) :
    ∀ m ∈ (fillLoop l o os s [] []).2.1, m.SizeFilled = 0 := by
  cases os with
  | nil => intro m hm; simp [fillLoop] at hm
  | cons a rest =>
    have hao : a ≠ o := fun he => ho (he ▸ List.mem_cons_self _ _)
    obtain ⟨h1, _, _, _⟩ := fillOrder_sizes s l a o hao
    obtain ⟨_, hso, _⟩ := fillStep_size s l a o hao
    have hf : (fillOrder s l a o).2.SizeFilled = 0 := by
      rw [h1, hz]; exact min_eq_right (h a)
    have hfo : IsFilled (fillStep s l a o) o = true := by
      simp [IsFilled, hso, hf, hz]
    intro m hm
    rw [fillLoop_matches_cons, if_pos hfo] at hm
    rw [List.mem_singleton.mp hm]; exact hf

/-! ## Fill as a whole -/

theorem Fill_matches (s : State) (l o : Nat) :
    (Fill s l o).2 = (fillLoop l o (s.limit l).Orders.vis s [] []).2.1 := rfl

theorem Fill_size (s : State) (l o p : Nat) :
    ((Fill s l o).1.order p).Size =
      ((fillLoop l o (s.limit l).Orders.vis s [] []).1.order p).Size := by
  rw [Fill_eq]; simp only; rw [deleteAll_size]

theorem Fill_size_frame (s : State) (l o p : Nat) (hp : p ∉ (s.limit l).Orders.vis)
    (hpo : p ≠ o) : ((Fill s l o).1.order p).Size = (s.order p).Size := by
  rw [Fill_size, fillLoop_size_frame l o _ s [] [] p hp hpo]

theorem Fill_conserves (s : State) (l o : Nat) (hnd : (s.limit l).Orders.vis.Nodup)
    (ho : o ∉ (s.limit l).Orders.vis) :
    ((Fill s l o).1.order o).Size = (s.order o).Size - filled (Fill s l o).2 ∧
    ((Fill s l o).1.limit l).TotalVolume = (s.limit l).TotalVolume - filled (Fill s l o).2 := by
  obtain ⟨h1, h2⟩ := fillLoop_conserves l o _ s ho
  refine ⟨by rw [Fill_size, h1]; rfl, ?_⟩
  rw [Fill_eq]
  simp only
  rw [deleteAll_volume, h2]
  have hd := (fillLoop_del_nil l o s hnd ho).2
  have : sizeSum (fillLoop l o (s.limit l).Orders.vis s [] []).1
      (fillLoop l o (s.limit l).Orders.vis s [] []).2.2 = 0 := by
    unfold sizeSum
    apply List.sum_eq_zero
    intro x hx
    obtain ⟨d, hd1, hd2⟩ := List.mem_map.mp hx
    rw [← hd2]; exact hd d hd1
  rw [this, sub_zero]; rfl

theorem Fill_price (s : State) (l o p : Nat) :
    ((Fill s l o).1.limit p).Price = (s.limit p).Price := by
  rw [Fill_eq]; simp only
  rw [deleteAll_price]
  exact (SameShape_fillLoop l o _ s [] []).price p

theorem SizesNonneg_Fill (s : State) (l o : Nat) (h : SizesNonneg s) :
    SizesNonneg (Fill s l o).1 :=
  Fill_keeps SizesNonneg (fun s l a b hs => fillOrder_nonneg s l a b hs)
    (fun _ _ _ hs => hs) (fun s l o hs p => by rw [DeleteOrder_size]; exact hs p) s l o h

/-! ## The sweep, level by level -/

theorem sweepLevels_cons (buy : Bool) (o l : Nat) (rest : List Nat) (s : State)
    (ms : List Match) :
    sweepLevels buy o (l :: rest) s ms =
      sweepLevels buy o rest (sweepStep buy o s l) (ms ++ (Fill s l o).2) := rfl

theorem sweepLevels_acc (buy : Bool) (o : Nat) (L : List Nat) :
    ∀ (s : State) (ms : List Match),
      sweepLevels buy o L s ms =
        ((sweepLevels buy o L s []).1, ms ++ (sweepLevels buy o L s []).2) := by
  induction L with
  | nil => intro s ms; simp [sweepLevels]
  | cons l rest ih =>
    intro s ms
    rw [sweepLevels_cons, sweepLevels_cons, ih _ (ms ++ (Fill s l o).2),
      ih _ ([] ++ (Fill s l o).2)]
    simp

theorem sweepLevels_state_cons (buy : Bool) (o l : Nat) (rest : List Nat) (s : State) :
    (sweepLevels buy o (l :: rest) s []).1 =
      (sweepLevels buy o rest (sweepStep buy o s l) []).1 := by
  rw [sweepLevels_cons, sweepLevels_acc]

theorem sweepLevels_matches_cons (buy : Bool) (o l : Nat) (rest : List Nat) (s : State) :
    (sweepLevels buy o (l :: rest) s []).2 =
      (Fill s l o).2 ++ (sweepLevels buy o rest (sweepStep buy o s l) []).2 := by
  rw [sweepLevels_cons, sweepLevels_acc]; rfl

@[simp] theorem sweepStep_limit (buy : Bool) (o : Nat) (s : State) (l : Nat) :
    (sweepStep buy o s l).limit = (Fill s l o).1.limit := by
  unfold sweepStep; split <;> simp

@[simp] theorem sweepStep_order (buy : Bool) (o : Nat) (s : State) (l : Nat) :
    (sweepStep buy o s l).order = (Fill s l o).1.order := by
  unfold sweepStep; split <;> simp

theorem Sweepable_step (buy : Bool) (o l : Nat) (rest : List Nat) (s : State)
    (h : Sweepable s o (l :: rest)) : Sweepable (sweepStep buy o s l) o rest := by
  have hl := h.mem l (List.mem_cons_self _ _)
  have hnd' := List.nodup_cons.mp h.nodup
  have hw1 := WF_Fill s l o h.wf hl h.fresh
  have hf1 := Fresh_Fill s l o o h.wf hl h.fresh
  unfold sweepStep
  split
  · refine ⟨WF_clearLimit _ _ _ hw1, Fresh_clearLimit _ _ _ _ hw1.levels_nodup hf1, hnd'.2, ?_⟩
    intro x hx
    apply mem_levels_clearLimit _ _ _ _ hw1.levels_nodup
    · rw [Fill_levels]; exact h.mem x (List.mem_cons_of_mem _ hx)
    · intro he; exact hnd'.1 (he ▸ hx)
  · refine ⟨hw1, hf1, hnd'.2, ?_⟩
    intro x hx
    rw [Fill_levels]; exact h.mem x (List.mem_cons_of_mem _ hx)

/-- A turn of the sweep leaves the levels still to come, and their orders, alone. -/
theorem sweepStep_frame (buy : Bool) (o l : Nat) (rest : List Nat) (s : State)
    (h : Sweepable s o (l :: rest)) :
    ∀ l' ∈ rest, (sweepStep buy o s l).limit l' = s.limit l' ∧
      ∀ x ∈ (s.limit l').Orders.vis,
        ((sweepStep buy o s l).order x).Size = (s.order x).Size := by
  intro l' hl'
  have hl := h.mem l (List.mem_cons_self _ _)
  have hl'm := h.mem l' (List.mem_cons_of_mem _ hl')
  have hne : l' ≠ l := fun he => (List.nodup_cons.mp h.nodup).1 (he ▸ hl')
  refine ⟨by rw [sweepStep_limit, Fill_limit_ne s l o l' hne], ?_⟩
  intro x hx
  rw [sweepStep_order]
  apply Fill_size_frame
  · intro hxl
    have h1 := h.wf.backref l hl x hxl
    have h2 := h.wf.backref l' hl'm x hx
    rw [h1] at h2
    exact hne (Option.some.inj h2).symm
  · intro he; exact h.fresh l' hl'm (he ▸ hx)

theorem sweepStep_size_o (buy : Bool) (o l : Nat) (rest : List Nat) (s : State)
    (h : Sweepable s o (l :: rest)) :
    ((sweepStep buy o s l).order o).Size = (s.order o).Size - filled (Fill s l o).2 := by
  have hl := h.mem l (List.mem_cons_self _ _)
  rw [sweepStep_order]
  exact (Fill_conserves s l o (h.wf.orders_nodup l hl) (h.fresh l hl)).1

/-- The sweep takes what it fills off the incoming order. -/
theorem sweepLevels_conserves (buy : Bool) (o : Nat) (L : List Nat) :
    ∀ s : State, Sweepable s o L →
      ((sweepLevels buy o L s []).1.order o).Size =
        (s.order o).Size - filled (sweepLevels buy o L s []).2 := by
  induction L with
  | nil => intro s _; simp [sweepLevels, filled]
  | cons l rest ih =>
    intro s h
    rw [sweepLevels_state_cons, sweepLevels_matches_cons, filled_append,
      ih _ (Sweepable_step buy o l rest s h), sweepStep_size_o buy o l rest s h]
    ring

theorem volumeOf_cons (s : State) (l : Nat) (L : List Nat) :
    volumeOf s (l :: L) = (s.limit l).TotalVolume + volumeOf s L := by
  simp [volumeOf]

theorem volumeOf_congr (s t : State) (L : List Nat)
    (h : ∀ l ∈ L, (t.limit l).TotalVolume = (s.limit l).TotalVolume) :
    volumeOf t L = volumeOf s L := by
  unfold volumeOf
  congr 1
  exact List.map_congr_left h

theorem volumeOf_perm (s : State) {xs ys : List Nat} (h : xs.Perm ys) :
    volumeOf s xs = volumeOf s ys :=
  (h.map _).sum_eq

theorem SizesNonneg_sweepStep (buy : Bool) (o l : Nat) (s : State) (h : SizesNonneg s) :
    SizesNonneg (sweepStep buy o s l) := by
  intro p
  rw [sweepStep_order]
  exact SizesNonneg_Fill s l o h p

theorem volumeOf_nonneg (s : State) (L : List Nat) (hw : WF s) (hn : SizesNonneg s)
    (hL : ∀ l ∈ L, l ∈ levels s) : 0 ≤ volumeOf s L := by
  induction L with
  | nil => simp [volumeOf]
  | cons l rest ih =>
    rw [volumeOf_cons]
    apply add_nonneg
    · rw [hw.volume l (hL l (List.mem_cons_self _ _))]
      exact sizeSum_nonneg s _ hn
    · exact ih (fun x hx => hL x (List.mem_cons_of_mem _ hx))

/-- With sizes that are not negative the sweep fills the smaller of the incoming
size and the volume of the levels swept. -/
theorem sweepLevels_filled (buy : Bool) (o : Nat) (L : List Nat) :
    ∀ s : State, Sweepable s o L → SizesNonneg s →
      filled (sweepLevels buy o L s []).2 = min (s.order o).Size (volumeOf s L) := by
  induction L with
  | nil =>
    intro s _ hn
    simp only [sweepLevels, filled_nil, volumeOf, List.map_nil, List.sum_nil]
    exact (min_eq_right (hn o)).symm
  | cons l rest ih =>
    intro s h hn
    have hl := h.mem l (List.mem_cons_self _ _)
    have hstep := Sweepable_step buy o l rest s h
    have hB : filled (Fill s l o).2 = min (s.order o).Size (s.limit l).TotalVolume := by
      rw [Fill_matches, fillLoop_filled l o _ s hn (h.wf.orders_nodup l hl) (h.fresh l hl),
        h.wf.volume l hl]
    have hrest : volumeOf (sweepStep buy o s l) rest = volumeOf s rest := by
      apply volumeOf_congr
      intro l' hl'
      rw [(sweepStep_frame buy o l rest s h l' hl').1]
    have hv0 : 0 ≤ (s.limit l).TotalVolume := by
      rw [h.wf.volume l hl]; exact sizeSum_nonneg s _ hn
    have hr0 : 0 ≤ volumeOf s rest :=
      volumeOf_nonneg s rest h.wf hn (fun x hx => h.mem x (List.mem_cons_of_mem _ hx))
    rw [sweepLevels_matches_cons, filled_append,
      ih _ hstep (SizesNonneg_sweepStep buy o l s hn), hrest,
      sweepStep_size_o buy o l rest s h, hB, volumeOf_cons]
    rcases le_total (s.order o).Size (s.limit l).TotalVolume with h1 | h1
    · rw [min_eq_left h1, sub_self, min_eq_left hr0, min_eq_left (by linarith)]; ring
    · rw [min_eq_right h1]
      rcases le_total ((s.order o).Size - (s.limit l).TotalVolume) (volumeOf s rest)
        with h2 | h2
      · rw [min_eq_left h2, min_eq_left (by linarith)]; ring
      · rw [min_eq_right h2, min_eq_right (by linarith)]

/-- Once the incoming order is filled, the rest of the sweep fills nothing. -/
theorem sweepLevels_zero (buy : Bool) (o : Nat) (L : List Nat) :
    ∀ s : State, Sweepable s o L → SizesNonneg s → (s.order o).Size = 0 →
      ∀ m ∈ (sweepLevels buy o L s []).2, m.SizeFilled = 0 := by
  induction L with
  | nil => intro s _ _ _ m hm; simp [sweepLevels] at hm
  | cons l rest ih =>
    intro s h hn hz m hm
    have hl := h.mem l (List.mem_cons_self _ _)
    have hB := fillLoop_zero l o (s.limit l).Orders.vis s hn (h.fresh l hl) hz
    rw [sweepLevels_matches_cons] at hm
    rcases List.mem_append.mp hm with hm | hm
    · exact hB m hm
    · apply ih _ (Sweepable_step buy o l rest s h) (SizesNonneg_sweepStep buy o l s hn) _ m hm
      rw [sweepStep_size_o buy o l rest s h, hz]
      have : filled (Fill s l o).2 = 0 := by
        unfold filled
        apply List.sum_eq_zero
        intro x hx
        obtain ⟨m', hm1, hm2⟩ := List.mem_map.mp hx
        rw [← hm2]; exact hB m' hm1
      rw [this]; ring

/-! ## The volume of the swept side -/

theorem contra_nodup (s : State) (buy : Bool) (hnd : (levels s).Nodup) :
    (contra s buy).vis.Nodup := by
  unfold contra
  cases buy
  · simpa using nodup_of_levels_right hnd
  · simpa using nodup_of_levels_left hnd

theorem volumeOf_erase (s : State) (L : List Nat) (l : Nat) (h : l ∈ L) :
    volumeOf s (L.erase l) = volumeOf s L - (s.limit l).TotalVolume := by
  rw [volumeOf_perm s (List.perm_cons_erase h), volumeOf_cons]; ring

theorem contraVolume_eq (s : State) (buy : Bool) :
    contraVolume s buy = volumeOf s (contra s buy).vis := by
  have key : ∀ (L : List Nat) (acc : ℚ),
      L.foldl (fun acc l => acc + (s.limit l).TotalVolume) acc = acc + volumeOf s L := by
    intro L
    induction L with
    | nil => intro acc; simp [volumeOf]
    | cons l rest ih => intro acc; rw [List.foldl_cons, ih, volumeOf_cons]; ring
  unfold contraVolume contra AskTotalVolume BidTotalVolume
  cases buy <;> simp [key]

/-- A turn of the sweep lowers the volume of the swept side by what it fills. -/
theorem sweepStep_volume (buy : Bool) (o l : Nat) (rest : List Nat) (s : State)
    (h : Sweepable s o (l :: rest)) (hl : l ∈ (contra s buy).vis) :
    volumeOf (sweepStep buy o s l) (contra (sweepStep buy o s l) buy).vis =
      volumeOf s (contra s buy).vis - filled (Fill s l o).2 := by
  have hlev := h.mem l (List.mem_cons_self _ _)
  have hnd := contra_nodup s buy h.wf.levels_nodup
  have hw1 := WF_Fill s l o h.wf hlev h.fresh
  have hcons := (Fill_conserves s l o (h.wf.orders_nodup l hlev) (h.fresh l hlev)).2
  have herase : volumeOf (Fill s l o).1 ((contra s buy).vis.erase l) =
      volumeOf s ((contra s buy).vis.erase l) := by
    apply volumeOf_congr
    intro x hx
    rw [Fill_limit_ne s l o x (hnd.mem_erase_iff.mp hx).1]
  have hall : volumeOf (Fill s l o).1 (contra s buy).vis =
      volumeOf s (contra s buy).vis - filled (Fill s l o).2 := by
    rw [volumeOf_perm _ (List.perm_cons_erase hl), volumeOf_perm s (List.perm_cons_erase hl),
      volumeOf_cons, volumeOf_cons, herase, hcons]
    ring
  unfold sweepStep
  split
  · rename_i hempty
    have hvis : ((Fill s l o).1.limit l).Orders.vis = [] :=
      List.eq_nil_of_length_eq_zero hempty
    have hz : ((Fill s l o).1.limit l).TotalVolume = 0 := by
      rw [hw1.volume l (by rw [Fill_levels]; exact hlev), hvis]; rfl
    rw [contra_clearLimit, contra_Fill]
    have hvol : ∀ L, volumeOf (clearLimit (Fill s l o).1 (!buy) l) L =
        volumeOf (Fill s l o).1 L := by
      intro L; apply volumeOf_congr; intro x _; rw [clearLimit_limit]
    rw [hvol, volumeOf_perm _ (Slice.remove_perm _ l hnd),
      volumeOf_erase _ _ l hl, hz, hall]
    ring
  · rw [contra_Fill]; exact hall

theorem contra_sweepStep_mem (buy : Bool) (o l : Nat) (s : State) (x : Nat)
    (hnd : (levels s).Nodup) (hx : x ∈ (contra s buy).vis) (hne : x ≠ l) :
    x ∈ (contra (sweepStep buy o s l) buy).vis := by
  unfold sweepStep
  split
  · rw [contra_clearLimit, contra_Fill]
    apply (Slice.remove_perm _ l (contra_nodup s buy hnd)).mem_iff.mpr
    exact (List.mem_erase_of_ne hne).mpr hx
  · rw [contra_Fill]; exact hx

/-- The sweep lowers the volume of the swept side by what it fills. -/
theorem sweepLevels_volume (buy : Bool) (o : Nat) (L : List Nat) :
    ∀ s : State, Sweepable s o L → (∀ l ∈ L, l ∈ (contra s buy).vis) →
      volumeOf (sweepLevels buy o L s []).1 (contra (sweepLevels buy o L s []).1 buy).vis =
        volumeOf s (contra s buy).vis - filled (sweepLevels buy o L s []).2 := by
  induction L with
  | nil => intro s _ _; simp [sweepLevels, filled]
  | cons l rest ih =>
    intro s h hL
    have hnd' := List.nodup_cons.mp h.nodup
    rw [sweepLevels_state_cons, sweepLevels_matches_cons, filled_append,
      ih _ (Sweepable_step buy o l rest s h), sweepStep_volume buy o l rest s h
        (hL l (List.mem_cons_self _ _))]
    · ring
    · intro x hx
      exact contra_sweepStep_mem buy o l s x h.wf.levels_nodup
        (hL x (List.mem_cons_of_mem _ hx)) (fun he => hnd'.1 (he ▸ hx))

/-! ## The market order as a whole -/

theorem Sweepable_sorted (s : State) (o : Nat) (buy : Bool) (hw : WF s) (hf : Fresh s o) :
    Sweepable (sortedSide s buy) o (contra (sortedSide s buy) buy).vis :=
  ⟨WF_sortedSide s buy hw, Fresh_sortedSide s buy o hf,
    contra_sortedSide_nodup s buy hw.levels_nodup, contra_mem_levels _ _⟩

theorem contraVolume_sortedSide (s : State) (buy : Bool) :
    volumeOf (sortedSide s buy) (contra (sortedSide s buy) buy).vis = contraVolume s buy := by
  rw [contraVolume_eq]
  have h1 : volumeOf (sortedSide s buy) (contra (sortedSide s buy) buy).vis =
      volumeOf s (contra (sortedSide s buy) buy).vis := by
    apply volumeOf_congr; intro x _; rw [sortedSide_limit]
  rw [h1]
  apply volumeOf_perm
  unfold sortedSide contra Asks Bids Slice.sortBy
  cases buy
  · simp only [Bool.false_eq_true, if_false]
    exact List.perm_insertionSort _ _
  · simp only [if_true]
    exact List.perm_insertionSort _ _

theorem sweepLevels_Bid (buy : Bool) (o : Nat) (L : List Nat) (s : State) (p : Nat) :
    ((sweepLevels buy o L s []).1.order p).Bid = (s.order p).Bid := by
  induction L generalizing s with
  | nil => rfl
  | cons l rest ih =>
    rw [sweepLevels_state_cons, ih, sweepStep_order, Fill_eq]
    simp only
    have : ∀ (del : List Nat) (t : State), ((deleteAll t l del).order p).Bid = (t.order p).Bid := by
      intro del
      induction del with
      | nil => intro t; rfl
      | cons d r ihd =>
        intro t
        rw [deleteAll_cons, ihd, DeleteOrder_order]; split <;> simp_all
    rw [this]
    exact (SameShape_fillLoop l o _ s [] []).side p

theorem WF_twoAskBook : WF twoAskBook :=
  WF_run [Op.limit 51 1, Op.limit 50 0] _ (WF_NewOrderBook sweepHeap) (by decide!)

theorem SizesNonneg_twoAskBook : SizesNonneg twoAskBook :=
  run_nonneg [Op.limit 51 1, Op.limit 50 0] _ sweepHeap_nonneg

/-- C3 (counterexample): the book with the asks 5 @ 50 and -2 @ 51, reached by two
calls of `PlaceLimitOrder`, satisfies the volume invariant and has ask volume 3.
The market buy of 3 does not fail, but it is left with size 2, its matches (3 at
50 and -2 at 51) sum to 1, and the ask volume falls from 3 to 2. -/
theorem market_order_negative_resting :
    VolumeInvariant negBook ∧
    0 < (negBook.order 2).Size ∧
    (negBook.order 2).Size ≤ AskTotalVolume negBook ∧
    (PlaceMarketOrder negBook 2).1 = .ok [⟨0, 2, 3, 50⟩, ⟨1, 2, -2, 51⟩] ∧
    ((PlaceMarketOrder negBook 2).2.order 2).Size = 2 ∧
    filled [⟨0, 2, 3, 50⟩, ⟨1, 2, -2, 51⟩] = 1 ∧
    AskTotalVolume negBook = 3 ∧
    AskTotalVolume (PlaceMarketOrder negBook 2).2 = 2 := by
  decide!

/-- C3 (amended): in exact arithmetic (sizes and volumes are rationals and the sums
and differences of the code are exact), on a well-formed book in which no order
has a negative size, a market order `o` that rests nowhere and whose size is at
most the total volume of the other side does not fail, is left with size 0, is
matched for sizes that sum to its size, and lowers the total volume of the other
side by its size.  With float64 sums that round, none of the three equalities
need hold. -/
theorem market_order_conservation (s : State) (o : Nat) (hw : WF s) (hn : SizesNonneg s)
    (hf : (s.order o).Limit = none)
    (hle : (s.order o).Size ≤ contraVolume s (s.order o).Bid) :
    ∃ ms, (PlaceMarketOrder s o).1 = .ok ms ∧
      ((PlaceMarketOrder s o).2.order o).Size = 0 ∧
      filled ms = (s.order o).Size ∧
      contraVolume (PlaceMarketOrder s o).2 (s.order o).Bid =
        contraVolume s (s.order o).Bid - (s.order o).Size := by
  have hfr := fresh_of_nil s o hw hf
  have hsw := Sweepable_sorted s o (s.order o).Bid hw hfr
  have hns : SizesNonneg (sortedSide s (s.order o).Bid) := by
    intro p; rw [sortedSide_order]; exact hn p
  have hfill := sweepLevels_filled (s.order o).Bid o _ _ hsw hns
  rw [contraVolume_sortedSide, sortedSide_order, min_eq_left hle] at hfill
  have hcons := sweepLevels_conserves (s.order o).Bid o _ _ hsw
  rw [hfill, sortedSide_order, sub_self] at hcons
  have hvol := sweepLevels_volume (s.order o).Bid o _ _ hsw (fun l hl => hl)
  rw [contraVolume_sortedSide, hfill, ← contraVolume_eq] at hvol
  rw [PlaceMarketOrder_ok s o hw.levels_nodup (not_lt.mpr hle)]
  exact ⟨_, rfl, hcons, hfill, hvol⟩

/-- C3 (witness): the asks 5 @ 50 and 3 @ 51 and the market buy of 6, which is
filled by 5 at 50 and 1 at 51 and leaves the level at 51 with volume 2. -/
theorem market_order_conservation_witness :
    (WF twoAskBook ∧ SizesNonneg twoAskBook ∧ (twoAskBook.order 2).Limit = none ∧
      (twoAskBook.order 2).Size ≤ contraVolume twoAskBook (twoAskBook.order 2).Bid) ∧
    (∃ ms, (PlaceMarketOrder twoAskBook 2).1 = .ok ms ∧
      ((PlaceMarketOrder twoAskBook 2).2.order 2).Size = 0 ∧
      filled ms = (twoAskBook.order 2).Size ∧
      contraVolume (PlaceMarketOrder twoAskBook 2).2 (twoAskBook.order 2).Bid =
        contraVolume twoAskBook (twoAskBook.order 2).Bid - (twoAskBook.order 2).Size) ∧
    (PlaceMarketOrder twoAskBook 2).1 = .ok [⟨0, 2, 5, 50⟩, ⟨1, 2, 1, 51⟩] ∧
    (PlaceMarketOrder twoAskBook 2).2.ob.asks.vis = [0] ∧
    ((PlaceMarketOrder twoAskBook 2).2.limit 0).Price = 51 ∧
    ((PlaceMarketOrder twoAskBook 2).2.limit 0).TotalVolume = 2 :=
  ⟨⟨WF_twoAskBook, SizesNonneg_twoAskBook, by decide, by decide!⟩,
    market_order_conservation twoAskBook 2 WF_twoAskBook SizesNonneg_twoAskBook (by decide)
      (by decide!),
    by decide!, by decide!, by decide!, by decide!⟩

/-! ## Which orders and prices the matches of a sweep are about -/

theorem Fill_matches_mem (s : State) (l o : Nat) :
    ∀ m ∈ (Fill s l o).2,
      m.Price = (s.limit l).Price ∧ ∀ y, m.has y → y = o ∨ y ∈ (s.limit l).Orders.vis :=
  fillLoop_matches_mem l o _ s

theorem sweepStep_price (buy : Bool) (o l : Nat) (s : State) (p : Nat) :
    ((sweepStep buy o s l).limit p).Price = (s.limit p).Price := by
  rw [sweepStep_limit, Fill_price]

theorem sweepStep_timestamp (buy : Bool) (o l : Nat) (s : State) (p : Nat) :
    ((sweepStep buy o s l).order p).Timestamp = (s.order p).Timestamp := by
  rw [sweepStep_order, Fill_timestamp]

/-- Every match of the sweep is at the price of one of the levels swept, between
the incoming order and an order of that level. -/
theorem sweepLevels_matches_mem (buy : Bool) (o : Nat) (L : List Nat) :
    ∀ s : State, Sweepable s o L → ∀ m ∈ (sweepLevels buy o L s []).2,
      ∃ l ∈ L, m.Price = (s.limit l).Price ∧
        ∀ y, m.has y → y = o ∨ y ∈ (s.limit l).Orders.vis := by
  induction L with
  | nil => intro s _ m hm; simp [sweepLevels] at hm
  | cons l rest ih =>
    intro s h m hm
    rw [sweepLevels_matches_cons] at hm
    rcases List.mem_append.mp hm with hm | hm
    · exact ⟨l, List.mem_cons_self _ _, Fill_matches_mem s l o m hm⟩
    · obtain ⟨l', hl', h1, h2⟩ := ih _ (Sweepable_step buy o l rest s h) m hm
      refine ⟨l', List.mem_cons_of_mem _ hl', by rw [h1, sweepStep_price], ?_⟩
      intro y hy
      rw [← (sweepStep_frame buy o l rest s h l' hl').1]
      exact h2 y hy

/-- An order is listed by one level at most. -/
theorem level_unique (s : State) (hw : WF s) (l l' x : Nat) (hl : l ∈ levels s)
    (hl' : l' ∈ levels s) (hx : x ∈ (s.limit l).Orders.vis)
    (hx' : x ∈ (s.limit l').Orders.vis) : l = l' := by
  have h1 := hw.backref l hl x hx
  have h2 := hw.backref l' hl' x hx'
  rw [h1] at h2
  exact Option.some.inj h2

/-- The prices of the matches follow the order of the levels. -/
theorem sweepLevels_prices (buy : Bool) (o : Nat) (R : ℚ → ℚ → Prop) (hR : ∀ p, R p p)
    (L : List Nat) :
    ∀ s : State, Sweepable s o L →
      L.Pairwise (fun a b => R (s.limit a).Price (s.limit b).Price) →
      ((sweepLevels buy o L s []).2.map Match.Price).Pairwise R := by
  induction L with
  | nil => intro s _ _; simp [sweepLevels]
  | cons l rest ih =>
    intro s h hp
    have hp' := List.pairwise_cons.mp hp
    have hstep := Sweepable_step buy o l rest s h
    rw [sweepLevels_matches_cons, List.map_append]
    apply List.pairwise_append.mpr
    refine ⟨?_, ?_, ?_⟩
    · apply List.pairwise_map.mpr
      apply List.pairwise_of_forall_mem_list
      intro a ha b hb
      rw [(Fill_matches_mem s l o a ha).1, (Fill_matches_mem s l o b hb).1]
      exact hR _
    · apply ih _ hstep
      exact hp'.2.imp (fun {a b} hab => by
        rw [sweepStep_price, sweepStep_price]; exact hab)
    · intro p hp1 q hq1
      obtain ⟨a, ha, rfl⟩ := List.mem_map.mp hp1
      obtain ⟨b, hb, rfl⟩ := List.mem_map.mp hq1
      obtain ⟨l', hl', h1, _⟩ := sweepLevels_matches_mem buy o rest _ hstep b hb
      rw [(Fill_matches_mem s l o a ha).1, h1, sweepStep_price]
      exact hp'.1 l' hl'

/-! ## Priority in the sweep -/

theorem split_append {α : Type} (B R pre post : List α) (m : α)
    (h : B ++ R = pre ++ m :: post) :
    (∃ a, pre = B ++ a ∧ R = a ++ m :: post) ∨ (∃ c, B = pre ++ m :: c) := by
  rcases List.append_eq_append_iff.mp h with ⟨a, h1, h2⟩ | ⟨c, h1, h2⟩
  · exact Or.inl ⟨a, h1, h2⟩
  · cases c with
    | nil =>
      left
      refine ⟨[], by simpa using h1.symm, by simpa using h2.symm⟩
    | cons c0 c1 =>
      right
      simp only [List.cons_append, List.cons.injEq] at h2
      exact ⟨c1, by rw [h1, h2.1]⟩

theorem Fill_priority (s : State) (l o : Nat)
    (hpw : (s.limit l).Orders.vis.Pairwise (older s)) (ho : o ∉ (s.limit l).Orders.vis) :
    ∀ pre m post, (Fill s l o).2 = pre ++ m :: post →
      ∀ x ∈ (s.limit l).Orders.vis, ∀ y ∈ (s.limit l).Orders.vis, older s x y → m.has y →
        ∃ m' ∈ pre, m'.has x ∧ m'.SizeFilled = (s.order x).Size :=
  fillLoop_priority l o _ s hpw ho

theorem Fill_exhausts (s : State) (l o : Nat) (hnd : (s.limit l).Orders.vis.Nodup)
    (ho : o ∉ (s.limit l).Orders.vis) (hne : ((Fill s l o).1.order o).Size ≠ 0) :
    ∀ x ∈ (s.limit l).Orders.vis, ∃ m ∈ (Fill s l o).2,
      m.has x ∧ m.SizeFilled = (s.order x).Size := by
  rw [Fill_size] at hne
  exact fillLoop_exhausts l o _ s hnd ho hne

/-- Time priority in the sweep: a match of an order comes after the matches, for
their whole sizes, of the older orders of its level. -/
theorem sweepLevels_time_priority (buy : Bool) (o : Nat) (L : List Nat) :
    ∀ s : State, Sweepable s o L →
      (∀ l ∈ L, (s.limit l).Orders.vis.Pairwise (older s)) →
      ∀ pre m post, (sweepLevels buy o L s []).2 = pre ++ m :: post →
        ∀ l ∈ L, ∀ x ∈ (s.limit l).Orders.vis, ∀ y ∈ (s.limit l).Orders.vis,
          older s x y → m.has y →
          ∃ m' ∈ pre, m'.has x ∧ m'.SizeFilled = (s.order x).Size := by
  induction L with
  | nil => intro s _ _ pre m post _ l hl; simp at hl
  | cons l1 rest ih =>
    intro s h hts pre m post hsplit l hl x hx y hy hxy hmy
    have hl1 := h.mem l1 (List.mem_cons_self _ _)
    have hlm := h.mem l hl
    have hnd' := List.nodup_cons.mp h.nodup
    have hstep := Sweepable_step buy o l1 rest s h
    have hyo : y ≠ o := fun he => h.fresh l hlm (he ▸ hy)
    rw [sweepLevels_matches_cons] at hsplit
    rcases split_append _ _ _ _ _ hsplit with ⟨a, hpre, hR⟩ | ⟨c, hB⟩
    · -- the match belongs to a later level
      have hmR : m ∈ (sweepLevels buy o rest (sweepStep buy o s l1) []).2 := by
        rw [hR]; simp
      obtain ⟨l', hl', _, hinv⟩ := sweepLevels_matches_mem buy o rest _ hstep m hmR
      have hfr := sweepStep_frame buy o l1 rest s h l' hl'
      have hyl' : y ∈ (s.limit l').Orders.vis := by
        rcases hinv y hmy with he | he
        · exact absurd he hyo
        · rw [hfr.1] at he; exact he
      have hll' : l = l' :=
        level_unique s h.wf l l' y hlm (h.mem l' (List.mem_cons_of_mem _ hl')) hy hyl'
      subst hll'
      have hold : older (sweepStep buy o s l1) = older s := by
        funext z w; unfold older; rw [sweepStep_timestamp, sweepStep_timestamp]
      obtain ⟨m', hm', h1, h2⟩ := ih _ hstep
        (fun l2 hl2 => by
          rw [(sweepStep_frame buy o l1 rest s h l2 hl2).1, hold]
          exact hts l2 (List.mem_cons_of_mem _ hl2))
        a m post hR l hl' x (by rw [hfr.1]; exact hx) y (by rw [hfr.1]; exact hy)
        (by rw [hold]; exact hxy) hmy
      refine ⟨m', by rw [hpre]; exact List.mem_append_right _ hm', h1, ?_⟩
      rw [h2]; exact hfr.2 x hx
    · -- the match belongs to the first level
      have hmB : m ∈ (Fill s l1 o).2 := by rw [hB]; simp
      have hyl1 : y ∈ (s.limit l1).Orders.vis := by
        rcases (Fill_matches_mem s l1 o m hmB).2 y hmy with he | he
        · exact absurd he hyo
        · exact he
      have hll1 : l = l1 := level_unique s h.wf l l1 y hlm hl1 hy hyl1
      subst hll1
      exact Fill_priority s l o (hts l (List.mem_cons_self _ _)) (h.fresh l hlm) pre m c hB
        x hx y hy hxy hmy

/-- Price priority in the sweep: with sizes that are not negative, a match of
positive size comes after the matches, for their whole sizes, of all orders of
the levels with a strictly better price. -/
theorem sweepLevels_price_priority (buy : Bool) (o : Nat) (T : ℚ → ℚ → Prop)
    (hT : ∀ p, ¬ T p p) (L : List Nat) :
    ∀ s : State, Sweepable s o L → SizesNonneg s →
      L.Pairwise (fun a b => ¬ T (s.limit b).Price (s.limit a).Price) →
      ∀ pre m post, (sweepLevels buy o L s []).2 = pre ++ m :: post → 0 < m.SizeFilled →
        ∀ l ∈ L, T (s.limit l).Price m.Price → ∀ x ∈ (s.limit l).Orders.vis,
          ∃ m' ∈ pre, m'.has x ∧ m'.SizeFilled = (s.order x).Size := by
  induction L with
  | nil => intro s _ _ _ pre m post _ _ l hl; simp at hl
  | cons l1 rest ih =>
    intro s h hn hp pre m post hsplit hpos l hl hbetter x hx
    have hl1 := h.mem l1 (List.mem_cons_self _ _)
    have hp' := List.pairwise_cons.mp hp
    have hstep := Sweepable_step buy o l1 rest s h
    rw [sweepLevels_matches_cons] at hsplit
    rcases split_append _ _ _ _ _ hsplit with ⟨a, hpre, hR⟩ | ⟨c, hB⟩
    · have hmR : m ∈ (sweepLevels buy o rest (sweepStep buy o s l1) []).2 := by
        rw [hR]; simp
      have hns := SizesNonneg_sweepStep buy o l1 s hn
      have hne : ((Fill s l1 o).1.order o).Size ≠ 0 := by
        intro hz
        have := sweepLevels_zero buy o rest _ hstep hns
          (by rw [sweepStep_order]; exact hz) m hmR
        rw [this] at hpos
        exact lt_irrefl _ hpos
      rcases List.mem_cons.mp hl with he | he
      · subst he
        obtain ⟨m', hm', h1, h2⟩ :=
          Fill_exhausts s l o (h.wf.orders_nodup l hl1) (h.fresh l hl1) hne x hx
        exact ⟨m', by rw [hpre]; exact List.mem_append_left _ hm', h1, h2⟩
      · have hfr := sweepStep_frame buy o l1 rest s h l he
        obtain ⟨m', hm', h1, h2⟩ := ih _ hstep hns
          (hp'.2.imp (fun {a b} hab => by rw [sweepStep_price, sweepStep_price]; exact hab))
          a m post hR hpos l he (by rw [sweepStep_price]; exact hbetter) x
          (by rw [hfr.1]; exact hx)
        refine ⟨m', by rw [hpre]; exact List.mem_append_right _ hm', h1, ?_⟩
        rw [h2]; exact hfr.2 x hx
    · have hmB : m ∈ (Fill s l1 o).2 := by rw [hB]; simp
      rw [(Fill_matches_mem s l1 o m hmB).1] at hbetter
      rcases List.mem_cons.mp hl with he | he
      · subst he; exact absurd hbetter (hT _)
      · exact absurd hbetter (hp'.1 l he)

/-! ## An order matched for its whole size is left with size zero -/

theorem fillLoop_full_zero (l o : Nat) (os : List Nat) :
    ∀ s : State, os.Nodup → o ∉ os → ∀ x ∈ os, ∀ m ∈ (fillLoop l o os s [] []).2.1,
      m.has x → m.SizeFilled = (s.order x).Size →
      ((fillLoop l o os s [] []).1.order x).Size = 0 := by
  induction os with
  | nil => intro s _ _ x hx; simp at hx
  | cons a rest ih =>
    intro s hnd ho x hx m hm hmx hsz
    have hnd' := List.nodup_cons.mp hnd
    have hao : a ≠ o := fun he => ho (he ▸ List.mem_cons_self _ _)
    have hor : o ∉ rest := fun he => ho (List.mem_cons_of_mem _ he)
    have hxo : x ≠ o := fun he => ho (he ▸ hx)
    obtain ⟨hsa, _, hsp⟩ := fillStep_size s l a o hao
    -- a match of the rest of the loop is about an order of the rest
    have hrest : m ∈ (fillLoop l o rest (fillStep s l a o) [] []).2.1 → x ∈ rest := by
      intro hmr
      rcases (fillLoop_matches_mem l o rest _ m hmr).2 x hmx with he | he
      · exact absurd he hxo
      · exact he
    have hhead : m = (fillOrder s l a o).2 → x = a := by
      intro he
      rcases (fillOrder_has s l a o).2.2 x (he ▸ hmx) with h1 | h1
      · exact h1
      · exact absurd h1 hxo
    rw [fillLoop_matches_cons] at hm
    rw [fillLoop_state_cons]
    by_cases hfo : IsFilled (fillStep s l a o) o = true
    · rw [if_pos hfo] at hm ⊢
      have hma := List.mem_singleton.mp hm
      have hxa := hhead hma
      rw [hxa, hsa, ← hma, hsz, hxa, sub_self]
    · rw [if_neg hfo] at hm ⊢
      rcases List.mem_cons.mp hm with hma | hmr
      · have hxa := hhead hma
        rw [hxa, fillLoop_size_frame l o rest _ _ _ a hnd'.1 hao, hsa, ← hma, hsz, hxa,
          sub_self]
      · have hxr := hrest hmr
        have hxa : x ≠ a := fun he => hnd'.1 (he ▸ hxr)
        exact ih _ hnd'.2 hor x hxr m hmr hmx (by rw [hsz, hsp x hxa hxo])

theorem Fill_full_zero (s : State) (l o : Nat) (hnd : (s.limit l).Orders.vis.Nodup)
    (ho : o ∉ (s.limit l).Orders.vis) :
    ∀ x ∈ (s.limit l).Orders.vis, ∀ m ∈ (Fill s l o).2, m.has x →
      m.SizeFilled = (s.order x).Size → ((Fill s l o).1.order x).Size = 0 := by
  intro x hx m hm hmx hsz
  rw [Fill_size]
  exact fillLoop_full_zero l o _ s hnd ho x hx m hm hmx hsz

/-- The sweep leaves alone the size of every order that is neither the incoming one
nor listed by a level swept. -/
theorem sweepLevels_size_frame (buy : Bool) (o : Nat) (L : List Nat) :
    ∀ s : State, Sweepable s o L → ∀ p, p ≠ o → (∀ l ∈ L, p ∉ (s.limit l).Orders.vis) →
      ((sweepLevels buy o L s []).1.order p).Size = (s.order p).Size := by
  induction L with
  | nil => intro s _ p _ _; rfl
  | cons l rest ih =>
    intro s h p hpo hp
    rw [sweepLevels_state_cons, ih _ (Sweepable_step buy o l rest s h) p hpo]
    · rw [sweepStep_order]
      exact Fill_size_frame s l o p (hp l (List.mem_cons_self _ _)) hpo
    · intro l' hl'
      rw [(sweepStep_frame buy o l rest s h l' hl').1]
      exact hp l' (List.mem_cons_of_mem _ hl')

theorem sweepLevels_full_zero (buy : Bool) (o : Nat) (L : List Nat) :
    ∀ s : State, Sweepable s o L → ∀ l ∈ L, ∀ x ∈ (s.limit l).Orders.vis,
      ∀ m ∈ (sweepLevels buy o L s []).2, m.has x → m.SizeFilled = (s.order x).Size →
      ((sweepLevels buy o L s []).1.order x).Size = 0 := by
  induction L with
  | nil => intro s _ l hl; simp at hl
  | cons l1 rest ih =>
    intro s h l hl x hx m hm hmx hsz
    have hl1 := h.mem l1 (List.mem_cons_self _ _)
    have hlm := h.mem l hl
    have hnd' := List.nodup_cons.mp h.nodup
    have hstep := Sweepable_step buy o l1 rest s h
    have hxo : x ≠ o := fun he => h.fresh l hlm (he ▸ hx)
    rw [sweepLevels_matches_cons] at hm
    rw [sweepLevels_state_cons]
    rcases List.mem_append.mp hm with hmB | hmR
    · have hxl1 : x ∈ (s.limit l1).Orders.vis := by
        rcases (Fill_matches_mem s l1 o m hmB).2 x hmx with he | he
        · exact absurd he hxo
        · exact he
      rw [sweepLevels_size_frame buy o rest _ hstep x hxo, sweepStep_order]
      · exact Fill_full_zero s l1 o (h.wf.orders_nodup l1 hl1) (h.fresh l1 hl1) x hxl1 m hmB
          hmx hsz
      · intro l' hl' hmem
        rw [(sweepStep_frame buy o l1 rest s h l' hl').1] at hmem
        have := level_unique s h.wf l1 l' x hl1 (h.mem l' (List.mem_cons_of_mem _ hl'))
          hxl1 hmem
        exact hnd'.1 (this ▸ hl')
    · obtain ⟨l', hl', _, hinv⟩ := sweepLevels_matches_mem buy o rest _ hstep m hmR
      have hfr := sweepStep_frame buy o l1 rest s h l' hl'
      have hxl' : x ∈ (s.limit l').Orders.vis := by
        rcases hinv x hmx with he | he
        · exact absurd he hxo
        · rw [hfr.1] at he; exact he
      apply ih _ hstep l' hl' x (by rw [hfr.1]; exact hxl') m hmR hmx
      rw [hsz, hfr.2 x hxl']

/-! ## Price and time priority of the market order -/

theorem sorted_contra (s : State) (buy : Bool) :
    (contra (sortedSide s buy) buy).vis.Pairwise
      (fun a b => betterEq buy ((sortedSide s buy).limit a).Price
        ((sortedSide s buy).limit b).Price) := by
  rw [sortedSide_limit]
  unfold sortedSide contra Asks Bids Slice.sortBy betterEq
  cases buy
  · simp only [Bool.false_eq_true, if_false]
    exact List.sorted_insertionSort (dearerEq s) _
  · simp only [if_true]
    exact List.sorted_insertionSort (cheaperEq s) _

theorem PlaceMarketOrder_ok_of (s : State) (o : Nat) (ms : List Match)
    (hok : (PlaceMarketOrder s o).1 = .ok ms) :
    ¬ (s.order o).Size > contraVolume s (s.order o).Bid := by
  intro h
  rw [PlaceMarketOrder_fail s o h] at hok
  exact Except.noConfusion hok

/-- What a market order that does not fail returns and leaves, in terms of the sweep
over the sorted levels. -/
theorem PlaceMarketOrder_sweep (s : State) (o : Nat) (hw : WF s) (ms : List Match)
    (hok : (PlaceMarketOrder s o).1 = .ok ms) :
    ms = (sweepLevels (s.order o).Bid o
        (contra (sortedSide s (s.order o).Bid) (s.order o).Bid).vis
        (sortedSide s (s.order o).Bid) []).2 ∧
    (PlaceMarketOrder s o).2 = (sweepLevels (s.order o).Bid o
        (contra (sortedSide s (s.order o).Bid) (s.order o).Bid).vis
        (sortedSide s (s.order o).Bid) []).1 := by
  have h := PlaceMarketOrder_ok s o hw.levels_nodup (PlaceMarketOrder_ok_of s o ms hok)
  rw [h] at hok ⊢
  exact ⟨(Except.ok.inj hok).symm, rfl⟩

theorem mem_contra_sortedSide (s : State) (buy : Bool) (l : Nat) :
    l ∈ (contra (sortedSide s buy) buy).vis ↔ l ∈ (contra s buy).vis := by
  unfold sortedSide contra Asks Bids Slice.sortBy
  cases buy
  · simp only [Bool.false_eq_true, if_false]
    exact (List.perm_insertionSort _ _).mem_iff
  · simp only [if_true]
    exact (List.perm_insertionSort _ _).mem_iff

/-- C5 (counterexample): on the book with the ask 5 @ 50 and, at 51, the asks -2 and
4, the market buy of 3 is matched for 3 at 50, for -2 at 51 and then for 2 at 51:
a match of positive size at price 51, although the level at 50 still holds its
order with size 2. -/
theorem price_priority_negative_resting :
    (PlaceMarketOrder negBook2 2).1 = .ok [⟨0, 2, 3, 50⟩, ⟨1, 2, -2, 51⟩, ⟨3, 2, 2, 51⟩] ∧
    0 ∈ negBook2.ob.asks.vis ∧
    (negBook2.limit 0).Price = 50 ∧
    (negBook2.limit 0).Orders.vis = [0] ∧
    ((PlaceMarketOrder negBook2 2).2.limit 0).Orders.vis = [0] ∧
    ((PlaceMarketOrder negBook2 2).2.order 0).Size = 2 := by
  decide!

/-- C5 (amended): on a well-formed book in which no order has a negative size, the
matches of a market order that rests nowhere and does not fail are in the order
of the sorted levels (prices not decreasing for a buy, not increasing for a
sell), and a match of positive size at price `p` comes only after every order of
every level of the swept side with a strictly better price has been matched for
its whole size, which leaves that order with size 0; this although `clearLimit`
swap-removes levels from the slice the loop ranges over. -/
theorem price_priority (s : State) (o : Nat) (hw : WF s) (hn : SizesNonneg s)
    (hf : (s.order o).Limit = none) (ms : List Match)
    (hok : (PlaceMarketOrder s o).1 = .ok ms) :
    ((s.order o).Bid = true →
      (ms.map Match.Price).Pairwise (fun p q => p ≤ q) ∧
      ∀ pre m post, ms = pre ++ m :: post → 0 < m.SizeFilled →
        ∀ l ∈ s.ob.asks.vis, (s.limit l).Price < m.Price → ∀ x ∈ (s.limit l).Orders.vis,
          (∃ m' ∈ pre, m'.has x ∧ m'.SizeFilled = (s.order x).Size) ∧
          ((PlaceMarketOrder s o).2.order x).Size = 0) ∧
    ((s.order o).Bid = false →
      (ms.map Match.Price).Pairwise (fun p q => q ≤ p) ∧
      ∀ pre m post, ms = pre ++ m :: post → 0 < m.SizeFilled →
        ∀ l ∈ s.ob.bids.vis, m.Price < (s.limit l).Price → ∀ x ∈ (s.limit l).Orders.vis,
          (∃ m' ∈ pre, m'.has x ∧ m'.SizeFilled = (s.order x).Size) ∧
          ((PlaceMarketOrder s o).2.order x).Size = 0) := by
  have hfr := fresh_of_nil s o hw hf
  obtain ⟨hms, hst⟩ := PlaceMarketOrder_sweep s o hw ms hok
  have key : ∀ buy : Bool, (s.order o).Bid = buy →
      (ms.map Match.Price).Pairwise (betterEq buy) ∧
      ∀ pre m post, ms = pre ++ m :: post → 0 < m.SizeFilled →
        ∀ l ∈ (contra s buy).vis, better buy (s.limit l).Price m.Price →
          ∀ x ∈ (s.limit l).Orders.vis,
            (∃ m' ∈ pre, m'.has x ∧ m'.SizeFilled = (s.order x).Size) ∧
            ((PlaceMarketOrder s o).2.order x).Size = 0 := by
    intro buy hb
    rw [hb] at hms hst
    have hsw := Sweepable_sorted s o buy hw hfr
    have hns : SizesNonneg (sortedSide s buy) := by
      intro p; rw [sortedSide_order]; exact hn p
    refine ⟨?_, ?_⟩
    · rw [hms]
      apply sweepLevels_prices buy o (betterEq buy) _ _ _ hsw (sorted_contra s buy)
      intro p; unfold betterEq; split <;> exact le_refl p
    · intro pre m post hsplit hpos l hl hbet x hx
      have hl' := (mem_contra_sortedSide s buy l).mpr hl
      have hT : ∀ p, ¬ better buy p p := by
        intro p; unfold better; split <;> exact lt_irrefl p
      have hpw : (contra (sortedSide s buy) buy).vis.Pairwise
          (fun a b => ¬ better buy ((sortedSide s buy).limit b).Price
            ((sortedSide s buy).limit a).Price) := by
        apply (sorted_contra s buy).imp
        intro a b hab
        unfold betterEq at hab
        unfold better
        cases buy
        · simp only [Bool.false_eq_true, if_false] at hab ⊢; exact not_lt.mpr hab
        · simp only [if_true] at hab ⊢; exact not_lt.mpr hab
      obtain ⟨m', hm', h1, h2⟩ := sweepLevels_price_priority buy o (better buy) hT _ _ hsw hns
        hpw pre m post (hms ▸ hsplit) hpos l hl' (by rw [sortedSide_limit]; exact hbet) x
        (by rw [sortedSide_limit]; exact hx)
      rw [sortedSide_order] at h2
      refine ⟨⟨m', hm', h1, h2⟩, ?_⟩
      rw [hst]
      apply sweepLevels_full_zero buy o _ _ hsw l hl' x (by rw [sortedSide_limit]; exact hx) m'
        _ h1 (by rw [sortedSide_order]; exact h2)
      rw [← hms, hsplit]
      exact List.mem_append_left _ hm'
  constructor
  · intro hb
    have := key true hb
    simpa [betterEq, better, contra] using this
  · intro hb
    have := key false hb
    simpa [betterEq, better, contra] using this

/-- C5 (witness): the asks 5 @ 50 and 3 @ 51 and the market buy of 6; the match at 51
comes after the match that fills the order at 50 completely. -/
theorem price_priority_witness :
    (WF twoAskBook ∧ SizesNonneg twoAskBook ∧ (twoAskBook.order 2).Limit = none ∧
      (PlaceMarketOrder twoAskBook 2).1 = .ok [⟨0, 2, 5, 50⟩, ⟨1, 2, 1, 51⟩]) ∧
    (([⟨0, 2, 5, 50⟩, ⟨1, 2, 1, 51⟩] : List Match).map Match.Price).Pairwise
      (fun p q => p ≤ q) ∧
    ((∃ m' ∈ ([⟨0, 2, 5, 50⟩] : List Match),
        m'.has 0 ∧ m'.SizeFilled = (twoAskBook.order 0).Size) ∧
      ((PlaceMarketOrder twoAskBook 2).2.order 0).Size = 0) :=
  ⟨⟨WF_twoAskBook, SizesNonneg_twoAskBook, by decide, by decide!⟩,
    ((price_priority twoAskBook 2 WF_twoAskBook SizesNonneg_twoAskBook (by decide)
      [⟨0, 2, 5, 50⟩, ⟨1, 2, 1, 51⟩] (by decide!)).1 (by decide)).1,
    ((price_priority twoAskBook 2 WF_twoAskBook SizesNonneg_twoAskBook (by decide)
      [⟨0, 2, 5, 50⟩, ⟨1, 2, 1, 51⟩] (by decide!)).1 (by decide)).2
      [⟨0, 2, 5, 50⟩] ⟨1, 2, 1, 51⟩ [] rfl (by decide!) 1 (by decide!) (by decide!) 0
      (by decide!)⟩

/-- C6: on a book reached by a history in which every limit order was younger than
the orders resting when it was placed, let `x` and `y` rest in the same level,
`x` with the smaller timestamp (placed first).  In the matches of a market order
that rests nowhere and does not fail, every match of `y` (of positive size or
not) comes after a match of `x` for the whole size of `x`, and `x` is left with
size 0. -/
theorem time_priority (h : Nat → Order) (ops : List Op) (s : State)
    (hs : run (NewOrderBook h) ops = s) (hv : Trace Op.okTimely (NewOrderBook h) ops)
    (o : Nat) (hf : (s.order o).Limit = none) (ms : List Match)
    (hok : (PlaceMarketOrder s o).1 = .ok ms) (l x y : Nat) (hl : l ∈ levels s)
    (hx : x ∈ (s.limit l).Orders.vis) (hy : y ∈ (s.limit l).Orders.vis)
    (hxy : (s.order x).Timestamp < (s.order y).Timestamp)
    (pre post : List Match) (m : Match) (hsplit : ms = pre ++ m :: post) (hmy : m.has y) :
    (∃ m' ∈ pre, m'.has x ∧ m'.SizeFilled = (s.order x).Size) ∧
    ((PlaceMarketOrder s o).2.order x).Size = 0 := by
  subst hs
  obtain ⟨hw, ht⟩ := Inv_run ops _ (WF_NewOrderBook h) (TimeSorted_NewOrderBook h) hv
  generalize run (NewOrderBook h) ops = s at *
  have hfr := fresh_of_nil s o hw hf
  obtain ⟨hms, hst⟩ := PlaceMarketOrder_sweep s o hw ms hok
  have hsw := Sweepable_sorted s o (s.order o).Bid hw hfr
  have hyo : y ≠ o := fun he => hfr l hl (he ▸ hy)
  have hmem : m ∈ (sweepLevels (s.order o).Bid o
      (contra (sortedSide s (s.order o).Bid) (s.order o).Bid).vis
      (sortedSide s (s.order o).Bid) []).2 := by
    rw [← hms, hsplit]; simp
  obtain ⟨l', hl', _, hinv⟩ := sweepLevels_matches_mem _ o _ _ hsw m hmem
  have hyl' : y ∈ (s.limit l').Orders.vis := by
    rcases hinv y hmy with he | he
    · exact absurd he hyo
    · rw [sortedSide_limit] at he; exact he
  have hll' : l = l' := level_unique s hw l l' y hl
    ((levels_sortedSide s _).mem_iff.mp (contra_mem_levels _ _ l' hl')) hy hyl'
  subst hll'
  have hold : older (sortedSide s (s.order o).Bid) = older s := by
    funext z w; unfold older; rw [sortedSide_order]
  obtain ⟨m', hm', h1, h2⟩ := sweepLevels_time_priority _ o _ _ hsw
    (fun l2 hl2 => by
      rw [sortedSide_limit, hold]
      exact ht l2 ((levels_sortedSide s _).mem_iff.mp (contra_mem_levels _ _ l2 hl2)))
    pre m post (hms ▸ hsplit) l hl' x (by rw [sortedSide_limit]; exact hx) y
    (by rw [sortedSide_limit]; exact hy) (by rw [hold]; exact hxy) hmy
  rw [sortedSide_order] at h2
  refine ⟨⟨m', hm', h1, h2⟩, ?_⟩
  rw [hst]
  apply sweepLevels_full_zero _ o _ _ hsw l hl' x (by rw [sortedSide_limit]; exact hx) m'
    _ h1 (by rw [sortedSide_order]; exact h2)
  rw [← hms, hsplit]
  exact List.mem_append_left _ hm'

/-- C6 (witness): three sells of 2, 3 and 4 rest at price 50 in the order of their
timestamps; the market buy of 4 is matched with the oldest for 2, then with the
second for 2. -/
theorem time_priority_witness :
    (Trace Op.okTimely (NewOrderBook queueHeap) [Op.limit 50 0, Op.limit 50 1, Op.limit 50 2] ∧
      (queueBook.order 3).Limit = none ∧
      (PlaceMarketOrder queueBook 3).1 = .ok [⟨0, 3, 2, 50⟩, ⟨1, 3, 2, 50⟩] ∧
      0 ∈ levels queueBook ∧ 0 ∈ (queueBook.limit 0).Orders.vis ∧
      1 ∈ (queueBook.limit 0).Orders.vis ∧
      (queueBook.order 0).Timestamp < (queueBook.order 1).Timestamp ∧
      (⟨1, 3, 2, 50⟩ : Match).has 1) ∧
    ((∃ m' ∈ ([⟨0, 3, 2, 50⟩] : List Match),
        m'.has 0 ∧ m'.SizeFilled = (queueBook.order 0).Size) ∧
      ((PlaceMarketOrder queueBook 3).2.order 0).Size = 0) :=
  ⟨⟨by decide!, by decide, by decide!, by decide!, by decide!, by decide!, by decide!,
      by decide⟩,
    time_priority queueHeap [Op.limit 50 0, Op.limit 50 1, Op.limit 50 2] queueBook rfl
      (by decide!) 3 (by decide) [⟨0, 3, 2, 50⟩, ⟨1, 3, 2, 50⟩] (by decide!) 0 0 1
      (by decide!) (by decide!) (by decide!) (by decide!) [⟨0, 3, 2, 50⟩] []
      ⟨1, 3, 2, 50⟩ rfl (by decide)⟩

/-- The bound `len(s)` on the turns of the removal loop is enough: more fuel gives
the same slice. -/
theorem removeLoop_fuel (x : Nat) (extra : Nat) :
    ∀ (fuel i : Nat) (s : Slice), s.len ≤ i + fuel →
      removeLoop x (fuel + extra) i s = removeLoop x fuel i s := by
  intro fuel
  induction fuel with
  | zero =>
    intro i s h
    cases extra with
    | zero => rfl
    | succ e =>
      simp only [Nat.zero_add]
      unfold removeLoop
      rw [if_neg (by omega)]
  | succ f ih =>
    intro i s h
    have : f + 1 + extra = (f + extra) + 1 := by omega
    rw [this]
    unfold removeLoop
    by_cases hi : i < s.len
    · rw [if_pos hi, if_pos hi]
      by_cases hx : s.get i = x
      · rw [if_pos hx, if_pos hx]
        apply ih
        rw [swapRemove_len]; omega
      · rw [if_neg hx, if_neg hx]
        apply ih
        omega
    · rw [if_neg hi, if_neg hi]

/-! ## The sweep after the incoming order is filled -/

/-- C13 (failing input): on the book with the asks 5 @ 50 and 3 @ 51 the market buy
of 5 (order 3) is filled completely at price 50, yet the sweep goes on to the
level at 51 and returns a second match there, of size 0: two matches, not one,
and not every match has a positive size. -/
theorem sweep_matches_after_filled :
    (twoAskBook.order 3).Size = 5 ∧
    (twoAskBook.order 3).Bid = true ∧
    (PlaceMarketOrder twoAskBook 3).1 = .ok [⟨0, 3, 5, 50⟩, ⟨1, 3, 0, 51⟩] ∧
    ¬ (∀ m ∈ ([⟨0, 3, 5, 50⟩, ⟨1, 3, 0, 51⟩] : List Match), 0 < m.SizeFilled) := by
  decide!

/-! ## The id index after a fill -/

/-- C16 (failing input): on the book with the single ask 5 @ 50 (order 0, id 11) the
market buy of 5 fills order 0 completely.  Afterwards order 0 has size 0 and a
nil back-reference and rests in no level (the ask side is empty), but the id
index still holds it under its id. -/
theorem filled_order_stays_in_index :
    (PlaceMarketOrder oneAskBook 3).1 = .ok [⟨0, 3, 5, 50⟩] ∧
    ((PlaceMarketOrder oneAskBook 3).2.order 0).Size = 0 ∧
    ((PlaceMarketOrder oneAskBook 3).2.order 0).Limit = none ∧
    (PlaceMarketOrder oneAskBook 3).2.ob.asks.vis = [] ∧
    ¬ Resting (PlaceMarketOrder oneAskBook 3).2 0 ∧
    ((PlaceMarketOrder oneAskBook 3).2.order 0).ID = 11 ∧
    (PlaceMarketOrder oneAskBook 3).2.ob.Orders 11 = some 0 := by
  decide!

/-! ## PlaceLimitOrder checks nothing -/

theorem PlaceLimitOrder_limit_target (s : State) (price : ℚ) (o : Nat) :
    ((PlaceLimitOrder s price o).limit (targetLimit s price o)).Orders.vis =
        (match lookupLimit s price o with
          | some l => (s.limit l).Orders.vis
          | none => []) ++ [o] ∧
    ((PlaceLimitOrder s price o).limit (targetLimit s price o)).TotalVolume =
        (match lookupLimit s price o with
          | some l => (s.limit l).TotalVolume
          | none => 0) + (s.order o).Size ∧
    ((PlaceLimitOrder s price o).limit (targetLimit s price o)).Price =
        (match lookupLimit s price o with
          | some l => (s.limit l).Price
          | none => price) := by
  unfold PlaceLimitOrder targetLimit
  cases lookupLimit s price o with
  | some l => simp [AddOrder_limit, Slice.append]
  | none => simp [AddOrder_limit, Slice.append, NewLimit]

theorem PlaceLimitOrder_index (s : State) (price : ℚ) (o : Nat) (k : Int) :
    (PlaceLimitOrder s price o).ob.Orders k =
      if k = (s.order o).ID then some o else s.ob.Orders k := by
  unfold PlaceLimitOrder
  cases lookupLimit s price o with
  | some l => simp [register, Function.update]
  | none =>
    cases hb : (s.order o).Bid <;> simp [register, createLimit, Function.update, hb]

/-- C14 (counterexample): a sell of size -2 placed at price 51 and then a buy placed
at price -1 are both accepted: the first rests as the only order of a new ask
level at 51, the second as the only order of a new bid level at price -1, and
both are entered in the id index. -/
theorem PlaceLimitOrder_accepts_invalid :
    (negHeap 1).Size = -2 ∧
    (PlaceLimitOrder (NewOrderBook negHeap) 51 1).ob.asks.vis = [0] ∧
    ((PlaceLimitOrder (NewOrderBook negHeap) 51 1).limit 0).Orders.vis = [1] ∧
    ((PlaceLimitOrder (NewOrderBook negHeap) 51 1).limit 0).TotalVolume = -2 ∧
    (PlaceLimitOrder (NewOrderBook negHeap) 51 1).ob.Orders 32 = some 1 ∧
    (PlaceLimitOrder (NewOrderBook negHeap) (-1) 2).ob.bids.vis = [0] ∧
    ((PlaceLimitOrder (NewOrderBook negHeap) (-1) 2).limit 0).Price = -1 ∧
    ((PlaceLimitOrder (NewOrderBook negHeap) (-1) 2).limit 0).Orders.vis = [2] ∧
    (PlaceLimitOrder (NewOrderBook negHeap) (-1) 2).ob.Orders 33 = some 2 := by
  decide!

/-- C14 (amended): PlaceLimitOrder checks neither the size nor the price.  For every
book, every price and every order, whatever their signs, it enters the order in
the id index under its id, points its back-reference to the level found in the
map of its side at that price or else to a new level at that price, appends it
to the orders of that level and adds its size to the volume of that level. -/
theorem PlaceLimitOrder_validates_nothing (s : State) (price : ℚ) (o : Nat) :
    (PlaceLimitOrder s price o).ob.Orders (s.order o).ID = some o ∧
    ((PlaceLimitOrder s price o).order o).Limit = some (targetLimit s price o) ∧
    ((PlaceLimitOrder s price o).order o).Size = (s.order o).Size ∧
    ((PlaceLimitOrder s price o).limit (targetLimit s price o)).Orders.vis =
        (match lookupLimit s price o with
          | some l => (s.limit l).Orders.vis
          | none => []) ++ [o] ∧
    ((PlaceLimitOrder s price o).limit (targetLimit s price o)).TotalVolume =
        (match lookupLimit s price o with
          | some l => (s.limit l).TotalVolume
          | none => 0) + (s.order o).Size ∧
    ((PlaceLimitOrder s price o).limit (targetLimit s price o)).Price =
        (match lookupLimit s price o with
          | some l => (s.limit l).Price
          | none => price) := by
  refine ⟨?_, ?_, ?_, PlaceLimitOrder_limit_target s price o⟩
  · rw [PlaceLimitOrder_index, if_pos rfl]
  · rw [PlaceLimitOrder_order, if_pos rfl]
  · exact PlaceLimitOrder_size s price o o

/-! ## Asks and Bids -/

/-- C17: for every book, Asks leaves in `ob.asks` a permutation of the ask levels in
ascending price order whose first element has the lowest ask price, and Bids
leaves in `ob.bids` a permutation of the bid levels in descending price order
whose first element has the highest bid price.  Neither changes a level (its
price, orders or volume), an order, the other side, a map or the id index. -/
theorem Asks_Bids_sorted (s : State) :
    ((Asks s).ob.asks.vis.Perm s.ob.asks.vis ∧
      (Asks s).ob.asks.vis.Pairwise
        (fun a b => ((Asks s).limit a).Price ≤ ((Asks s).limit b).Price) ∧
      (∀ b ∈ (Asks s).ob.asks.vis.head?, ∀ l ∈ s.ob.asks.vis,
        (s.limit b).Price ≤ (s.limit l).Price) ∧
      (Asks s).limit = s.limit ∧ (Asks s).order = s.order ∧
      (Asks s).ob.bids = s.ob.bids ∧ (Asks s).ob.AskLimits = s.ob.AskLimits ∧
      (Asks s).ob.BidLimits = s.ob.BidLimits ∧ (Asks s).ob.Orders = s.ob.Orders) ∧
    ((Bids s).ob.bids.vis.Perm s.ob.bids.vis ∧
      (Bids s).ob.bids.vis.Pairwise
        (fun a b => ((Bids s).limit b).Price ≤ ((Bids s).limit a).Price) ∧
      (∀ b ∈ (Bids s).ob.bids.vis.head?, ∀ l ∈ s.ob.bids.vis,
        (s.limit l).Price ≤ (s.limit b).Price) ∧
      (Bids s).limit = s.limit ∧ (Bids s).order = s.order ∧
      (Bids s).ob.asks = s.ob.asks ∧ (Bids s).ob.AskLimits = s.ob.AskLimits ∧
      (Bids s).ob.BidLimits = s.ob.BidLimits ∧ (Bids s).ob.Orders = s.ob.Orders) := by
  have hpa : (s.ob.asks.vis.insertionSort (cheaperEq s)).Perm s.ob.asks.vis :=
    List.perm_insertionSort _ _
  have hsa : (s.ob.asks.vis.insertionSort (cheaperEq s)).Pairwise (cheaperEq s) :=
    List.sorted_insertionSort (cheaperEq s) _
  have hpb : (s.ob.bids.vis.insertionSort (dearerEq s)).Perm s.ob.bids.vis :=
    List.perm_insertionSort _ _
  have hsb : (s.ob.bids.vis.insertionSort (dearerEq s)).Pairwise (dearerEq s) :=
    List.sorted_insertionSort (dearerEq s) _
  refine ⟨⟨hpa, hsa, ?_, rfl, rfl, rfl, rfl, rfl, rfl⟩, ⟨hpb, hsb, ?_, rfl, rfl, rfl, rfl, rfl, rfl⟩⟩
  · intro b hb l hl
    have hl' := hpa.mem_iff.mpr hl
    simp only [Asks, Slice.sortBy, Option.mem_def] at hb
    cases hL : s.ob.asks.vis.insertionSort (cheaperEq s) with
    | nil => rw [hL] at hl'; cases hl'
    | cons x xs =>
      rw [hL] at hb hl' hsa
      simp only [List.head?_cons, Option.some.injEq] at hb
      subst hb
      rcases List.mem_cons.mp hl' with h | h
      · subst h; exact le_refl _
      · exact List.rel_of_pairwise_cons hsa h
  · intro b hb l hl
    have hl' := hpb.mem_iff.mpr hl
    simp only [Bids, Slice.sortBy, Option.mem_def] at hb
    cases hL : s.ob.bids.vis.insertionSort (dearerEq s) with
    | nil => rw [hL] at hl'; cases hl'
    | cons x xs =>
      rw [hL] at hb hl' hsb
      simp only [List.head?_cons, Option.some.injEq] at hb
      subst hb
      rcases List.mem_cons.mp hl' with h | h
      · subst h; exact le_refl _
      · exact List.rel_of_pairwise_cons hsb h

/-! ## DeleteOrder of an order the level does not hold -/

/-- C19 (counterexample): on the book with the asks 3 @ 51 (level 0) and 5 @ 50,
DeleteOrder of order 2 (size 6, in no level) on level 0 signals nothing and
takes the volume of the level from 3 to -3. -/
theorem DeleteOrder_absent_changes_volume :
    2 ∉ (twoAskBook.limit 0).Orders.vis ∧
    (twoAskBook.order 2).Size = 6 ∧
    (twoAskBook.limit 0).TotalVolume = 3 ∧
    ((DeleteOrder twoAskBook 0 2).limit 0).TotalVolume = -3 ∧
    ((DeleteOrder twoAskBook 0 2).limit 0).Orders.vis = (twoAskBook.limit 0).Orders.vis := by
  decide!

/-- C19 (amended): DeleteOrder has no result and signals nothing.  When the order is
not among the orders of the level, the orders of the level afterwards are the
same orders, in timestamp order (the same sequence when they already stood in
strictly increasing timestamp order), and the price of the level, every other
level, every other order and the book are unchanged. -/
theorem DeleteOrder_absent (s : State) (l o : Nat) (h : o ∉ (s.limit l).Orders.vis) :
    ((DeleteOrder s l o).limit l).Orders.vis.Perm (s.limit l).Orders.vis ∧
    ((DeleteOrder s l o).limit l).Orders.vis.Pairwise (olderEq s) ∧
    ((s.limit l).Orders.vis.Pairwise (older s) →
      ((DeleteOrder s l o).limit l).Orders.vis = (s.limit l).Orders.vis) ∧
    ((DeleteOrder s l o).limit l).Price = (s.limit l).Price ∧
    (∀ p, p ≠ l → (DeleteOrder s l o).limit p = s.limit p) ∧
    (∀ p, p ≠ o → (DeleteOrder s l o).order p = s.order p) ∧
    (DeleteOrder s l o).ob = s.ob := by
  have h1 : ((DeleteOrder s l o).limit l).Orders.vis =
      (s.limit l).Orders.vis.insertionSort (olderEq s) := by
    rw [DeleteOrder_orders, Slice.remove_absent _ _ h]
  refine ⟨?_, ?_, ?_, DeleteOrder_price s l o, ?_, ?_, rfl⟩
  · rw [h1]; exact List.perm_insertionSort _ _
  · rw [h1]; exact List.sorted_insertionSort (olderEq s) _
  · intro hs
    rw [h1]
    apply List.Sorted.insertionSort_eq
    exact hs.imp (fun hab => le_of_lt hab)
  · intro p hp; exact DeleteOrder_limit_ne s l o p hp
  · intro p hp; rw [DeleteOrder_order, if_neg hp]

/-- C19 (witness): the level at 50 of the book with three sells queued there, in
timestamp order, and the buy 3, which the level does not hold. -/
theorem DeleteOrder_absent_witness :
    (3 ∉ (queueBook.limit 0).Orders.vis ∧ (queueBook.limit 0).Orders.vis = [0, 1, 2] ∧
      (queueBook.limit 0).Orders.vis.Pairwise (older queueBook)) ∧
    ((DeleteOrder queueBook 0 3).limit 0).Orders.vis = (queueBook.limit 0).Orders.vis :=
  ⟨⟨by decide!, by decide!, by decide!⟩,
    (DeleteOrder_absent queueBook 0 3 (by decide!)).2.2.1 (by decide!)⟩

/-! ## Agreement of the slices and the price maps -/

theorem levels_eq_contra (s : State) :
    levels s = (contra s true).vis ++ (contra s false).vis := by
  simp [levels, contra]

theorem lookupLimit_eq (s : State) (price : ℚ) (o : Nat) :
    lookupLimit s price o = contraMap s (!(s.order o).Bid) price := by
  unfold lookupLimit contraMap
  cases (s.order o).Bid <;> simp

theorem Indexed_NewOrderBook (h : Nat → Order) : Indexed (NewOrderBook h) where
  nodup := by simp [levels, NewOrderBook]
  lt := by simp [levels, NewOrderBook]
  slice_map := by intro buy; cases buy <;> simp [contra, NewOrderBook]
  map_slice := by intro buy; cases buy <;> simp [contraMap, NewOrderBook]

/-- Agreement depends only on the levels of the slices, the maps and the prices. -/
theorem Indexed_congr (s t : State) (h : Indexed s)
    (hc : ∀ buy, (contra t buy).vis.Perm (contra s buy).vis)
    (hm : ∀ buy, contraMap t buy = contraMap s buy)
    (hn : s.nextLimit ≤ t.nextLimit)
    (hp : ∀ p, (t.limit p).Price = (s.limit p).Price) : Indexed t where
  nodup := by
    have : (levels t).Perm (levels s) := by
      rw [levels_eq_contra, levels_eq_contra]
      exact (hc true).append (hc false)
    exact this.nodup_iff.mpr h.nodup
  lt := by
    intro l hl
    have : (levels t).Perm (levels s) := by
      rw [levels_eq_contra, levels_eq_contra]
      exact (hc true).append (hc false)
    exact lt_of_lt_of_le (h.lt l (this.mem_iff.mp hl)) hn
  slice_map := by
    intro buy l hl
    rw [hm, hp]
    exact h.slice_map buy l ((hc buy).mem_iff.mp hl)
  map_slice := by
    intro buy p l hl
    rw [hm] at hl
    obtain ⟨h1, h2⟩ := h.map_slice buy p l hl
    exact ⟨(hc buy).mem_iff.mpr h1, by rw [hp]; exact h2⟩

/-- An operation that leaves the slices, the maps and the prices alone keeps the
agreement. -/
theorem Indexed_of_ob (s t : State) (h : Indexed s)
    (ha : t.ob.asks = s.ob.asks) (hb : t.ob.bids = s.ob.bids)
    (hA : t.ob.AskLimits = s.ob.AskLimits) (hB : t.ob.BidLimits = s.ob.BidLimits)
    (hn : t.nextLimit = s.nextLimit)
    (hp : ∀ p, (t.limit p).Price = (s.limit p).Price) : Indexed t := by
  apply Indexed_congr s t h _ _ (le_of_eq hn.symm) hp
  · intro buy; unfold contra; rw [ha, hb]
  · intro buy; unfold contraMap; rw [hA, hB]

theorem contra_createLimit (s : State) (price : ℚ) (bid buy : Bool) :
    (contra (createLimit s price bid) buy).vis =
      if buy = !bid then (contra s buy).vis ++ [s.nextLimit] else (contra s buy).vis := by
  unfold contra createLimit
  cases bid <;> cases buy <;> simp [Slice.append]

theorem contraMap_createLimit (s : State) (price : ℚ) (bid buy : Bool) :
    contraMap (createLimit s price bid) buy =
      if buy = !bid then Function.update (contraMap s buy) price (some s.nextLimit)
      else contraMap s buy := by
  unfold contraMap createLimit
  cases bid <;> cases buy <;> simp

theorem Indexed_createLimit (s : State) (price : ℚ) (bid : Bool) (h : Indexed s)
    (hnone : contraMap s (!bid) price = none) : Indexed (createLimit s price bid) where
  nodup := by
    apply (levels_createLimit s price bid).nodup_iff.mpr
    exact List.nodup_cons.mpr ⟨fun hm => Nat.lt_irrefl _ (h.lt _ hm), h.nodup⟩
  lt := by
    intro l hl
    rw [createLimit_next]
    rcases List.mem_cons.mp ((levels_createLimit s price bid).mem_iff.mp hl) with h1 | h1
    · omega
    · exact Nat.lt_succ_of_lt (h.lt l h1)
  slice_map := by
    intro buy l hl
    rw [contra_createLimit] at hl
    rw [contraMap_createLimit, createLimit_limit]
    by_cases hb : buy = !bid
    · rw [if_pos hb] at hl ⊢
      rcases List.mem_append.mp hl with h1 | h1
      · have hlt := h.lt l (contra_mem_levels s buy l h1)
        have hne : l ≠ s.nextLimit := Nat.ne_of_lt hlt
        rw [Function.update_noteq hne]
        have hm := h.slice_map buy l h1
        have hpne : (s.limit l).Price ≠ price := by
          intro he
          rw [he, hb, hnone] at hm
          exact Option.noConfusion hm
        rw [Function.update_noteq hpne]
        exact hm
      · have : l = s.nextLimit := by simpa using h1
        subst this
        rw [Function.update_same]
        exact Function.update_same _ _ _
    · rw [if_neg hb] at hl ⊢
      have hlt := h.lt l (contra_mem_levels s buy l hl)
      rw [Function.update_noteq (Nat.ne_of_lt hlt)]
      exact h.slice_map buy l hl
  map_slice := by
    intro buy p l hl
    rw [contraMap_createLimit] at hl
    rw [contra_createLimit, createLimit_limit]
    by_cases hb : buy = !bid
    · rw [if_pos hb] at hl ⊢
      by_cases hp : p = price
      · subst hp
        rw [Function.update_same] at hl
        have : l = s.nextLimit := (Option.some.inj hl).symm
        subst this
        rw [Function.update_same]
        exact ⟨List.mem_append_right _ (List.mem_singleton_self _), rfl⟩
      · rw [Function.update_noteq hp] at hl
        obtain ⟨h1, h2⟩ := h.map_slice buy p l hl
        have hlt := h.lt l (contra_mem_levels s buy l h1)
        rw [Function.update_noteq (Nat.ne_of_lt hlt)]
        exact ⟨List.mem_append_left _ h1, h2⟩
    · rw [if_neg hb] at hl ⊢
      obtain ⟨h1, h2⟩ := h.map_slice buy p l hl
      have hlt := h.lt l (contra_mem_levels s buy l h1)
      rw [Function.update_noteq (Nat.ne_of_lt hlt)]
      exact ⟨h1, h2⟩

theorem contra_clearLimit_other (s : State) (l : Nat) (buy : Bool) :
    contra (clearLimit s buy l) buy = contra s buy := by
  unfold contra clearLimit
  cases buy <;> simp

theorem contraMap_clearLimit (s : State) (l : Nat) (buy : Bool) :
    contraMap (clearLimit s (!buy) l) buy =
      Function.update (contraMap s buy) (s.limit l).Price none := by
  unfold contraMap clearLimit
  cases buy <;> simp

theorem contraMap_clearLimit_other (s : State) (l : Nat) (buy : Bool) :
    contraMap (clearLimit s buy l) buy = contraMap s buy := by
  unfold contraMap clearLimit
  cases buy <;> simp

theorem mem_contra_remove (s : State) (buy : Bool) (l x : Nat) (hnd : (levels s).Nodup) :
    x ∈ ((contra s buy).remove l).vis ↔ x ∈ (contra s buy).vis ∧ x ≠ l := by
  rw [(Slice.remove_perm _ l (contra_nodup s buy hnd)).mem_iff]
  constructor
  · intro hx
    exact ⟨List.mem_of_mem_erase hx, fun he =>
      (List.Nodup.not_mem_erase (contra_nodup s buy hnd)) (he ▸ hx)⟩
  · intro hx
    exact (List.mem_erase_of_ne hx.2).mpr hx.1

/-- Levels of one slice with the same price are the same level. -/
theorem Indexed.prices {s : State} (h : Indexed s) (buy : Bool) (a b : Nat)
    (ha : a ∈ (contra s buy).vis) (hb : b ∈ (contra s buy).vis)
    (hp : (s.limit a).Price = (s.limit b).Price) : a = b := by
  have h1 := h.slice_map buy a ha
  have h2 := h.slice_map buy b hb
  rw [hp, h2] at h1
  exact (Option.some.inj h1).symm

/-- Taking a level of the slice out with clearLimit keeps the agreement. -/
theorem Indexed_clearLimit (s : State) (buy : Bool) (l : Nat) (h : Indexed s)
    (hl : l ∈ (contra s buy).vis) : Indexed (clearLimit s (!buy) l) where
  nodup := (levels_clearLimit s (!buy) l h.nodup).nodup_iff.mpr
    ((levels_clearLimit_sublist s (!buy) l).nodup h.nodup)
  lt := by
    intro x hx
    rw [clearLimit_next]
    exact h.lt x (mem_levels_of_clearLimit s (!buy) l x h.nodup hx)
  slice_map := by
    intro b x hx
    rw [clearLimit_limit]
    by_cases hb : b = buy
    · subst hb
      rw [contra_clearLimit, mem_contra_remove s b l x h.nodup] at hx
      rw [contraMap_clearLimit]
      have hne : (s.limit x).Price ≠ (s.limit l).Price :=
        fun he => hx.2 (h.prices b x l hx.1 hl he)
      rw [Function.update_noteq hne]
      exact h.slice_map b x hx.1
    · have hb' : (!buy) = b := by cases b <;> cases buy <;> simp_all
      rw [hb'] at hx ⊢
      rw [contra_clearLimit_other] at hx
      rw [contraMap_clearLimit_other]
      exact h.slice_map b x hx
  map_slice := by
    intro b p x hx
    rw [clearLimit_limit]
    by_cases hb : b = buy
    · subst hb
      rw [contraMap_clearLimit] at hx
      rw [contra_clearLimit, mem_contra_remove s b l x h.nodup]
      by_cases hp : p = (s.limit l).Price
      · rw [hp, Function.update_same] at hx
        exact Option.noConfusion hx
      · rw [Function.update_noteq hp] at hx
        obtain ⟨h1, h2⟩ := h.map_slice b p x hx
        exact ⟨⟨h1, fun he => hp (by rw [← h2, he])⟩, h2⟩
    · have hb' : (!buy) = b := by cases b <;> cases buy <;> simp_all
      rw [hb'] at hx ⊢
      rw [contraMap_clearLimit_other] at hx
      rw [contra_clearLimit_other]
      exact h.map_slice b p x hx

theorem Fill_next (s : State) (l o : Nat) : (Fill s l o).1.nextLimit = s.nextLimit := by
  rw [Fill_eq]
  simp only
  rw [deleteAll_next]
  exact (SameShape_fillLoop l o _ s [] []).next

theorem Indexed_Fill (s : State) (l o : Nat) (h : Indexed s) : Indexed (Fill s l o).1 := by
  have hob := Fill_ob s l o
  exact Indexed_of_ob s _ h (by rw [hob]) (by rw [hob]) (by rw [hob]) (by rw [hob])
    (Fill_next s l o) (fun p => Fill_price s l o p)

theorem Indexed_sweepStep (buy : Bool) (o l : Nat) (s : State) (h : Indexed s)
    (hl : l ∈ (contra s buy).vis) : Indexed (sweepStep buy o s l) := by
  unfold sweepStep
  split
  · exact Indexed_clearLimit _ buy l (Indexed_Fill s l o h) (by rw [contra_Fill]; exact hl)
  · exact Indexed_Fill s l o h

theorem Indexed_sweepLevels (buy : Bool) (o : Nat) (L : List Nat) :
    ∀ (s : State) (ms : List Match), Indexed s → L.Nodup → (∀ l ∈ L, l ∈ (contra s buy).vis) →
      Indexed (sweepLevels buy o L s ms).1 := by
  induction L with
  | nil => intro s ms h _ _; exact h
  | cons l rest ih =>
    intro s ms h hnd hsub
    have hnd' := List.nodup_cons.mp hnd
    rw [sweepLevels_cons]
    apply ih _ _ (Indexed_sweepStep buy o l s h (hsub l (List.mem_cons_self _ _))) hnd'.2
    intro x hx
    exact contra_sweepStep_mem buy o l s x h.nodup (hsub x (List.mem_cons_of_mem _ hx))
      (fun he => hnd'.1 (he ▸ hx))

theorem Indexed_sortedSide (s : State) (buy : Bool) (h : Indexed s) :
    Indexed (sortedSide s buy) := by
  apply Indexed_congr s _ h _ _ (le_of_eq (sortedSide_next s buy).symm)
    (fun p => by rw [sortedSide_limit])
  · intro b
    unfold sortedSide contra Asks Bids Slice.sortBy
    cases buy <;> cases b <;> simp [List.perm_insertionSort]
  · intro b
    unfold sortedSide contraMap Asks Bids
    cases buy <;> cases b <;> simp

theorem Indexed_PlaceMarketOrder (s : State) (o : Nat) (h : Indexed s) :
    Indexed (PlaceMarketOrder s o).2 := by
  by_cases hv : (s.order o).Size > contraVolume s (s.order o).Bid
  · rw [PlaceMarketOrder_fail s o hv]; exact h
  · rw [PlaceMarketOrder_ok s o h.nodup hv]
    exact Indexed_sweepLevels _ _ _ _ _ (Indexed_sortedSide s _ h)
      (contra_sortedSide_nodup s _ h.nodup) (fun l hl => hl)

theorem Indexed_PlaceLimitOrder (s : State) (price : ℚ) (o : Nat) (h : Indexed s) :
    Indexed (PlaceLimitOrder s price o) := by
  unfold PlaceLimitOrder
  cases hlk : lookupLimit s price o with
  | some l =>
    simp only
    refine Indexed_of_ob s _ h rfl rfl rfl rfl rfl ?_
    intro p
    rw [AddOrder_limit]
    split
    · rename_i hp; subst hp; rfl
    · rfl
  | none =>
    simp only
    rw [lookupLimit_eq] at hlk
    have h1 := Indexed_createLimit s price (s.order o).Bid h hlk
    refine Indexed_of_ob _ _ h1 rfl rfl rfl rfl rfl ?_
    intro p
    rw [AddOrder_limit]
    split
    · rename_i hp; subst hp; rfl
    · rfl

theorem Indexed_CancelOrder (s : State) (o : Nat) (h : Indexed s) :
    Indexed (CancelOrder s o).2 := by
  rw [CancelOrder_snd]
  cases hl : (s.order o).Limit with
  | none => exact h
  | some l =>
    simp only
    refine Indexed_of_ob s _ h rfl rfl rfl rfl rfl ?_
    intro p
    rw [unregister_limit]
    by_cases hp : p = l
    · subst hp; exact DeleteOrder_price s p o
    · rw [DeleteOrder_limit_ne s l o p hp]

theorem Indexed_step (s : State) (op : Op) (h : Indexed s) : Indexed (step s op) := by
  cases op with
  | limit price o => exact Indexed_PlaceLimitOrder s price o h
  | market o => exact Indexed_PlaceMarketOrder s o h
  | cancel o => exact Indexed_CancelOrder s o h

/-- Every history keeps the agreement of slices and maps, whatever its operations. -/
theorem Indexed_run (ops : List Op) : ∀ s, Indexed s → Indexed (run s ops) := by
  induction ops with
  | nil => intro s h; exact h
  | cons op rest ih => intro s h; exact ih _ (Indexed_step s op h)

/-- C20: in every book reached from NewOrderBook by any sequence of PlaceLimitOrder,
PlaceMarketOrder and CancelOrder (prices being rationals), on each side (for
`buy = true` the slice `ob.asks` with the map `ob.AskLimits`, for `buy = false`
the slice `ob.bids` with the map `ob.BidLimits`) the slice lists no level twice
and no two levels of the same price, the map has at the price of every level of
the slice an entry pointing to that level, and every entry of the map points to
a level of the slice that has the price of the key.  clearLimit on a level of
the slice removes it from the slice and from the map, and leaves every other
level of the slice in both. -/
theorem slice_map_agreement (h : Nat → Order) (ops : List Op) :
    (∀ buy, (contra (run (NewOrderBook h) ops) buy).vis.Nodup) ∧
    (∀ buy, ∀ a ∈ (contra (run (NewOrderBook h) ops) buy).vis,
      ∀ b ∈ (contra (run (NewOrderBook h) ops) buy).vis,
        ((run (NewOrderBook h) ops).limit a).Price = ((run (NewOrderBook h) ops).limit b).Price →
          a = b) ∧
    (∀ buy, ∀ l ∈ (contra (run (NewOrderBook h) ops) buy).vis,
      contraMap (run (NewOrderBook h) ops) buy ((run (NewOrderBook h) ops).limit l).Price =
        some l) ∧
    (∀ buy p l, contraMap (run (NewOrderBook h) ops) buy p = some l →
      l ∈ (contra (run (NewOrderBook h) ops) buy).vis ∧
      ((run (NewOrderBook h) ops).limit l).Price = p) ∧
    (∀ buy, ∀ l ∈ (contra (run (NewOrderBook h) ops) buy).vis,
      l ∉ (contra (clearLimit (run (NewOrderBook h) ops) (!buy) l) buy).vis ∧
      (∀ p, contraMap (clearLimit (run (NewOrderBook h) ops) (!buy) l) buy p ≠ some l) ∧
      ∀ x ∈ (contra (run (NewOrderBook h) ops) buy).vis, x ≠ l →
        x ∈ (contra (clearLimit (run (NewOrderBook h) ops) (!buy) l) buy).vis ∧
        contraMap (clearLimit (run (NewOrderBook h) ops) (!buy) l) buy
          ((run (NewOrderBook h) ops).limit x).Price = some x) := by
  have hi := Indexed_run ops _ (Indexed_NewOrderBook h)
  generalize run (NewOrderBook h) ops = s at hi
  refine ⟨fun buy => contra_nodup s buy hi.nodup, fun buy a ha b hb hp => hi.prices buy a b ha hb hp,
    hi.slice_map, hi.map_slice, ?_⟩
  intro buy l hl
  have hc := Indexed_clearLimit s buy l hi hl
  have hnot : l ∉ (contra (clearLimit s (!buy) l) buy).vis := by
    rw [contra_clearLimit, mem_contra_remove s buy l l hi.nodup]
    exact fun hx => hx.2 rfl
  refine ⟨hnot, ?_, ?_⟩
  · intro p hp
    exact hnot (hc.map_slice buy p l hp).1
  · intro x hx hne
    have hx' : x ∈ (contra (clearLimit s (!buy) l) buy).vis := by
      rw [contra_clearLimit, mem_contra_remove s buy l x hi.nodup]
      exact ⟨hx, hne⟩
    have := hc.slice_map buy x hx'
    rw [clearLimit_limit] at this
    exact ⟨hx', this⟩

/-! ## Levels the sweep leaves without orders -/

theorem sweepLevels_limit_ne (buy : Bool) (o : Nat) (L : List Nat) :
    ∀ (s : State) (ms : List Match) (p : Nat), p ∉ L →
      (sweepLevels buy o L s ms).1.limit p = s.limit p := by
  induction L with
  | nil => intro s ms p _; rfl
  | cons l rest ih =>
    intro s ms p hp
    rw [sweepLevels_cons, ih _ _ p (fun h => hp (List.mem_cons_of_mem _ h)), sweepStep_limit,
      Fill_limit_ne s l o p (fun h => hp (h ▸ List.mem_cons_self _ _))]

/-- A level in the slice after one turn of the sweep was there before, and the level
of the turn is there only if it still holds orders. -/
theorem contra_sweepStep_sub (buy : Bool) (o l : Nat) (s : State) (x : Nat)
    (hnd : (levels s).Nodup) (hx : x ∈ (contra (sweepStep buy o s l) buy).vis) :
    x ∈ (contra s buy).vis ∧
      (x = l → ((sweepStep buy o s l).limit l).Orders.vis ≠ []) := by
  unfold sweepStep at hx ⊢
  split at hx
  · rename_i h0
    rw [if_pos h0]
    rw [contra_clearLimit, contra_Fill, mem_contra_remove s buy l x hnd] at hx
    exact ⟨hx.1, fun he => absurd he hx.2⟩
  · rename_i h0
    rw [if_neg h0]
    rw [contra_Fill] at hx
    refine ⟨hx, fun _ he => h0 ?_⟩
    unfold Slice.len
    rw [he]; rfl

/-- The level of a turn of the sweep stays in the slice if it still holds orders. -/
theorem contra_sweepStep_self (buy : Bool) (o l : Nat) (s : State)
    (hl : l ∈ (contra s buy).vis)
    (hne : ((sweepStep buy o s l).limit l).Orders.vis ≠ []) :
    l ∈ (contra (sweepStep buy o s l) buy).vis := by
  unfold sweepStep at hne ⊢
  split
  · rename_i h0
    rw [if_pos h0, clearLimit_limit] at hne
    exact absurd (List.length_eq_zero.mp h0) hne
  · rw [contra_Fill]; exact hl

/-- After the sweep the slice holds only levels it held before, and none of the
levels swept that is left without orders. -/
theorem sweepLevels_contra_sub (buy : Bool) (o : Nat) (L : List Nat) :
    ∀ (s : State) (ms : List Match), Indexed s → L.Nodup →
      (∀ l ∈ L, l ∈ (contra s buy).vis) →
      ∀ x ∈ (contra (sweepLevels buy o L s ms).1 buy).vis,
        x ∈ (contra s buy).vis ∧
          (x ∈ L → ((sweepLevels buy o L s ms).1.limit x).Orders.vis ≠ []) := by
  induction L with
  | nil => intro s ms _ _ _ x hx; exact ⟨hx, fun h => absurd h (List.not_mem_nil _)⟩
  | cons l rest ih =>
    intro s ms h hnd hsub x hx
    have hnd' := List.nodup_cons.mp hnd
    rw [sweepLevels_cons] at hx ⊢
    have h1 := Indexed_sweepStep buy o l s h (hsub l (List.mem_cons_self _ _))
    have hsub1 : ∀ y ∈ rest, y ∈ (contra (sweepStep buy o s l) buy).vis := fun y hy =>
      contra_sweepStep_mem buy o l s y h.nodup (hsub y (List.mem_cons_of_mem _ hy))
        (fun he => hnd'.1 (he ▸ hy))
    obtain ⟨hx1, hx2⟩ := ih _ _ h1 hnd'.2 hsub1 x hx
    obtain ⟨hx3, hx4⟩ := contra_sweepStep_sub buy o l s x h.nodup hx1
    refine ⟨hx3, fun hxl => ?_⟩
    rcases List.mem_cons.mp hxl with he | hr
    · subst he
      rw [sweepLevels_limit_ne buy o rest _ _ x hnd'.1]
      exact hx4 rfl
    · exact hx2 hr

/-- A level of the slice that is not swept stays in the slice. -/
theorem sweepLevels_contra_keep (buy : Bool) (o : Nat) (L : List Nat) :
    ∀ (s : State) (ms : List Match), Indexed s → L.Nodup →
      (∀ l ∈ L, l ∈ (contra s buy).vis) →
      ∀ x ∈ (contra s buy).vis, x ∉ L → x ∈ (contra (sweepLevels buy o L s ms).1 buy).vis := by
  induction L with
  | nil => intro s ms _ _ _ x hx _; exact hx
  | cons l rest ih =>
    intro s ms h hnd hsub x hx hxL
    have hnd' := List.nodup_cons.mp hnd
    rw [sweepLevels_cons]
    have h1 := Indexed_sweepStep buy o l s h (hsub l (List.mem_cons_self _ _))
    have hsub1 : ∀ y ∈ rest, y ∈ (contra (sweepStep buy o s l) buy).vis := fun y hy =>
      contra_sweepStep_mem buy o l s y h.nodup (hsub y (List.mem_cons_of_mem _ hy))
        (fun he => hnd'.1 (he ▸ hy))
    apply ih _ _ h1 hnd'.2 hsub1 x _ (fun hm => hxL (List.mem_cons_of_mem _ hm))
    exact contra_sweepStep_mem buy o l s x h.nodup hx
      (fun he => hxL (he ▸ List.mem_cons_self _ _))

/-- A level of the slice that holds orders after the sweep is still in the slice. -/
theorem sweepLevels_contra_stay (buy : Bool) (o : Nat) (L : List Nat) :
    ∀ (s : State) (ms : List Match), Indexed s → L.Nodup →
      (∀ l ∈ L, l ∈ (contra s buy).vis) →
      ∀ x ∈ (contra s buy).vis, ((sweepLevels buy o L s ms).1.limit x).Orders.vis ≠ [] →
        x ∈ (contra (sweepLevels buy o L s ms).1 buy).vis := by
  induction L with
  | nil => intro s ms _ _ _ x hx _; exact hx
  | cons l rest ih =>
    intro s ms h hnd hsub x hx hne
    have hnd' := List.nodup_cons.mp hnd
    rw [sweepLevels_cons] at hne ⊢
    have h1 := Indexed_sweepStep buy o l s h (hsub l (List.mem_cons_self _ _))
    have hsub1 : ∀ y ∈ rest, y ∈ (contra (sweepStep buy o s l) buy).vis := fun y hy =>
      contra_sweepStep_mem buy o l s y h.nodup (hsub y (List.mem_cons_of_mem _ hy))
        (fun he => hnd'.1 (he ▸ hy))
    by_cases he : x = l
    · subst he
      rw [sweepLevels_limit_ne buy o rest _ _ x hnd'.1] at hne
      exact sweepLevels_contra_keep buy o rest _ _ h1 hnd'.2 hsub1 x
        (contra_sweepStep_self buy o x s hx hne) hnd'.1
    · exact ih _ _ h1 hnd'.2 hsub1 x (contra_sweepStep_mem buy o l s x h.nodup hx he) hne

/-- C12: on every book reached from NewOrderBook by any sequence of the three
operations, after a PlaceMarketOrder that does not fail the swept side (the asks
for a buy, the bids for a sell) has no level without orders, neither in its
slice nor under any key of its price map, and every level of that side that
holds orders after the call is still in the slice and still has its entry in
the map, under its price. -/
theorem sweep_removes_emptied_levels (h : Nat → Order) (ops : List Op) (o : Nat)
    (ms : List Match)
    (hok : (PlaceMarketOrder (run (NewOrderBook h) ops) o).1 = .ok ms) :
    (∀ l ∈ (contra (PlaceMarketOrder (run (NewOrderBook h) ops) o).2
          ((run (NewOrderBook h) ops).order o).Bid).vis,
      ((PlaceMarketOrder (run (NewOrderBook h) ops) o).2.limit l).Orders.vis ≠ []) ∧
    (∀ p l, contraMap (PlaceMarketOrder (run (NewOrderBook h) ops) o).2
          ((run (NewOrderBook h) ops).order o).Bid p = some l →
      ((PlaceMarketOrder (run (NewOrderBook h) ops) o).2.limit l).Orders.vis ≠ []) ∧
    (∀ l ∈ (contra (run (NewOrderBook h) ops) ((run (NewOrderBook h) ops).order o).Bid).vis,
      ((PlaceMarketOrder (run (NewOrderBook h) ops) o).2.limit l).Orders.vis ≠ [] →
        l ∈ (contra (PlaceMarketOrder (run (NewOrderBook h) ops) o).2
          ((run (NewOrderBook h) ops).order o).Bid).vis ∧
        contraMap (PlaceMarketOrder (run (NewOrderBook h) ops) o).2
          ((run (NewOrderBook h) ops).order o).Bid
          ((PlaceMarketOrder (run (NewOrderBook h) ops) o).2.limit l).Price = some l) := by
  have hi := Indexed_run ops _ (Indexed_NewOrderBook h)
  generalize run (NewOrderBook h) ops = s at hi hok
  have hit := Indexed_PlaceMarketOrder s o hi
  have hv := PlaceMarketOrder_ok_of s o ms hok
  have hs := Indexed_sortedSide s (s.order o).Bid hi
  have hnd := contra_sortedSide_nodup s (s.order o).Bid hi.nodup
  rw [PlaceMarketOrder_ok s o hi.nodup hv] at hit ⊢
  simp only at hit ⊢
  have h1 : ∀ l ∈ (contra (sweepLevels (s.order o).Bid o
        (contra (sortedSide s (s.order o).Bid) (s.order o).Bid).vis
        (sortedSide s (s.order o).Bid) []).1 (s.order o).Bid).vis,
      ((sweepLevels (s.order o).Bid o
        (contra (sortedSide s (s.order o).Bid) (s.order o).Bid).vis
        (sortedSide s (s.order o).Bid) []).1.limit l).Orders.vis ≠ [] := by
    intro l hl
    obtain ⟨h2, h3⟩ := sweepLevels_contra_sub _ o _ _ [] hs hnd (fun l hl => hl) l hl
    exact h3 h2
  refine ⟨h1, fun p l hp => h1 l (hit.map_slice _ p l hp).1, ?_⟩
  intro l hl hne
  have hl' := sweepLevels_contra_stay _ o _ _ [] hs hnd (fun l hl => hl) l
    ((mem_contra_sortedSide s _ l).mpr hl) hne
  exact ⟨hl', hit.slice_map _ l hl'⟩

/-- C12 (witness): the asks 3 @ 51 (level 0) and 5 @ 50 (level 1) and the market buy
of 5, which empties the level at 50: afterwards the ask slice holds level 0 only,
and the ask map has no entry at 50. -/
theorem sweep_removes_emptied_levels_witness :
    (PlaceMarketOrder (run (NewOrderBook sweepHeap) [Op.limit 51 1, Op.limit 50 0]) 3).1 =
      .ok [⟨0, 3, 5, 50⟩, ⟨1, 3, 0, 51⟩] ∧
    (∀ l ∈ (contra (PlaceMarketOrder (run (NewOrderBook sweepHeap)
          [Op.limit 51 1, Op.limit 50 0]) 3).2
          ((run (NewOrderBook sweepHeap) [Op.limit 51 1, Op.limit 50 0]).order 3).Bid).vis,
      ((PlaceMarketOrder (run (NewOrderBook sweepHeap) [Op.limit 51 1, Op.limit 50 0]) 3).2.limit
        l).Orders.vis ≠ []) ∧
    (PlaceMarketOrder (run (NewOrderBook sweepHeap) [Op.limit 51 1, Op.limit 50 0]) 3).2.ob.asks.vis
      = [0] ∧
    (PlaceMarketOrder (run (NewOrderBook sweepHeap)
      [Op.limit 51 1, Op.limit 50 0]) 3).2.ob.AskLimits 50 = none :=
  ⟨by decide!,
    (sweep_removes_emptied_levels sweepHeap [Op.limit 51 1, Op.limit 50 0] 3
      [⟨0, 3, 5, 50⟩, ⟨1, 3, 0, 51⟩] (by decide!)).1,
    by decide!, by decide!⟩

/-! ## What PlaceLimitOrder leaves behind -/

theorem PlaceLimitOrder_contra (s : State) (price : ℚ) (o : Nat) (buy : Bool) :
    contra (PlaceLimitOrder s price o) buy =
      if buy = (!(s.order o).Bid) ∧ lookupLimit s price o = none
      then (contra s buy).append s.nextLimit else contra s buy := by
  unfold PlaceLimitOrder
  cases hlk : lookupLimit s price o with
  | some l => simp [contra, register]
  | none =>
    cases hb : (s.order o).Bid <;> cases buy <;> simp [contra, register, createLimit, hb]

theorem PlaceLimitOrder_contraMap (s : State) (price : ℚ) (o : Nat) (buy : Bool) :
    contraMap (PlaceLimitOrder s price o) buy =
      if buy = (!(s.order o).Bid) ∧ lookupLimit s price o = none
      then Function.update (contraMap s buy) price (some s.nextLimit) else contraMap s buy := by
  unfold PlaceLimitOrder
  cases hlk : lookupLimit s price o with
  | some l => simp [contraMap, register]
  | none =>
    cases hb : (s.order o).Bid <;> cases buy <;> simp [contraMap, register, createLimit, hb]

theorem PlaceLimitOrder_limit_ne (s : State) (price : ℚ) (o l : Nat)
    (h : l ≠ targetLimit s price o) : (PlaceLimitOrder s price o).limit l = s.limit l := by
  unfold PlaceLimitOrder
  unfold targetLimit at h
  cases hlk : lookupLimit s price o with
  | some l' =>
    rw [hlk] at h
    simp only [Option.getD_some] at h
    simp only
    rw [AddOrder_limit, if_neg h, register_limit]
  | none =>
    rw [hlk] at h
    simp only [Option.getD_none] at h
    simp only
    rw [AddOrder_limit, if_neg h, register_limit, createLimit_limit, Function.update_noteq h]

/-- The level found for a limit order is a level of the slice of the order's side,
at the price asked for. -/
theorem lookupLimit_found (s : State) (price : ℚ) (o l : Nat) (h : Indexed s)
    (hlk : lookupLimit s price o = some l) :
    l ∈ (contra s (!(s.order o).Bid)).vis ∧ (s.limit l).Price = price := by
  rw [lookupLimit_eq] at hlk
  exact h.map_slice _ price l hlk

/-- A level is found for a limit order exactly when the slice of the order's side
has a level at the price asked for. -/
theorem lookupLimit_none_iff (s : State) (price : ℚ) (o : Nat) (h : Indexed s) :
    lookupLimit s price o = none ↔
      ¬ ∃ l ∈ (contra s (!(s.order o).Bid)).vis, (s.limit l).Price = price := by
  constructor
  · rintro hn ⟨l, hl, hp⟩
    have := h.slice_map _ l hl
    rw [hp, ← lookupLimit_eq, hn] at this
    exact Option.noConfusion this
  · intro hn
    cases hlk : lookupLimit s price o with
    | none => rfl
    | some l =>
      obtain ⟨h1, h2⟩ := lookupLimit_found s price o l h hlk
      exact absurd ⟨l, h1, h2⟩ hn

theorem volumeOf_add (s t : State) (L : List Nat) (l : Nat) (v : ℚ) (hnd : L.Nodup)
    (hl : l ∈ L) (hv : (t.limit l).TotalVolume = (s.limit l).TotalVolume + v)
    (hf : ∀ p, p ≠ l → t.limit p = s.limit p) : volumeOf t L = volumeOf s L + v := by
  have h1 := volumeOf_erase s L l hl
  have h2 := volumeOf_erase t L l hl
  have h3 : volumeOf t (L.erase l) = volumeOf s (L.erase l) := by
    apply volumeOf_congr
    intro x hx
    rw [hf x (fun he => (List.Nodup.not_mem_erase hnd) (he ▸ hx))]
  rw [h3, h1] at h2
  linarith

theorem volumeOf_same (s t : State) (L : List Nat) (l : Nat) (hl : l ∉ L)
    (hf : ∀ p, p ≠ l → t.limit p = s.limit p) : volumeOf t L = volumeOf s L := by
  apply volumeOf_congr
  intro x hx
  rw [hf x (fun he => hl (he ▸ hx))]

theorem volumeOf_append (s : State) (xs ys : List Nat) :
    volumeOf s (xs ++ ys) = volumeOf s xs + volumeOf s ys := by
  simp [volumeOf]

/-- The total volume of each side after PlaceLimitOrder: that of the order's side
grows by the size of the order, that of the other side stays. -/
theorem PlaceLimitOrder_contraVolume (s : State) (price : ℚ) (o : Nat) (h : Indexed s)
    (buy : Bool) :
    contraVolume (PlaceLimitOrder s price o) buy =
      if buy = (!(s.order o).Bid) then contraVolume s buy + (s.order o).Size
      else contraVolume s buy := by
  rw [contraVolume_eq, contraVolume_eq, PlaceLimitOrder_contra]
  have hf := PlaceLimitOrder_limit_ne s price o
  have hT := (PlaceLimitOrder_limit_target s price o).2.1
  cases hlk : lookupLimit s price o with
  | some l =>
    have htl : targetLimit s price o = l := by unfold targetLimit; rw [hlk]; rfl
    rw [htl] at hf hT
    rw [hlk] at hT
    simp only at hT
    obtain ⟨hmem, _⟩ := lookupLimit_found s price o l h hlk
    rw [if_neg (fun hc => Option.noConfusion hc.2)]
    by_cases hb : buy = (!(s.order o).Bid)
    · rw [if_pos hb]
      exact volumeOf_add s _ _ l _ (contra_nodup s buy h.nodup) (hb ▸ hmem) hT hf
    · rw [if_neg hb]
      apply volumeOf_same s _ _ l _ hf
      intro hm
      have hb' : buy = (s.order o).Bid := by
        cases buy <;> cases hB : (s.order o).Bid <;> simp_all
      rw [hb'] at hm
      have hnd := h.nodup
      rw [levels_eq_contra] at hnd
      cases hB : (s.order o).Bid
      · rw [hB] at hm hmem
        exact List.disjoint_of_nodup_append hnd (by simpa using hmem) hm
      · rw [hB] at hm hmem
        exact List.disjoint_of_nodup_append hnd hm (by simpa using hmem)
  | none =>
    have htl : targetLimit s price o = s.nextLimit := by unfold targetLimit; rw [hlk]; rfl
    rw [htl] at hf hT
    rw [hlk] at hT
    simp only at hT
    have hnew : ∀ b, s.nextLimit ∉ (contra s b).vis := fun b hm =>
      Nat.lt_irrefl _ (h.lt _ (contra_mem_levels s b _ hm))
    by_cases hb : buy = (!(s.order o).Bid)
    · rw [if_pos ⟨hb, rfl⟩, if_pos hb]
      simp only [Slice.append]
      rw [volumeOf_append, volumeOf_same s _ _ s.nextLimit (hnew buy) hf]
      simp [volumeOf, hT]
    · rw [if_neg (fun hc => hb hc.1), if_neg hb]
      exact volumeOf_same s _ _ s.nextLimit (hnew buy) hf

/-- C11 (amended): on every book `s` reached from NewOrderBook by any sequence of the three
operations, PlaceLimitOrder of `o` at `price` leaves a level `L` (the value of
`targetLimit`) in the slice and map of the side of `o` (`contra _ (!o.Bid)`,
`contraMap _ (!o.Bid)`: the bids for a buy, the asks for a sell), at that price
and with `o` as its last order, and `o` pointing back to `L`.  If the side had a
level at that price, `L` is that level, the slice and the map are unchanged and
`L` holds its former orders followed by `o`, with its volume raised by the size
of `o`; if it had none, `L` is a new level appended to the slice and entered in
the map, holding `o` alone with the size of `o` as volume.  In exact arithmetic
(`AskTotalVolume`, `BidTotalVolume` as exact sums) the total volume of that side
grows by the size of `o`; that of the other side stays.  The order `o` is
entered in the id index under its id; every other level, the slice and map of
the other side, every other id and every other order are unchanged, and of `o`
only the back-reference changes. -/
theorem PlaceLimitOrder_postcondition (h : Nat → Order) (ops : List Op) (s : State)
    (hs : run (NewOrderBook h) ops = s) (price : ℚ) (o : Nat) :
    targetLimit s price o ∈ (contra (PlaceLimitOrder s price o) (!(s.order o).Bid)).vis ∧
    ((PlaceLimitOrder s price o).limit (targetLimit s price o)).Price = price ∧
    contraMap (PlaceLimitOrder s price o) (!(s.order o).Bid) price =
      some (targetLimit s price o) ∧
    ((PlaceLimitOrder s price o).limit (targetLimit s price o)).Orders.vis.getLast? = some o ∧
    ((PlaceLimitOrder s price o).order o).Limit = some (targetLimit s price o) ∧
    ((∃ l ∈ (contra s (!(s.order o).Bid)).vis, (s.limit l).Price = price) →
      targetLimit s price o ∈ (contra s (!(s.order o).Bid)).vis ∧
      (s.limit (targetLimit s price o)).Price = price ∧
      contra (PlaceLimitOrder s price o) (!(s.order o).Bid) = contra s (!(s.order o).Bid) ∧
      contraMap (PlaceLimitOrder s price o) (!(s.order o).Bid) =
        contraMap s (!(s.order o).Bid) ∧
      ((PlaceLimitOrder s price o).limit (targetLimit s price o)).Orders.vis =
        (s.limit (targetLimit s price o)).Orders.vis ++ [o] ∧
      ((PlaceLimitOrder s price o).limit (targetLimit s price o)).TotalVolume =
        (s.limit (targetLimit s price o)).TotalVolume + (s.order o).Size) ∧
    ((¬ ∃ l ∈ (contra s (!(s.order o).Bid)).vis, (s.limit l).Price = price) →
      targetLimit s price o ∉ levels s ∧
      (contra (PlaceLimitOrder s price o) (!(s.order o).Bid)).vis =
        (contra s (!(s.order o).Bid)).vis ++ [targetLimit s price o] ∧
      (∀ p, p ≠ price → contraMap (PlaceLimitOrder s price o) (!(s.order o).Bid) p =
        contraMap s (!(s.order o).Bid) p) ∧
      ((PlaceLimitOrder s price o).limit (targetLimit s price o)).Orders.vis = [o] ∧
      ((PlaceLimitOrder s price o).limit (targetLimit s price o)).TotalVolume =
        (s.order o).Size) ∧
    contraVolume (PlaceLimitOrder s price o) (!(s.order o).Bid) =
      contraVolume s (!(s.order o).Bid) + (s.order o).Size ∧
    contraVolume (PlaceLimitOrder s price o) (s.order o).Bid =
      contraVolume s (s.order o).Bid ∧
    (PlaceLimitOrder s price o).ob.Orders (s.order o).ID = some o ∧
    (∀ k, k ≠ (s.order o).ID → (PlaceLimitOrder s price o).ob.Orders k = s.ob.Orders k) ∧
    (∀ l, l ≠ targetLimit s price o → (PlaceLimitOrder s price o).limit l = s.limit l) ∧
    contra (PlaceLimitOrder s price o) (s.order o).Bid = contra s (s.order o).Bid ∧
    contraMap (PlaceLimitOrder s price o) (s.order o).Bid = contraMap s (s.order o).Bid ∧
    (∀ x, x ≠ o → (PlaceLimitOrder s price o).order x = s.order x) ∧
    ((PlaceLimitOrder s price o).order o).Size = (s.order o).Size ∧
    (PlaceLimitOrder s price o).order o =
      { s.order o with Limit := some (targetLimit s price o) } := by
  subst hs
  have hi := Indexed_run ops _ (Indexed_NewOrderBook h)
  generalize run (NewOrderBook h) ops = s at hi
  have hit := Indexed_PlaceLimitOrder s price o hi
  obtain ⟨hO, hV, hP⟩ := PlaceLimitOrder_limit_target s price o
  have hne : ∀ b : Bool, ¬ (b = !b) := by intro b; cases b <;> simp
  have hcV := PlaceLimitOrder_contraVolume s price o hi
  have hvol1 := hcV (!(s.order o).Bid)
  have hvol2 := hcV (s.order o).Bid
  rw [if_pos rfl] at hvol1
  rw [if_neg (hne _)] at hvol2
  have hc2 := PlaceLimitOrder_contra s price o (s.order o).Bid
  have hm2 := PlaceLimitOrder_contraMap s price o (s.order o).Bid
  rw [if_neg (fun hc => hne _ hc.1)] at hc2 hm2
  have hidx := PlaceLimitOrder_index s price o
  have hord := PlaceLimitOrder_order s price o
  have hc1 := PlaceLimitOrder_contra s price o (!(s.order o).Bid)
  have hm1 := PlaceLimitOrder_contraMap s price o (!(s.order o).Bid)
  have hlast : ((PlaceLimitOrder s price o).limit (targetLimit s price o)).Orders.vis.getLast?
      = some o := by rw [hO]; simp
  have hback : ((PlaceLimitOrder s price o).order o).Limit = some (targetLimit s price o) := by
    rw [hord, if_pos rfl]
  have hrest : (PlaceLimitOrder s price o).ob.Orders (s.order o).ID = some o ∧
      (∀ k, k ≠ (s.order o).ID → (PlaceLimitOrder s price o).ob.Orders k = s.ob.Orders k) ∧
      (∀ l, l ≠ targetLimit s price o → (PlaceLimitOrder s price o).limit l = s.limit l) ∧
      contra (PlaceLimitOrder s price o) (s.order o).Bid = contra s (s.order o).Bid ∧
      contraMap (PlaceLimitOrder s price o) (s.order o).Bid = contraMap s (s.order o).Bid ∧
      (∀ x, x ≠ o → (PlaceLimitOrder s price o).order x = s.order x) ∧
      ((PlaceLimitOrder s price o).order o).Size = (s.order o).Size ∧
      (PlaceLimitOrder s price o).order o =
        { s.order o with Limit := some (targetLimit s price o) } :=
    ⟨by rw [hidx, if_pos rfl], fun k hk => by rw [hidx, if_neg hk],
      fun l hl => PlaceLimitOrder_limit_ne s price o l hl, hc2, hm2,
      fun x hx => by rw [hord, if_neg hx], PlaceLimitOrder_size s price o o,
      by rw [hord, if_pos rfl]⟩
  cases hlk : lookupLimit s price o with
  | some l =>
    have htl : targetLimit s price o = l := by unfold targetLimit; rw [hlk]; rfl
    obtain ⟨hmem, hpr⟩ := lookupLimit_found s price o l hi hlk
    have hex : ∃ l ∈ (contra s (!(s.order o).Bid)).vis, (s.limit l).Price = price :=
      ⟨l, hmem, hpr⟩
    rw [hlk] at hO hV hP hc1 hm1
    simp only at hO hV hP
    rw [if_neg (fun hc => Option.noConfusion hc.2)] at hc1 hm1
    rw [htl] at hO hV hP hlast hback ⊢
    refine ⟨by rw [hc1]; exact hmem, by rw [hP]; exact hpr,
      by rw [hm1, ← lookupLimit_eq]; exact hlk, hlast, hback,
      fun _ => ⟨hmem, hpr, hc1, hm1, hO, hV⟩, fun hn => absurd hex hn, hvol1, hvol2, ?_⟩
    rw [htl] at hrest
    exact hrest
  | none =>
    have htl : targetLimit s price o = s.nextLimit := by unfold targetLimit; rw [hlk]; rfl
    have hnex := (lookupLimit_none_iff s price o hi).mp hlk
    rw [hlk] at hO hV hP hc1 hm1
    simp only at hO hV hP
    rw [if_pos ⟨rfl, rfl⟩] at hc1 hm1
    rw [htl] at hO hV hP hlast hback ⊢
    have hvis : (contra (PlaceLimitOrder s price o) (!(s.order o).Bid)).vis =
        (contra s (!(s.order o).Bid)).vis ++ [s.nextLimit] := by rw [hc1]; rfl
    refine ⟨by rw [hvis]; simp, hP, by rw [hm1, Function.update_same], hlast, hback,
      fun hex => absurd hex hnex,
      fun _ => ⟨fun hm => Nat.lt_irrefl _ (hi.lt _ hm), hvis,
        fun p hp => by rw [hm1, Function.update_noteq hp], by simpa using hO,
        by simpa using hV⟩, hvol1, hvol2, ?_⟩
    rw [htl] at hrest
    exact hrest

/-- C11 (witness): on the book with the ask 3 @ 51, the sell of 5 (order 0) placed at
50 rests alone in a new ask level, and the total ask volume goes from 3 to 8. -/
theorem PlaceLimitOrder_postcondition_witness :
    run (NewOrderBook sweepHeap) [Op.limit 51 1] =
      run (NewOrderBook sweepHeap) [Op.limit 51 1] ∧
    ((PlaceLimitOrder (run (NewOrderBook sweepHeap) [Op.limit 51 1]) 50 0).limit
      (targetLimit (run (NewOrderBook sweepHeap) [Op.limit 51 1]) 50 0)).Price = 50 ∧
    targetLimit (run (NewOrderBook sweepHeap) [Op.limit 51 1]) 50 0 = 1 ∧
    ((PlaceLimitOrder (run (NewOrderBook sweepHeap) [Op.limit 51 1]) 50 0).limit 1).Orders.vis
      = [0] ∧
    AskTotalVolume (run (NewOrderBook sweepHeap) [Op.limit 51 1]) = 3 ∧
    AskTotalVolume (PlaceLimitOrder (run (NewOrderBook sweepHeap) [Op.limit 51 1]) 50 0) = 8 :=
  ⟨rfl,
    (PlaceLimitOrder_postcondition sweepHeap [Op.limit 51 1]
      (run (NewOrderBook sweepHeap) [Op.limit 51 1]) rfl 50 0).2.1,
    by decide!, by decide!, by decide!, by decide!⟩

/-! ## The side of the orders of a level -/

theorem swapRemove_subset (s : Slice) (i : Nat) :
    ∀ x ∈ (s.swapRemove i).vis, x ∈ s.vis := by
  intro x hx
  unfold Slice.swapRemove at hx
  simp only at hx
  have h1 := List.mem_of_mem_dropLast hx
  rcases List.mem_or_eq_of_mem_set h1 with h2 | h2
  · exact h2
  · by_cases hne : s.vis = []
    · rw [hne] at h1; simp at h1
    · have hlt : s.len - 1 < s.vis.length := by
        have := List.length_pos.mpr hne
        unfold Slice.len; omega
      rw [h2, Slice.get_of_lt s hlt]
      exact List.getElem_mem _

theorem removeLoop_subset (x : Nat) (fuel : Nat) :
    ∀ (i : Nat) (s : Slice), ∀ y ∈ (removeLoop x fuel i s).vis, y ∈ s.vis := by
  induction fuel with
  | zero => intro i s y hy; exact hy
  | succ f ih =>
    intro i s y hy
    unfold removeLoop at hy
    split at hy
    · split at hy
      · exact swapRemove_subset s i y (ih _ _ y hy)
      · exact ih _ _ y hy
    · exact hy

/-- The removal loop leaves in the window only what was there. -/
theorem Slice.remove_subset (s : Slice) (x : Nat) : ∀ y ∈ (s.remove x).vis, y ∈ s.vis :=
  removeLoop_subset x _ 0 s

theorem DeleteOrder_orders_subset (s : State) (l o p : Nat) :
    ∀ x ∈ ((DeleteOrder s l o).limit p).Orders.vis, x ∈ (s.limit p).Orders.vis := by
  intro x hx
  by_cases h : p = l
  · subst h
    rw [DeleteOrder_orders] at hx
    exact Slice.remove_subset _ o x ((List.perm_insertionSort _ _).mem_iff.mp hx)
  · rw [DeleteOrder_limit_ne s l o p h] at hx; exact hx

theorem DeleteOrder_Bid (s : State) (l o p : Nat) :
    ((DeleteOrder s l o).order p).Bid = (s.order p).Bid := by
  rw [DeleteOrder_order]; split <;> simp_all

theorem clearLimit_contra_subset (s : State) (bid : Bool) (l : Nat) (buy : Bool) :
    ∀ x ∈ (contra (clearLimit s bid l) buy).vis, x ∈ (contra s buy).vis := by
  intro x hx
  unfold contra clearLimit at *
  cases bid <;> cases buy <;> simp only [Bool.false_eq_true, if_true, if_false] at hx ⊢
  · exact hx
  · exact Slice.remove_subset _ l x hx
  · exact Slice.remove_subset _ l x hx
  · exact hx

/-- The property goes over to a book whose slices and levels list no more than
before and whose orders are on the same sides. -/
theorem SideOK_shrink (s t : State) (h : SideOK s)
    (hc : ∀ buy, ∀ l ∈ (contra t buy).vis, l ∈ (contra s buy).vis)
    (ho : ∀ l, ∀ x ∈ (t.limit l).Orders.vis, x ∈ (s.limit l).Orders.vis)
    (hb : ∀ x, (t.order x).Bid = (s.order x).Bid) : SideOK t := by
  intro buy l hl x hx
  rw [hb]
  exact h buy l (hc buy l hl) x (ho l x hx)

theorem SideOK_NewOrderBook (h : Nat → Order) : SideOK (NewOrderBook h) := by
  intro buy l hl
  cases buy <;> simp [contra, NewOrderBook] at hl

theorem SideOK_PlaceMarketOrder (s : State) (o : Nat) (h : SideOK s) :
    SideOK (PlaceMarketOrder s o).2 := by
  apply PlaceMarketOrder_keeps SideOK _ _ _ _ _ _ s o h
  · intro s l a b hs
    exact SideOK_shrink s _ hs (fun buy x hx => by rw [contra, fillOrder_ob] at hx; exact hx)
      (fun p x hx => by rw [fillOrder_limit] at hx; exact hx) (fun x => fillOrder_Bid s l a b x)
  · intro s l v hs
    refine SideOK_shrink s _ hs (fun buy x hx => hx) (fun p x hx => ?_) (fun x => rfl)
    rw [setVolume_limit] at hx
    split at hx
    · rename_i hp; subst hp; exact hx
    · exact hx
  · intro s l o hs
    exact SideOK_shrink s _ hs (fun buy x hx => hx) (fun p => DeleteOrder_orders_subset s l o p)
      (fun x => DeleteOrder_Bid s l o x)
  · intro s b l hs
    exact SideOK_shrink s _ hs (fun buy => clearLimit_contra_subset s b l buy)
      (fun p x hx => by rw [clearLimit_limit] at hx; exact hx)
      (fun x => by rw [clearLimit_order])
  · intro s hs
    refine SideOK_shrink s _ hs (fun buy x hx => ?_) (fun p x hx => hx) (fun x => rfl)
    cases buy
    · exact hx
    · exact (mem_contra_sortedSide s true x).mp hx
  · intro s hs
    refine SideOK_shrink s _ hs (fun buy x hx => ?_) (fun p x hx => hx) (fun x => rfl)
    cases buy
    · exact (mem_contra_sortedSide s false x).mp hx
    · exact hx

theorem SideOK_CancelOrder (s : State) (o : Nat) (h : SideOK s) :
    SideOK (CancelOrder s o).2 := by
  rw [CancelOrder_snd]
  cases hl : (s.order o).Limit with
  | none => exact h
  | some l =>
    exact SideOK_shrink s _ h (fun buy x hx => hx)
      (fun p x hx => DeleteOrder_orders_subset s l o p x hx)
      (fun x => DeleteOrder_Bid s l o x)

theorem PlaceLimitOrder_Bid (s : State) (price : ℚ) (o x : Nat) :
    ((PlaceLimitOrder s price o).order x).Bid = (s.order x).Bid := by
  rw [PlaceLimitOrder_order]; split <;> simp_all

theorem contra_disjoint (s : State) (hnd : (levels s).Nodup) (buy : Bool) (l : Nat)
    (h1 : l ∈ (contra s buy).vis) (h2 : l ∈ (contra s (!buy)).vis) : False := by
  rw [levels_eq_contra] at hnd
  cases buy
  · exact List.disjoint_of_nodup_append hnd (by simpa using h2) h1
  · exact List.disjoint_of_nodup_append hnd h1 (by simpa using h2)

theorem SideOK_PlaceLimitOrder (s : State) (price : ℚ) (o : Nat) (hi : Indexed s)
    (h : SideOK s) : SideOK (PlaceLimitOrder s price o) := by
  intro buy l hl x hx
  rw [PlaceLimitOrder_Bid]
  have hit := Indexed_PlaceLimitOrder s price o hi
  have hO := (PlaceLimitOrder_limit_target s price o).1
  have hc := PlaceLimitOrder_contra s price o
  by_cases hL : l = targetLimit s price o
  · subst hL
    cases hlk : lookupLimit s price o with
    | some l' =>
      have htl : targetLimit s price o = l' := by unfold targetLimit; rw [hlk]; rfl
      obtain ⟨hmem, _⟩ := lookupLimit_found s price o l' hi hlk
      rw [hlk] at hO
      simp only at hO
      rw [htl] at hl hx hO
      rw [hc, hlk, if_neg (fun hcc => Option.noConfusion hcc.2)] at hl
      have hbuy : buy = !(s.order o).Bid := by
        by_contra hne
        have : (!buy) = !(s.order o).Bid := by
          cases buy <;> cases hB : (s.order o).Bid <;> simp_all
        exact contra_disjoint s hi.nodup buy l' hl (this ▸ hmem)
      rw [hO] at hx
      rcases List.mem_append.mp hx with hx | hx
      · exact h buy l' hl x hx
      · rw [List.mem_singleton.mp hx, hbuy]; simp
    | none =>
      have htl : targetLimit s price o = s.nextLimit := by unfold targetLimit; rw [hlk]; rfl
      rw [hlk] at hO
      simp only at hO
      rw [htl] at hl hx hO
      rw [hc, hlk] at hl
      have hnew : ∀ b, s.nextLimit ∉ (contra s b).vis := fun b hm =>
        Nat.lt_irrefl _ (hi.lt _ (contra_mem_levels s b _ hm))
      have hbuy : buy = !(s.order o).Bid := by
        by_contra hne
        rw [if_neg (fun hcc => hne hcc.1)] at hl
        exact hnew buy hl
      rw [hO] at hx
      have hxo : x = o := by simpa using hx
      rw [hxo, hbuy]; simp
  · rw [PlaceLimitOrder_limit_ne s price o l hL] at hx
    have hl' : l ∈ (contra s buy).vis := by
      rw [hc] at hl
      split at hl
      · rename_i hcc
        have htl : targetLimit s price o = s.nextLimit := by
          unfold targetLimit; rw [hcc.2]; rfl
        rcases List.mem_append.mp hl with h1 | h1
        · exact h1
        · exact absurd (by rw [htl]; simpa using h1) hL
      · exact hl
    exact h buy l hl' x hx

theorem SideOK_step (s : State) (op : Op) (hi : Indexed s) (h : SideOK s) :
    SideOK (step s op) := by
  cases op with
  | limit price o => exact SideOK_PlaceLimitOrder s price o hi h
  | market o => exact SideOK_PlaceMarketOrder s o h
  | cancel o => exact SideOK_CancelOrder s o h

/-- Every history keeps the orders of each level on the side of the level. -/
theorem SideOK_run (ops : List Op) :
    ∀ s, Indexed s → SideOK s → SideOK (run s ops) := by
  induction ops with
  | nil => intro s _ h; exact h
  | cons op rest ih =>
    intro s hi h
    exact ih _ (Indexed_step s op hi) (SideOK_step s op hi h)

/-! ## The two parties of a match -/

theorem Fill_Bid (s : State) (l o p : Nat) :
    ((Fill s l o).1.order p).Bid = (s.order p).Bid :=
  Fill_keeps (fun t => (t.order p).Bid = (s.order p).Bid)
    (fun t l a b ht => (fillOrder_Bid t l a b p).trans ht)
    (fun _ _ _ ht => ht) (fun t l o ht => (DeleteOrder_Bid t l o p).trans ht) s l o rfl

/-- Every match of the loop is at the price of the level, between an order `a` of
the level and the incoming order; the buy of the two is in the field `Bid`. -/
theorem fillLoop_parties (l o : Nat) (os : List Nat) :
    ∀ (s : State), ∀ m ∈ (fillLoop l o os s [] []).2.1,
      ∃ a ∈ os, m.Price = (s.limit l).Price ∧
        m.Ask = (if (s.order a).Bid then o else a) ∧
        m.Bid = (if (s.order a).Bid then a else o) := by
  induction os with
  | nil => intro s m hm; simp [fillLoop] at hm
  | cons a rest ih =>
    intro s m hm
    rw [fillLoop_matches_cons] at hm
    have hfirst : ∃ a' ∈ a :: rest, (fillOrder s l a o).2.Price = (s.limit l).Price ∧
        (fillOrder s l a o).2.Ask = (if (s.order a').Bid then o else a') ∧
        (fillOrder s l a o).2.Bid = (if (s.order a').Bid then a' else o) :=
      ⟨a, List.mem_cons_self _ _, fillOrder_Price s l a o, fillOrder_parties s l a o⟩
    split at hm
    · rw [List.mem_singleton.mp hm]; exact hfirst
    · rcases List.mem_cons.mp hm with h | h
      · rw [h]; exact hfirst
      · obtain ⟨a', ha', h1, h2, h3⟩ := ih _ m h
        rw [(SameShape_fillStep s l a o).price] at h1
        rw [(SameShape_fillStep s l a o).side] at h2 h3
        exact ⟨a', List.mem_cons_of_mem _ ha', h1, h2, h3⟩

theorem sweepStep_Bid (buy : Bool) (o l : Nat) (s : State) (p : Nat) :
    ((sweepStep buy o s l).order p).Bid = (s.order p).Bid := by
  rw [sweepStep_order, Fill_Bid]

/-- Every match of the sweep is at the price of one of the levels swept, between an
order that level listed when the sweep began and the incoming order. -/
theorem sweepLevels_parties (buy : Bool) (o : Nat) (L : List Nat) :
    ∀ s : State, L.Nodup → ∀ m ∈ (sweepLevels buy o L s []).2,
      ∃ l ∈ L, ∃ a ∈ (s.limit l).Orders.vis, m.Price = (s.limit l).Price ∧
        m.Ask = (if (s.order a).Bid then o else a) ∧
        m.Bid = (if (s.order a).Bid then a else o) := by
  induction L with
  | nil => intro s _ m hm; simp [sweepLevels] at hm
  | cons l rest ih =>
    intro s hnd m hm
    have hnd' := List.nodup_cons.mp hnd
    rw [sweepLevels_matches_cons] at hm
    rcases List.mem_append.mp hm with hm | hm
    · obtain ⟨a, ha, h1, h2, h3⟩ := fillLoop_parties l o _ s m hm
      exact ⟨l, List.mem_cons_self _ _, a, ha, h1, h2, h3⟩
    · obtain ⟨l', hl', a, ha, h1, h2, h3⟩ := ih _ hnd'.2 m hm
      have hne : l' ≠ l := fun he => hnd'.1 (he ▸ hl')
      rw [sweepStep_limit, Fill_limit_ne s l o l' hne] at ha h1
      rw [sweepStep_Bid] at h2 h3
      exact ⟨l', List.mem_cons_of_mem _ hl', a, ha, h1, h2, h3⟩

/-- C15: on every book `s` reached from NewOrderBook by any sequence of the three
operations, every match `m` returned by a PlaceMarketOrder of `o` that does not
fail is made with an order `a` that a level `l` of the opposite side (the asks
for a buy, the bids for a sell) listed when the call began: `m.Price` is the
price of `l`, `a` is not `o` and is on the other side than `o`, one of the
fields `Bid`, `Ask` is `o` and the other is `a`, and the order in the field
`Bid` is a buy and the order in the field `Ask` is a sell. -/
theorem match_content (h : Nat → Order) (ops : List Op) (s : State)
    (hs : run (NewOrderBook h) ops = s) (o : Nat) (ms : List Match)
    (hok : (PlaceMarketOrder s o).1 = .ok ms) (m : Match) (hm : m ∈ ms) :
    ∃ l ∈ (contra s (s.order o).Bid).vis, ∃ a ∈ (s.limit l).Orders.vis,
      m.Price = (s.limit l).Price ∧ a ≠ o ∧ (s.order a).Bid = (!(s.order o).Bid) ∧
      ((m.Bid = o ∧ m.Ask = a) ∨ (m.Ask = o ∧ m.Bid = a)) ∧
      (s.order m.Bid).Bid = true ∧ (s.order m.Ask).Bid = false := by
  subst hs
  have hi := Indexed_run ops _ (Indexed_NewOrderBook h)
  have hso := SideOK_run ops _ (Indexed_NewOrderBook h) (SideOK_NewOrderBook h)
  generalize run (NewOrderBook h) ops = s at hi hso hok
  have hv := PlaceMarketOrder_ok_of s o ms hok
  rw [PlaceMarketOrder_ok s o hi.nodup hv] at hok
  have hms := (Except.ok.inj hok).symm
  rw [hms] at hm
  obtain ⟨l, hl, a, ha, h1, h2, h3⟩ := sweepLevels_parties _ o _ _
    (contra_sortedSide_nodup s _ hi.nodup) m hm
  rw [sortedSide_limit] at ha h1
  rw [sortedSide_order] at h2 h3
  have hl' := (mem_contra_sortedSide s _ l).mp hl
  have hside := hso _ l hl' a ha
  have hao : a ≠ o := by
    intro he
    rw [he] at hside
    cases hB : (s.order o).Bid <;> rw [hB] at hside <;> simp at hside
  refine ⟨l, hl', a, ha, h1, hao, hside, ?_⟩
  cases hB : (s.order o).Bid
  · have ha' : (s.order a).Bid = true := by rw [hside, hB]; rfl
    rw [ha'] at h2 h3
    simp only [if_true] at h2 h3
    exact ⟨Or.inr ⟨h2, h3⟩, by rw [h3]; exact ha', by rw [h2]; exact hB⟩
  · have ha' : (s.order a).Bid = false := by rw [hside, hB]; rfl
    rw [ha'] at h2 h3
    simp only [Bool.false_eq_true, if_false] at h2 h3
    exact ⟨Or.inl ⟨h3, h2⟩, by rw [h3]; exact hB, by rw [h2]; exact ha'⟩

/-- C15 (witness): the asks 3 @ 51 and 5 @ 50 and the market buy of 6 (order 2); the
first match is at 50, with the buy 2 in the field `Bid` and the sell 0 in the
field `Ask`. -/
theorem match_content_witness :
    (PlaceMarketOrder twoAskBook 2).1 = .ok [⟨0, 2, 5, 50⟩, ⟨1, 2, 1, 51⟩] ∧
    (∃ l ∈ (contra twoAskBook (twoAskBook.order 2).Bid).vis,
      ∃ a ∈ (twoAskBook.limit l).Orders.vis,
        (⟨0, 2, 5, 50⟩ : Match).Price = (twoAskBook.limit l).Price ∧ a ≠ 2 ∧
        (twoAskBook.order a).Bid = (!(twoAskBook.order 2).Bid) ∧
        (((⟨0, 2, 5, 50⟩ : Match).Bid = 2 ∧ (⟨0, 2, 5, 50⟩ : Match).Ask = a) ∨
          ((⟨0, 2, 5, 50⟩ : Match).Ask = 2 ∧ (⟨0, 2, 5, 50⟩ : Match).Bid = a)) ∧
        (twoAskBook.order (⟨0, 2, 5, 50⟩ : Match).Bid).Bid = true ∧
        (twoAskBook.order (⟨0, 2, 5, 50⟩ : Match).Ask).Bid = false) :=
  ⟨by decide!,
    match_content sweepHeap [Op.limit 51 1, Op.limit 50 0] twoAskBook rfl 2
      [⟨0, 2, 5, 50⟩, ⟨1, 2, 1, 51⟩] (by decide!) ⟨0, 2, 5, 50⟩ (by decide)⟩

/-! ## Back-references of orders that do not rest -/

theorem BackrefExact_NewOrderBook (h : Nat → Order) : BackrefExact (NewOrderBook h) := by
  intro x l hx
  simp [NewOrderBook] at hx

theorem BackrefExact_of_SameShape {s t : State} (hsh : SameShape s t) (h : BackrefExact s) :
    BackrefExact t := by
  intro x l hx
  rw [hsh.backref] at hx
  rw [hsh.levels_eq, hsh.orders]
  exact h x l hx

theorem BackrefExact_DeleteOrder (s : State) (l o : Nat)
    (hnd : (s.limit l).Orders.vis.Nodup) (h : BackrefExact s) :
    BackrefExact (DeleteOrder s l o) := by
  intro x l' hx
  rw [DeleteOrder_order] at hx
  by_cases hxo : x = o
  · rw [if_pos hxo] at hx
    exact Option.noConfusion hx
  · rw [if_neg hxo] at hx
    obtain ⟨h1, h2⟩ := h x l' hx
    refine ⟨h1, ?_⟩
    by_cases hl : l' = l
    · subst hl
      apply (DeleteOrder_orders_perm s l' o hnd).mem_iff.mpr
      exact (List.mem_erase_of_ne hxo).mpr h2
    · rw [DeleteOrder_limit_ne s l o l' hl]; exact h2

theorem BackrefExact_deleteAll (l : Nat) (del : List Nat) :
    ∀ s : State, (s.limit l).Orders.vis.Nodup → BackrefExact s →
      BackrefExact (deleteAll s l del) := by
  induction del with
  | nil => intro s _ h; exact h
  | cons d rest ih =>
    intro s hnd h
    rw [deleteAll_cons]
    exact ih _ ((DeleteOrder_orders_perm s l d hnd).nodup_iff.mpr (hnd.erase d))
      (BackrefExact_DeleteOrder s l d hnd h)

theorem BackrefExact_Fill (s : State) (l o : Nat) (hnd : (s.limit l).Orders.vis.Nodup)
    (h : BackrefExact s) : BackrefExact (Fill s l o).1 := by
  rw [Fill_eq]
  have hsh := SameShape_fillLoop l o (s.limit l).Orders.vis s [] []
  exact BackrefExact_deleteAll l _ _ (by rw [hsh.orders]; exact hnd)
    (BackrefExact_of_SameShape hsh h)

theorem BackrefExact_clearLimit (s : State) (bid : Bool) (l : Nat) (hnd : (levels s).Nodup)
    (hempty : (s.limit l).Orders.vis = []) (h : BackrefExact s) :
    BackrefExact (clearLimit s bid l) := by
  intro x l' hx
  rw [clearLimit_order] at hx
  rw [clearLimit_limit]
  obtain ⟨h1, h2⟩ := h x l' hx
  refine ⟨mem_levels_clearLimit s bid l l' hnd h1 ?_, h2⟩
  intro he
  rw [he, hempty] at h2
  exact absurd h2 (List.not_mem_nil _)

theorem BackrefExact_sweepStep (buy : Bool) (o l : Nat) (s : State) (hw : WF s)
    (hl : l ∈ levels s) (h : BackrefExact s) : BackrefExact (sweepStep buy o s l) := by
  have h1 := BackrefExact_Fill s l o (hw.orders_nodup l hl) h
  unfold sweepStep
  split
  · rename_i h0
    apply BackrefExact_clearLimit _ _ _ _ (List.length_eq_zero.mp h0) h1
    rw [Fill_levels]; exact hw.levels_nodup
  · exact h1

theorem BackrefExact_sweepLevels (buy : Bool) (o : Nat) (L : List Nat) :
    ∀ (s : State), Sweepable s o L → BackrefExact s →
      BackrefExact (sweepLevels buy o L s []).1 := by
  induction L with
  | nil => intro s _ h; exact h
  | cons l rest ih =>
    intro s hsw h
    rw [sweepLevels_state_cons]
    exact ih _ (Sweepable_step buy o l rest s hsw)
      (BackrefExact_sweepStep buy o l s hsw.wf (hsw.mem l (List.mem_cons_self _ _)) h)

theorem BackrefExact_sortedSide (s : State) (buy : Bool) (h : BackrefExact s) :
    BackrefExact (sortedSide s buy) := by
  intro x l hx
  rw [sortedSide_order] at hx
  rw [sortedSide_limit]
  obtain ⟨h1, h2⟩ := h x l hx
  exact ⟨(levels_sortedSide s buy).mem_iff.mpr h1, h2⟩

theorem BackrefExact_PlaceMarketOrder (s : State) (o : Nat) (hw : WF s) (hf : Fresh s o)
    (h : BackrefExact s) : BackrefExact (PlaceMarketOrder s o).2 := by
  by_cases hv : (s.order o).Size > contraVolume s (s.order o).Bid
  · rw [PlaceMarketOrder_fail s o hv]; exact h
  · rw [PlaceMarketOrder_ok s o hw.levels_nodup hv]
    exact BackrefExact_sweepLevels _ o _ _ (Sweepable_sorted s o _ hw hf)
      (BackrefExact_sortedSide s _ h)

theorem BackrefExact_CancelOrder (s : State) (o : Nat) (hw : WF s) (h : BackrefExact s) :
    BackrefExact (CancelOrder s o).2 := by
  rw [CancelOrder_snd]
  cases hl : (s.order o).Limit with
  | none => exact h
  | some l =>
    have h1 := BackrefExact_DeleteOrder s l o (hw.orders_nodup l (h o l hl).1) h
    intro x l' hx
    exact h1 x l' hx

/-- The level a limit order is added to is in the slice of the order's side
afterwards. -/
theorem targetLimit_mem (s : State) (price : ℚ) (o : Nat) (hi : Indexed s) :
    targetLimit s price o ∈ (contra (PlaceLimitOrder s price o) (!(s.order o).Bid)).vis := by
  rw [PlaceLimitOrder_contra]
  cases hlk : lookupLimit s price o with
  | some l =>
    have htl : targetLimit s price o = l := by unfold targetLimit; rw [hlk]; rfl
    rw [if_neg (fun hc => Option.noConfusion hc.2), htl]
    exact (lookupLimit_found s price o l hi hlk).1
  | none =>
    have htl : targetLimit s price o = s.nextLimit := by unfold targetLimit; rw [hlk]; rfl
    rw [if_pos ⟨rfl, rfl⟩, htl]
    simp [Slice.append]

theorem levels_PlaceLimitOrder (s : State) (price : ℚ) (o l : Nat) (hl : l ∈ levels s) :
    l ∈ levels (PlaceLimitOrder s price o) := by
  rw [levels_eq_contra] at hl ⊢
  have key : ∀ buy, l ∈ (contra s buy).vis →
      l ∈ (contra (PlaceLimitOrder s price o) buy).vis := by
    intro buy hm
    rw [PlaceLimitOrder_contra]
    split
    · exact List.mem_append_left _ hm
    · exact hm
  rcases List.mem_append.mp hl with h1 | h1
  · exact List.mem_append_left _ (key true h1)
  · exact List.mem_append_right _ (key false h1)

theorem BackrefExact_PlaceLimitOrder (s : State) (price : ℚ) (o : Nat) (hi : Indexed s)
    (h : BackrefExact s) : BackrefExact (PlaceLimitOrder s price o) := by
  have hO := (PlaceLimitOrder_limit_target s price o).1
  intro x l hx
  rw [PlaceLimitOrder_order] at hx
  by_cases hxo : x = o
  · rw [if_pos hxo] at hx
    have hl : targetLimit s price o = l := Option.some.inj hx
    rw [← hl, hxo]
    refine ⟨contra_mem_levels _ _ _ (targetLimit_mem s price o hi), ?_⟩
    rw [hO]; simp
  · rw [if_neg hxo] at hx
    obtain ⟨h1, h2⟩ := h x l hx
    refine ⟨levels_PlaceLimitOrder s price o l h1, ?_⟩
    by_cases hl : l = targetLimit s price o
    · rw [hl, hO]
      apply List.mem_append_left
      cases hlk : lookupLimit s price o with
      | some l' =>
        have htl : targetLimit s price o = l' := by unfold targetLimit; rw [hlk]; rfl
        simp only
        rw [← htl, ← hl]; exact h2
      | none =>
        have htl : targetLimit s price o = s.nextLimit := by unfold targetLimit; rw [hlk]; rfl
        rw [hl, htl] at h1
        exact absurd (hi.lt _ h1) (Nat.lt_irrefl _)
    · rw [PlaceLimitOrder_limit_ne s price o l hl]; exact h2

theorem BackrefExact_step (s : State) (op : Op) (hw : WF s) (hi : Indexed s)
    (h : BackrefExact s) (hok : op.ok s) : BackrefExact (step s op) := by
  cases op with
  | limit price o => exact BackrefExact_PlaceLimitOrder s price o hi h
  | market o => exact BackrefExact_PlaceMarketOrder s o hw (fresh_of_nil s o hw hok.1) h
  | cancel o => exact BackrefExact_CancelOrder s o hw h

theorem BackrefExact_run (ops : List Op) :
    ∀ s, WF s → Indexed s → BackrefExact s → Trace Op.ok s ops → BackrefExact (run s ops) := by
  induction ops with
  | nil => intro s _ _ h _; exact h
  | cons op rest ih =>
    intro s hw hi h ht
    exact ih _ (WF_step s op hw ht.1) (Indexed_step s op hi)
      (BackrefExact_step s op hw hi h ht.1) ht.2

/-! ## Back-references that are nil, and orders filled completely -/

theorem DeleteOrder_Limit_none (s : State) (l o x : Nat) (h : (s.order x).Limit = none) :
    ((DeleteOrder s l o).order x).Limit = none := by
  rw [DeleteOrder_order]; split
  · rfl
  · exact h

theorem Fill_Limit_none (s : State) (l o x : Nat) (h : (s.order x).Limit = none) :
    ((Fill s l o).1.order x).Limit = none :=
  Fill_keeps (fun t => (t.order x).Limit = none)
    (fun t l a b ht => (fillOrder_Limit t l a b x).trans ht)
    (fun _ _ _ ht => ht) (fun t l o ht => DeleteOrder_Limit_none t l o x ht) s l o h

theorem PlaceMarketOrder_Limit_none (s : State) (o x : Nat) (h : (s.order x).Limit = none) :
    ((PlaceMarketOrder s o).2.order x).Limit = none :=
  PlaceMarketOrder_keeps (fun t => (t.order x).Limit = none)
    (fun t l a b ht => (fillOrder_Limit t l a b x).trans ht)
    (fun _ _ _ ht => ht) (fun t l o ht => DeleteOrder_Limit_none t l o x ht)
    (fun t b l ht => by
      show ((clearLimit t b l).order x).Limit = none
      rw [clearLimit_order]; exact ht)
    (fun _ ht => ht) (fun _ ht => ht) s o h

theorem sweepLevels_Limit_none (buy : Bool) (o : Nat) (L : List Nat) (x : Nat) :
    ∀ (s : State) (ms : List Match), (s.order x).Limit = none →
      ((sweepLevels buy o L s ms).1.order x).Limit = none := by
  induction L with
  | nil => intro s ms h; exact h
  | cons l rest ih =>
    intro s ms h
    rw [sweepLevels_cons]
    apply ih
    rw [sweepStep_order]
    exact Fill_Limit_none s l o x h

/-- A back-reference that is nil stays nil under every operation other than the
placing of that order. -/
theorem step_Limit_none (s : State) (op : Op) (x : Nat) (h : (s.order x).Limit = none)
    (hop : ∀ p, op ≠ Op.limit p x) : ((step s op).order x).Limit = none := by
  cases op with
  | limit price o =>
    have hne : x ≠ o := fun he => hop price (by rw [he])
    show ((PlaceLimitOrder s price o).order x).Limit = none
    rw [PlaceLimitOrder_order, if_neg hne]; exact h
  | market o => exact PlaceMarketOrder_Limit_none s o x h
  | cancel o =>
    show ((CancelOrder s o).2.order x).Limit = none
    rw [CancelOrder_snd]
    cases hl : (s.order o).Limit with
    | none => exact h
    | some l => exact DeleteOrder_Limit_none s l o x h

theorem deleteAll_Limit_none (s : State) (l : Nat) (del : List Nat) (x : Nat)
    (h : (s.order x).Limit = none) : ((deleteAll s l del).order x).Limit = none := by
  induction del generalizing s with
  | nil => exact h
  | cons d rest ih => rw [deleteAll_cons]; exact ih _ (DeleteOrder_Limit_none s l d x h)

/-- The deferred deletions set the back-reference of every deleted order to nil. -/
theorem deleteAll_Limit_mem (s : State) (l : Nat) (del : List Nat) (x : Nat) (hx : x ∈ del) :
    ((deleteAll s l del).order x).Limit = none := by
  induction del generalizing s with
  | nil => exact absurd hx (List.not_mem_nil _)
  | cons d rest ih =>
    rw [deleteAll_cons]
    by_cases hd : x = d
    · apply deleteAll_Limit_none
      rw [DeleteOrder_order, if_pos hd]
    · rcases List.mem_cons.mp hx with h1 | h1
      · exact absurd h1 hd
      · exact ih _ h1

/-- The orders marked for deletion by the loop on the orders `a :: rest`. -/
theorem fillLoop_del_cons (l o a : Nat) (rest : List Nat) (s : State) :
    (fillLoop l o (a :: rest) s [] []).2.2 =
      (if IsFilled (fillStep s l a o) a then [a] else []) ++
        (if IsFilled (fillStep s l a o) o then []
          else (fillLoop l o rest (fillStep s l a o) [] []).2.2) := by
  rw [fillLoop_cons]
  split
  · simp
  · rw [fillLoop_acc]; simp

theorem fillStep_size_frame (s : State) (l a o p : Nat) (hpa : p ≠ a) (hpo : p ≠ o) :
    ((fillStep s l a o).order p).Size = (s.order p).Size := by
  have := fillLoop_size_frame l o [a] s [] [] p (by simpa using hpa) hpo
  rw [fillLoop_state_cons] at this
  split at this
  · exact this
  · exact this

/-- An order of the level that the loop leaves with size 0 either had size 0 before
or is marked for deletion. -/
theorem fillLoop_zero_del (l o : Nat) (os : List Nat) :
    ∀ (s : State), os.Nodup → o ∉ os → ∀ x ∈ os,
      ((fillLoop l o os s [] []).1.order x).Size = 0 →
        (s.order x).Size = 0 ∨ x ∈ (fillLoop l o os s [] []).2.2 := by
  induction os with
  | nil => intro s _ _ x hx; exact absurd hx (List.not_mem_nil _)
  | cons a rest ih =>
    intro s hnd ho x hx h0
    have hnd' := List.nodup_cons.mp hnd
    have hao : a ≠ o := fun h => ho (h ▸ List.mem_cons_self _ _)
    have hor : o ∉ rest := fun h => ho (List.mem_cons_of_mem _ h)
    rw [fillLoop_state_cons] at h0
    rw [fillLoop_del_cons]
    rcases List.mem_cons.mp hx with hxa | hxr
    · subst hxa
      right
      have hsz : ((fillStep s l x o).order x).Size = 0 := by
        split at h0
        · exact h0
        · rw [fillLoop_size_frame l o rest _ [] [] x hnd'.1 hao] at h0; exact h0
      have hf : IsFilled (fillStep s l x o) x = true := by
        unfold IsFilled; exact decide_eq_true hsz
      rw [if_pos hf]
      exact List.mem_append_left _ (List.mem_singleton_self _)
    · have hxa : x ≠ a := fun he => hnd'.1 (he ▸ hxr)
      have hxo : x ≠ o := fun he => hor (he ▸ hxr)
      have hfr := fillStep_size_frame s l a o x hxa hxo
      split at h0
      · left; rw [← hfr]; exact h0
      · rename_i hfo
        rw [if_neg hfo]
        rcases ih _ hnd'.2 hor x hxr h0 with h1 | h1
        · left; rw [← hfr]; exact h1
        · right; exact List.mem_append_right _ h1

/-- An order of the level that Fill takes to size 0 has a nil back-reference
afterwards. -/
theorem Fill_zero_Limit (s : State) (l o x : Nat) (hnd : (s.limit l).Orders.vis.Nodup)
    (ho : o ∉ (s.limit l).Orders.vis) (hx : x ∈ (s.limit l).Orders.vis)
    (hs : (s.order x).Size ≠ 0) (h0 : ((Fill s l o).1.order x).Size = 0) :
    ((Fill s l o).1.order x).Limit = none := by
  rw [Fill_size] at h0
  rcases fillLoop_zero_del l o _ s hnd ho x hx h0 with h1 | h1
  · exact absurd h1 hs
  · rw [Fill_eq]
    exact deleteAll_Limit_mem _ l _ x h1

/-- An order that the sweep takes to size 0 has a nil back-reference afterwards. -/
theorem sweepLevels_zero_Limit (buy : Bool) (o : Nat) (L : List Nat) :
    ∀ s : State, Sweepable s o L → ∀ x, x ≠ o → (s.order x).Size ≠ 0 →
      ((sweepLevels buy o L s []).1.order x).Size = 0 →
      ((sweepLevels buy o L s []).1.order x).Limit = none := by
  induction L with
  | nil => intro s _ x _ hs h0; exact absurd h0 hs
  | cons l rest ih =>
    intro s hsw x hxo hs h0
    have hl := hsw.mem l (List.mem_cons_self _ _)
    rw [sweepLevels_state_cons] at h0 ⊢
    by_cases h1 : ((sweepStep buy o s l).order x).Size = 0
    · apply sweepLevels_Limit_none
      rw [sweepStep_order] at h1 ⊢
      have hx : x ∈ (s.limit l).Orders.vis := by
        by_contra hn
        rw [Fill_size_frame s l o x hn hxo] at h1
        exact hs h1
      exact Fill_zero_Limit s l o x (hsw.wf.orders_nodup l hl) (hsw.fresh l hl) hx hs h1
    · exact ih _ (Sweepable_step buy o l rest s hsw) x hxo h1 h0

/-- C18: on every book `s` reached from NewOrderBook by a sequence of PlaceLimitOrder
and non-failing PlaceMarketOrder on orders that do not rest and CancelOrder of
resting orders: every order listed by a level of either side points back to that
level; every order that rests in no level (so every cancelled or completely
filled order, and every market order) has a nil back-reference; cancelling a
resting order leaves it with a nil back-reference and resting nowhere; after a
market order that does not fail the market order, and every order whose size
the call took from non-zero to 0, has a nil back-reference and rests nowhere;
and a nil back-reference stays nil under every operation other than the placing
of that order. -/
theorem backref_consistency (h : Nat → Order) (ops : List Op) (s : State)
    (hs : run (NewOrderBook h) ops = s) (hv : Trace Op.ok (NewOrderBook h) ops) :
    (∀ l ∈ levels s, ∀ x ∈ (s.limit l).Orders.vis, (s.order x).Limit = some l) ∧
    (∀ x, ¬ Resting s x → (s.order x).Limit = none) ∧
    (∀ x, Resting s x →
      ((CancelOrder s x).2.order x).Limit = none ∧ ¬ Resting (CancelOrder s x).2 x) ∧
    (∀ o ms, (s.order o).Limit = none → (PlaceMarketOrder s o).1 = .ok ms →
      ((PlaceMarketOrder s o).2.order o).Limit = none ∧
      ¬ Resting (PlaceMarketOrder s o).2 o ∧
      ∀ x, (s.order x).Size ≠ 0 → ((PlaceMarketOrder s o).2.order x).Size = 0 →
        ((PlaceMarketOrder s o).2.order x).Limit = none ∧
        ¬ Resting (PlaceMarketOrder s o).2 x) ∧
    (∀ op x, (s.order x).Limit = none → (∀ p, op ≠ Op.limit p x) →
      ((step s op).order x).Limit = none) := by
  subst hs
  have hw := WF_run ops _ (WF_NewOrderBook h) hv
  have hi := Indexed_run ops _ (Indexed_NewOrderBook h)
  have he := BackrefExact_run ops _ (WF_NewOrderBook h) (Indexed_NewOrderBook h)
    (BackrefExact_NewOrderBook h) hv
  generalize run (NewOrderBook h) ops = s at hw hi he
  have hnr : ∀ t : State, WF t → ∀ x, (t.order x).Limit = none → ¬ Resting t x := by
    intro t ht x hx hr
    obtain ⟨l, hl, hm⟩ := hr
    exact fresh_of_nil t x ht hx l hl hm
  refine ⟨hw.backref, ?_, ?_, ?_, fun op x hx hop => step_Limit_none s op x hx hop⟩
  · intro x hx
    cases hl : (s.order x).Limit with
    | none => rfl
    | some l => exact absurd ⟨l, he x l hl⟩ hx
  · intro x hr
    have hwc := WF_CancelOrder s x hw hr
    obtain ⟨l, hl, hm⟩ := hr
    have hlim : ((CancelOrder s x).2.order x).Limit = none := by
      rw [CancelOrder_resting s l x hw hl hm]
      simp [DeleteOrder_order]
    exact ⟨hlim, hnr _ hwc x hlim⟩
  · intro o ms hf hok
    have hfr := fresh_of_nil s o hw hf
    have hwm := WF_PlaceMarketOrder s o hw hfr
    have ho := PlaceMarketOrder_Limit_none s o o hf
    refine ⟨ho, hnr _ hwm o ho, ?_⟩
    intro x hsz h0
    have hlim : ((PlaceMarketOrder s o).2.order x).Limit = none := by
      by_cases hxo : x = o
      · rw [hxo]; exact ho
      · have hv' := PlaceMarketOrder_ok_of s o ms hok
        rw [PlaceMarketOrder_ok s o hw.levels_nodup hv'] at h0 ⊢
        exact sweepLevels_zero_Limit _ o _ _ (Sweepable_sorted s o _ hw hfr) x hxo
          (by rw [sortedSide_order]; exact hsz) h0
    exact ⟨hlim, hnr _ hwm x hlim⟩

/-- C18 (witness): after the asks 3 @ 51 and 5 @ 50 are placed, a market buy of 6
sweeps them, a buy of 5 is placed at 49 and the rest of the ask at 51 is
cancelled, the filled order 0, the market order 2 and the cancelled order 1 have
nil back-references, and the resting order 3 points back to its level. -/
theorem backref_consistency_witness :
    Trace Op.ok (NewOrderBook sweepHeap) sampleHistory ∧
    (∀ x, ¬ Resting (run (NewOrderBook sweepHeap) sampleHistory) x →
      ((run (NewOrderBook sweepHeap) sampleHistory).order x).Limit = none) ∧
    ¬ Resting (run (NewOrderBook sweepHeap) sampleHistory) 0 ∧
    ¬ Resting (run (NewOrderBook sweepHeap) sampleHistory) 1 ∧
    ¬ Resting (run (NewOrderBook sweepHeap) sampleHistory) 2 ∧
    Resting (run (NewOrderBook sweepHeap) sampleHistory) 3 ∧
    ((run (NewOrderBook sweepHeap) sampleHistory).order 3).Limit = some 2 :=
  ⟨by decide!,
    (backref_consistency sweepHeap sampleHistory (run (NewOrderBook sweepHeap) sampleHistory)
      rfl (by decide!)).2.1,
    by decide!, by decide!, by decide!, by decide!, by decide!⟩

/-! ## The total volume of a side in float64 -/

/-- C11 (counterexample): the asks 0.1 @ 50 and 0.2 @ 51 and a sell of 0.3 placed at
51, all sizes being float64 values.  The level at 51 goes from 0.2 to 0.5, which
float64 holds exactly.  `AskTotalVolume()`, summing in float64, goes from
0.30000000000000004 to 0.6 (5404319552844595 / 2 ^ 53), whereas the total before
plus 0.3 is 0.6000000000000001: the side total does not grow by exactly the size
of the order, neither with the float64 addition nor as exact difference. -/
theorem side_volume_not_exact :
    (round64 (dustBook.order 0).Size = (dustBook.order 0).Size ∧
      round64 (dustBook.order 1).Size = (dustBook.order 1).Size ∧
      round64 (dustBook.order 2).Size = (dustBook.order 2).Size ∧
      round64 (1 / 10) = (dustBook.order 0).Size ∧
      round64 (2 / 10) = (dustBook.order 1).Size ∧
      round64 (3 / 10) = (dustBook.order 2).Size) ∧
    dustBook.ob.asks.vis = [0, 1] ∧
    (PlaceLimitOrder dustBook 51 2).ob.asks.vis = [0, 1] ∧
    (dustBook.limit 0).TotalVolume = (dustBook.order 0).Size ∧
    (dustBook.limit 1).TotalVolume = (dustBook.order 1).Size ∧
    ((PlaceLimitOrder dustBook 51 2).limit 0).TotalVolume = (dustBook.order 0).Size ∧
    ((PlaceLimitOrder dustBook 51 2).limit 1).TotalVolume = 1 / 2 ∧
    round64 ((dustBook.limit 1).TotalVolume + (dustBook.order 2).Size) = 1 / 2 ∧
    AskTotalVolume64 dustBook = 1351079888211149 / 4503599627370496 ∧
    AskTotalVolume64 (PlaceLimitOrder dustBook 51 2) = 5404319552844595 / 9007199254740992 ∧
    round64 (AskTotalVolume64 dustBook + (dustBook.order 2).Size) =
      1351079888211149 / 2251799813685248 ∧
    AskTotalVolume64 (PlaceLimitOrder dustBook 51 2) ≠
      round64 (AskTotalVolume64 dustBook + (dustBook.order 2).Size) ∧
    AskTotalVolume64 (PlaceLimitOrder dustBook 51 2) - AskTotalVolume64 dustBook ≠
      (dustBook.order 2).Size := by
  decide!

end CryptoExchange
